import Mathlib

/-!
The package `goutils`: configuration loading helpers.

A shallow embedding of `config.go`:

* the required-field validation walk `structFieldsDefinedInConfig` over the
  reflected field layout of the destination structure, against the decode
  metadata of the TOML decoder, and its caller `LoadTomlCfg`;
* the byte-size codec `Bytes.UnmarshalText` / `Bytes.String` / `Bytes.MarshalText`;
* the duration codec `Duration.UnmarshalText` / `Duration.MarshalText`, with the
  functions of the Go standard library it delegates to.

Go strings that are only passed around (TOML keys, error messages) are Lean
`String`s.  Go strings that are inspected byte by byte (the text handed to
`UnmarshalText`, the text built by `String`) are `List Char`, one character per
byte; every test the code makes on them is on ASCII characters, where bytes and
characters coincide, except for the two spellings of the micro sign, which are
given by their UTF-8 bytes.
-/

namespace Goutils

/-! ## The reflected type of the destination structure -/

mutual
/-- The part of Go's `reflect.Type` that the walk looks at: the kind of a type
(`Struct`, `Ptr`, or anything else), the fields of a struct and the element
type of a pointer. -/
inductive GoType where
  | other : GoType
  | struct (fields : List StructField) : GoType
  | ptr (elem : GoType) : GoType
/-- The part of `reflect.StructField` that the walk looks at: the result of
`field.Tag.Lookup("toml")`, the result of `field.Tag.Lookup("required")`
(`none` when the tag is absent, `some v` when it is present with value `v`),
and `field.Type`. -/
inductive StructField where
  | mk (toml : Option String) (required : Option String) (type : GoType) : StructField
end

/-- The decode metadata `toml.MetaData`; the walk only calls `IsDefined` on it. -/
structure MetaData where
  IsDefined : List String → Bool

/-- Go's `strings.Join`. -/
def stringsJoin (elems : List String) (sep : String) : String :=
  sep.intercalate elems

/-- The message built on line 54:
`fmt.Errorf("\"%s\" not defined in config file", strings.Join(hierachyTomlKeys, "."))`. -/
def notDefinedError (hierachyTomlKeys : List String) : String :=
  "\"" ++ stringsJoin hierachyTomlKeys "." ++ "\" not defined in config file"

/-- What one run of the walk did: the key paths of the fields whose loop body
it entered past the `toml` tag lookup (in the order it entered them), and the
Go `error` it returned (`none` is `nil`). -/
structure Walk where
  examined : List (List String)
  err : Option String
deriving DecidableEq, Repr

mutual
/-- The loop of `structFieldsDefinedInConfig` (lines 46-66) over the fields of
`structType`, `keys` being the argument `hierachyTomlKeys`.  The slice
`hierachyTomlKeys` after `append(.., "")` and the store into its last slot is
`keys ++ [tomlKey]`. -/
def walkFields (md : MetaData) : List StructField → List String → Walk
  | [], _ => ⟨[], none⟩
  | StructField.mk none _ _ :: rest, keys => walkFields md rest keys
  | StructField.mk (some tomlKey) required type :: rest, keys =>
    if required.isSome && !md.IsDefined (keys ++ [tomlKey]) then
      ⟨[keys ++ [tomlKey]], some (notDefinedError (keys ++ [tomlKey]))⟩
    else
      match walkSubBlock md type (keys ++ [tomlKey]) with
      | ⟨ex, some e⟩ => ⟨(keys ++ [tomlKey]) :: ex, some e⟩
      | ⟨ex, none⟩ =>
        ⟨(keys ++ [tomlKey]) :: ex ++ (walkFields md rest keys).examined,
          (walkFields md rest keys).err⟩
/-- Lines 58-62: the recursive call, made only when the field's type is a
pointer whose element is a struct. -/
def walkSubBlock (md : MetaData) : GoType → List String → Walk
  | GoType.ptr (GoType.struct fields), keys => walkFields md fields keys
  | _, _ => ⟨[], none⟩
end

/-- The function `structFieldsDefinedInConfig(meta, structType, hierachyTomlKeys)`:
the error returned by the walk over the fields of `structType`. -/
def structFieldsDefinedInConfig (md : MetaData) (structType : List StructField)
    (hierachyTomlKeys : List String) : Option String :=
  (walkFields md structType hierachyTomlKeys).err

/-- The function `LoadTomlCfg(configFile, cfgStruct)` (lines 22-35).
`DecodeFile` stands for `toml.DecodeFile`, which reads the file, fills the
destination and returns the metadata or an error (a Go error is represented by
its message); `cfgStruct` is the dynamic type of the second argument.  After a
successful decode the code calls `reflect.TypeOf(cfgStruct).Elem()` and walks
the fields of the result, which panics unless `cfgStruct` is a pointer to a
struct; `none` is that panic.  The result is otherwise the walk that was run
(no field examined when none was run) and the returned error. -/
def LoadTomlCfg (DecodeFile : String → GoType → Except String MetaData)
    (configFile : String) (cfgStruct : GoType) : Option Walk :=
  match DecodeFile configFile cfgStruct with
  | Except.error err => some ⟨[], some err⟩
  | Except.ok md =>
    match cfgStruct with
    | GoType.ptr (GoType.struct fields) => some (walkFields md fields [])
    | _ => none

/-- The function `structFieldsDefinedInConfig` as Go runs it, by general
recursion: `fuel` bounds the number of loop iterations that may still be
started along any chain of nested calls, and `none` means it ran out. -/
def walkFieldsFuel (md : MetaData) : Nat → List StructField → List String → Option Walk
  | 0, _, _ => none
  | _ + 1, [], _ => some ⟨[], none⟩
  | fuel + 1, StructField.mk none _ _ :: rest, keys => walkFieldsFuel md fuel rest keys
  | fuel + 1, StructField.mk (some tomlKey) required type :: rest, keys =>
    if required.isSome && !md.IsDefined (keys ++ [tomlKey]) then
      some ⟨[keys ++ [tomlKey]], some (notDefinedError (keys ++ [tomlKey]))⟩
    else
      match type with
      | GoType.ptr (GoType.struct fields) =>
        match walkFieldsFuel md fuel fields (keys ++ [tomlKey]) with
        | none => none
        | some ⟨ex, some e⟩ => some ⟨(keys ++ [tomlKey]) :: ex, some e⟩
        | some ⟨ex, none⟩ =>
          match walkFieldsFuel md fuel rest keys with
          | none => none
          | some r => some ⟨(keys ++ [tomlKey]) :: ex ++ r.examined, r.err⟩
      | _ =>
        match walkFieldsFuel md fuel rest keys with
        | none => none
        | some r => some ⟨(keys ++ [tomlKey]) :: r.examined, r.err⟩

/-! ## Specification vocabulary for the walk -/

mutual
/-- The fields that carry a `toml` key, in depth-first declaration order: a
field comes before the fields of its own nested block, and a nested block is
listed completely before the next sibling.  Each entry is the presence of the
`required` tag and the full key path. -/
def keyedFields : List StructField → List String → List (Bool × List String)
  | [], _ => []
  | StructField.mk none _ _ :: rest, keys => keyedFields rest keys
  | StructField.mk (some tomlKey) required type :: rest, keys =>
    (required.isSome, keys ++ [tomlKey]) ::
      (keyedSubBlock type (keys ++ [tomlKey]) ++ keyedFields rest keys)
/-- The keyed fields of the nested block of a field of the given type. -/
def keyedSubBlock : GoType → List String → List (Bool × List String)
  | GoType.ptr (GoType.struct fields), keys => keyedFields fields keys
  | _, _ => []
end

/-- The key path `path` belongs to a field that has a config key and a
required marker, at the top level of `fields` or at any depth reached by
descending through fields that have a config key and are pointers to a
structure; `keys` are the keys of the ancestors, outermost first. -/
inductive RequiredPath : List StructField → List String → List String → Prop
  | here {fields : List StructField} {keys : List String} {tomlKey v : String} {type : GoType} :
      StructField.mk (some tomlKey) (some v) type ∈ fields →
      RequiredPath fields keys (keys ++ [tomlKey])
  | inside {fields sub : List StructField} {keys path : List String} {tomlKey : String}
      {required : Option String} :
      StructField.mk (some tomlKey) required (GoType.ptr (GoType.struct sub)) ∈ fields →
      RequiredPath sub (keys ++ [tomlKey]) path →
      RequiredPath fields keys path

/-- A linear scan of a list of (required, path) entries that stops at the first
required path the metadata does not define. -/
def scanKeyed (md : MetaData) : List (Bool × List String) → Walk
  | [] => ⟨[], none⟩
  | (required, path) :: rest =>
    if required && !md.IsDefined path then
      ⟨[path], some (notDefinedError path)⟩
    else
      ⟨path :: (scanKeyed md rest).examined, (scanKeyed md rest).err⟩

mutual
/-- The field list with every field that has no `toml` key removed, at every
depth. -/
def dropKeyless : List StructField → List StructField
  | [] => []
  | StructField.mk none _ _ :: rest => dropKeyless rest
  | StructField.mk (some tomlKey) required type :: rest =>
    StructField.mk (some tomlKey) required (dropKeylessType type) :: dropKeyless rest
/-- The type with every key-less field removed from the structs it mentions. -/
def dropKeylessType : GoType → GoType
  | GoType.other => GoType.other
  | GoType.struct fields => GoType.struct (dropKeyless fields)
  | GoType.ptr elem => GoType.ptr (dropKeylessType elem)
end

/-! ## Byte sizes: constants and library functions -/

/-- The constant `Byte`. -/
def Byte : Int := 1
/-- The constant `KiB`. -/
def KiB : Int := 1024 * Byte
/-- The constant `MiB`. -/
def MiB : Int := 1024 * KiB
/-- The constant `GiB`. -/
def GiB : Int := 1024 * MiB

/-- Go's `strings.HasSuffix(s, suffix)`:
`len(s) >= len(suffix) && s[len(s)-len(suffix):] == suffix`. -/
def HasSuffix (s suffix : List Char) : Bool :=
  decide (s.length ≥ suffix.length) && decide (s.drop (s.length - suffix.length) = suffix)

/-- Go's `strings.TrimSuffix(s, suffix)`. -/
def TrimSuffix (s suffix : List Char) : List Char :=
  if HasSuffix s suffix then s.take (s.length - suffix.length) else s

/-- The two errors of `strconv`: `ErrSyntax` and `ErrRange`. -/
inductive NumError where
  | ErrSyntax : NumError
  | ErrRange : NumError
deriving DecidableEq, Repr

/-- The digit loop of `strconv.ParseUint(s, 10, 64)`, `n` being the value
accumulated so far: a character outside `'0'..'9'` is a syntax error;
`n >= cutoff` (`cutoff = maxUint64/10 + 1`) is a range error; so is a sum
`n*10 + d` that wraps around `2^64`. -/
def parseUintLoop : List Char → Nat → Except NumError Nat
  | [], n => Except.ok n
  | c :: cs, n =>
    if '0' ≤ c ∧ c ≤ '9' then
      if n ≥ (2 ^ 64 - 1) / 10 + 1 then Except.error NumError.ErrRange
      else if n * 10 + (c.toNat - '0'.toNat) ≥ 2 ^ 64 then Except.error NumError.ErrRange
      else parseUintLoop cs (n * 10 + (c.toNat - '0'.toNat))
    else Except.error NumError.ErrSyntax

/-- Go's `strconv.ParseUint(s, 10, 64)`: the empty string is a syntax error. -/
def ParseUint (s : List Char) : Except NumError Nat :=
  match s with
  | [] => Except.error NumError.ErrSyntax
  | _ :: _ => parseUintLoop s 0

/-- Go's `strconv.ParseInt(s, 10, 64)`: the empty string is a syntax error; one
leading `+` or `-` is taken off; the rest goes to `ParseUint`; the magnitude
must be below `2^63`, or at most `2^63` after a `-`. -/
def ParseInt (s : List Char) : Except NumError Int :=
  match s with
  | [] => Except.error NumError.ErrSyntax
  | c :: rest =>
    match ParseUint (if c = '+' ∨ c = '-' then rest else c :: rest) with
    | Except.error e => Except.error e
    | Except.ok un =>
      if c ≠ '-' ∧ un ≥ 2 ^ 63 then Except.error NumError.ErrRange
      else if c = '-' ∧ un > 2 ^ 63 then Except.error NumError.ErrRange
      else Except.ok (if c = '-' then -(un : Int) else (un : Int))

/-- The value of a Go `int64` expression whose mathematical value is `x`:
reduced modulo `2^64` into the signed range. -/
def wrapInt64 (x : Int) : Int :=
  (x + 2 ^ 63) % 2 ^ 64 - 2 ^ 63

/-- The Go slice expression `v[:subIdx]`; `none` is the run-time panic for an
index outside `0..len(v)`. -/
def sliceTo (v : List Char) (subIdx : Int) : Option (List Char) :=
  if 0 ≤ subIdx ∧ subIdx ≤ (v.length : Int) then some (v.take subIdx.toNat) else none

/-! ## Byte sizes: `Bytes` -/

/-- The type `Bytes`, a struct with one embedded `int64`. -/
structure Bytes where
  int64 : Int
deriving DecidableEq, Repr

/-- The constructor `NewBytes`. -/
def NewBytes (size : Int) : Bytes := ⟨size⟩

/-- Lines 95-115 of `Bytes.UnmarshalText`: the values of `unit` and `subIdx`
after the `if`/`else if` chain. -/
def unitAndSubIdx (v : List Char) : Int × Int :=
  if HasSuffix v "k".toList then (KiB, (v.length : Int) - 1)
  else if HasSuffix v "kb".toList then (KiB, (v.length : Int) - 2)
  else if HasSuffix v "m".toList then (MiB, (v.length : Int) - 1)
  else if HasSuffix v "mb".toList then (MiB, (v.length : Int) - 2)
  else if HasSuffix v "g".toList then (GiB, (v.length : Int) - 1)
  else if HasSuffix v "gb".toList then (GiB, (v.length : Int) - 2)
  else (Byte, (v.length : Int))

/-- The method `(b *Bytes) UnmarshalText(text)`.  The result is `none` if the
call panics on the slice expression; otherwise it is the receiver after the
call and the returned error (`none` is `nil`). -/
def Bytes.UnmarshalText (b : Bytes) (text : List Char) : Option (Bytes × Option NumError) :=
  match sliceTo text (unitAndSubIdx text).2 with
  | none => none
  | some digits =>
    match ParseInt digits with
    | Except.ok i => some (⟨wrapInt64 (i * (unitAndSubIdx text).1)⟩, none)
    | Except.error e => some (b, some e)

/-- The method `(b *Bytes) Int64()`. -/
def Bytes.Int64 (b : Bytes) : Int := b.int64

/-! ## Byte sizes: formatting -/

/-- A `float32` value `num / 2^exp`. -/
structure Float32 where
  num : Int
  exp : Nat
deriving DecidableEq, Repr

/-- The number of low bits a natural number loses when it is rounded to the
24-bit significand of a `float32`: the least `s` with `x / 2^s < 2^24`. -/
def float32Shift : Nat → Nat → Nat
  | 0, _ => 0
  | fuel + 1, x => if x < 2 ^ 24 then 0 else float32Shift fuel (x / 2) + 1

/-- Division rounded to the nearest integer, ties to the even one. -/
def roundHalfEven (a b : Nat) : Nat :=
  if 2 * (a % b) > b ∨ (2 * (a % b) = b ∧ (a / b) % 2 = 1) then a / b + 1 else a / b

/-- The conversion `float32(x)` of a natural number (IEEE 754 round to nearest,
ties to even, 24-bit significand). -/
def roundToFloat32 (x : Nat) : Nat :=
  roundHalfEven x (2 ^ float32Shift x x) * 2 ^ float32Shift x x

/-- The conversion `float32(b.int64)`. -/
def float32OfInt64 (x : Int) : Float32 :=
  ⟨if x < 0 then -(roundToFloat32 x.natAbs : Int) else (roundToFloat32 x.natAbs : Int), 0⟩

/-- The quotient `value / unit` for `unit = 2^k` (`KiB`, `MiB`, `GiB`); it is
exact in `float32` since the value is at least `unit`. -/
def Float32.divPow2 (value : Float32) (k : Nat) : Float32 :=
  ⟨value.num, value.exp + k⟩

/-- The decimal digit with value `d`. -/
def digitChar (d : Nat) : Char := Char.ofNat ('0'.toNat + d)

/-- The decimal digits of `n`, most significant first; `fuel` bounds their
number. -/
def decimalDigits : Nat → Nat → List Char
  | 0, _ => []
  | fuel + 1, n =>
    if n < 10 then [digitChar n] else decimalDigits fuel (n / 10) ++ [digitChar (n % 10)]

/-- The decimal text of a natural number. -/
def formatNat (n : Nat) : List Char := decimalDigits (n + 1) n

/-- Go's `fmt.Sprintf("%.1f", value)`: the exact value rounded to one
fractional digit (ties to even), written as sign, integer part, point, digit. -/
def sprintfF1 (value : Float32) : List Char :=
  (if value.num < 0 then ['-'] else []) ++
    formatNat (roundHalfEven (value.num.natAbs * 10) (2 ^ value.exp) / 10) ++ ['.'] ++
    formatNat (roundHalfEven (value.num.natAbs * 10) (2 ^ value.exp) % 10)

/-- The `switch` of `Bytes.String` (lines 145-159): `none` for the early
`return "0"`, otherwise the values of `unit` and `value` after it. -/
def unitAndValue (b : Bytes) : Option (List Char × Float32) :=
  if b.int64 ≥ GiB then some ("GiB".toList, (float32OfInt64 b.int64).divPow2 30)
  else if b.int64 ≥ MiB then some ("MiB".toList, (float32OfInt64 b.int64).divPow2 20)
  else if b.int64 ≥ KiB then some ("KiB".toList, (float32OfInt64 b.int64).divPow2 10)
  else if b.int64 ≥ Byte then some ("B".toList, float32OfInt64 b.int64)
  else if b.int64 = 0 then none
  else some ([], float32OfInt64 b.int64)

/-- The method `(b Bytes) String()`. -/
def Bytes.String (b : Bytes) : List Char :=
  match unitAndValue b with
  | none => "0".toList
  | some (unit, value) => TrimSuffix (sprintfF1 value) ".0".toList ++ unit

/-- The method `(b Bytes) MarshalText()`: the text and the (always nil) error. -/
def Bytes.MarshalText (b : Bytes) : List Char × Option NumError :=
  (b.String, none)

/-! ## Specification vocabulary for byte sizes -/

/-- The number written by a list of decimal digits, continuing from `acc`. -/
def digitsValue (acc : Nat) (digits : List Char) : Nat :=
  digits.foldl (fun n c => n * 10 + (c.toNat - '0'.toNat)) acc

/-- The integer denoted by a base-10 signed numeral: an optional `+` or `-`
followed by one or more decimal digits; `none` for any other text. -/
def numeralValue (s : List Char) : Option Int :=
  match s with
  | [] => none
  | c :: rest =>
    if c = '+' then
      if rest ≠ [] ∧ rest.all Char.isDigit then some (digitsValue 0 rest : Int) else none
    else if c = '-' then
      if rest ≠ [] ∧ rest.all Char.isDigit then some (-(digitsValue 0 rest : Int)) else none
    else
      if (c :: rest).all Char.isDigit then some (digitsValue 0 (c :: rest) : Int) else none

/-- The text is a valid base-10 signed 64-bit integer. -/
def IsInt64Numeral (s : List Char) : Prop :=
  ∃ n : Int, numeralValue s = some n ∧ -(2 ^ 63 : Int) ≤ n ∧ n < 2 ^ 63

/-- The suffixes the parser recognises (the first is the empty suffix), each
with its multiplier. -/
def suffixMultipliers : List (List Char × Int) :=
  [([], 1), ("k".toList, 1024), ("kb".toList, 1024), ("m".toList, 1024 ^ 2),
   ("mb".toList, 1024 ^ 2), ("g".toList, 1024 ^ 3), ("gb".toList, 1024 ^ 3)]

/-- The spellings of the six unit suffixes that have at least one upper-case
letter. -/
def mixedCaseSuffixes : List (List Char) :=
  ["K".toList, "KB".toList, "Kb".toList, "kB".toList,
   "M".toList, "MB".toList, "Mb".toList, "mB".toList,
   "G".toList, "GB".toList, "Gb".toList, "gB".toList]

/-- The parser suffixes (the first is the empty suffix), each with the label
the formatter writes for the same unit. -/
def suffixLabels : List (List Char × List Char) :=
  [([], "B".toList), ("k".toList, "KiB".toList), ("kb".toList, "KiB".toList),
   ("m".toList, "MiB".toList), ("mb".toList, "MiB".toList),
   ("g".toList, "GiB".toList), ("gb".toList, "GiB".toList)]

/-- A number of tenths `t` written in decimal with exactly one fractional
digit, a trailing `.0` removed: `15` is `1.5`, `20` is `2`. -/
def tenthsText (t : Nat) : List Char :=
  if t % 10 = 0 then formatNat (t / 10) else formatNat (t / 10) ++ '.' :: formatNat (t % 10)

/-- The integer `t` is a nearest number of tenths to the quotient `a / b`:
`|t/10 - a/b| ≤ 1/20`. -/
def NearestTenth (t a b : Nat) : Prop :=
  2 * ((t : Int) * b - 10 * a).natAbs ≤ b

mutual
/-- The size of a field list: one for the list itself, one per field, plus the
size of every nested block the walk can descend into. -/
def fieldsSize : List StructField → Nat
  | [] => 1
  | StructField.mk _ _ type :: rest => 1 + subBlockSize type + fieldsSize rest
/-- The size of the nested block of a field of the given type. -/
def subBlockSize : GoType → Nat
  | GoType.ptr (GoType.struct fields) => fieldsSize fields
  | _ => 0
end

mutual
/-- The field list with the value of every `required` tag replaced by its image
under `f`, at every depth; tags that are absent stay absent. -/
def retagFields (f : String → String) : List StructField → List StructField
  | [] => []
  | StructField.mk toml required type :: rest =>
    StructField.mk toml (required.map f) (retagType f type) :: retagFields f rest
/-- The type with the value of every `required` tag replaced by its image. -/
def retagType (f : String → String) : GoType → GoType
  | GoType.other => GoType.other
  | GoType.struct fields => GoType.struct (retagFields f fields)
  | GoType.ptr elem => GoType.ptr (retagType f elem)
end

/-- A suffix matcher driven by a table of (suffix, unit, strip length): the
first entry whose suffix ends the text fixes `unit` and `subIdx`; with no such
entry the unit is `Byte` and nothing is stripped. -/
def firstMatch (table : List (List Char × Int × Int)) (v : List Char) : Int × Int :=
  match table.find? (fun e => HasSuffix v e.1) with
  | some e => (e.2.1, (v.length : Int) - e.2.2)
  | none => (Byte, (v.length : Int))

/-- The suffixes in the order in which `Bytes.UnmarshalText` tests them. -/
def suffixTable : List (List Char × Int × Int) :=
  [("k".toList, KiB, 1), ("kb".toList, KiB, 2), ("m".toList, MiB, 1),
   ("mb".toList, MiB, 2), ("g".toList, GiB, 1), ("gb".toList, GiB, 2)]

/-- The same suffixes with the two-letter ones first. -/
def suffixTableTwoLetterFirst : List (List Char × Int × Int) :=
  [("kb".toList, KiB, 2), ("mb".toList, MiB, 2), ("gb".toList, GiB, 2),
   ("k".toList, KiB, 1), ("m".toList, MiB, 1), ("g".toList, GiB, 1)]

/-- The parser `Bytes.UnmarshalText` with its `if`/`else if` chain replaced by
`firstMatch` on the given table. -/
def UnmarshalTextWith (table : List (List Char × Int × Int)) (b : Bytes) (text : List Char) :
    Option (Bytes × Option NumError) :=
  match sliceTo text (firstMatch table text).2 with
  | none => none
  | some digits =>
    match ParseInt digits with
    | Except.ok i => some (⟨wrapInt64 (i * (firstMatch table text).1)⟩, none)
    | Except.error e => some (b, some e)

/-! ## Durations

`Duration.UnmarshalText` and `Duration.MarshalText` delegate to
`time.ParseDuration` and `time.Duration.String` of the Go standard library,
which are embedded here from the library's source (package `time`, files
`format.go` and `time.go`, the version with `uint64` accumulators).  Texts are
sequences of bytes, written as `List Char`.  The `float64` arithmetic of
`ParseDuration` is exact rational arithmetic followed by rounding to a 53-bit
significand; the exponent range is not modelled, which does not change the
result: a quotient `unit / scale` outside the normal range only arises for a
`scale` above `10^300`, and then the product with `f ≤ 2^63` is below 1 and is
truncated to 0 either way. -/

/-- The least `s` with `num * 2^s / den ≥ 2^52` (found within `fuel` steps). -/
def float64ShiftUp : Nat → Nat → Nat → Nat
  | 0, _, _ => 0
  | fuel + 1, num, den =>
    if num / den ≥ 2 ^ 52 then 0 else float64ShiftUp fuel (num * 2) den + 1

/-- The least `e` with `num / (den * 2^e) < 2^53` (found within `fuel` steps). -/
def float64ShiftDown : Nat → Nat → Nat → Nat
  | 0, _, _ => 0
  | fuel + 1, num, den =>
    if num / den < 2 ^ 53 then 0 else float64ShiftDown fuel num (den * 2) + 1

/-- The `float64` nearest to the rational `num / den` (IEEE 754 round to
nearest, ties to even, 53-bit significand), as a fraction whose denominator is
a power of two. -/
def roundFloat64 (num den : Nat) : Nat × Nat :=
  if num = 0 then (0, 1)
  else if num / den ≥ 2 ^ 53 then
    (roundHalfEven num (den * 2 ^ float64ShiftDown num num den)
      * 2 ^ float64ShiftDown num num den, 1)
  else
    (roundHalfEven (num * 2 ^ float64ShiftUp (den + 53) num den) den,
      2 ^ float64ShiftUp (den + 53) num den)

/-- The table `unitMap` of package `time`, in nanoseconds; the two spellings of
the micro sign are the UTF-8 bytes of U+00B5 and of U+03BC. -/
def unitMap (u : List Char) : Option Nat :=
  if u = "ns".toList then some 1
  else if u = "us".toList then some 1000
  else if u = [Char.ofNat 0xC2, Char.ofNat 0xB5, 's'] then some 1000
  else if u = [Char.ofNat 0xCE, Char.ofNat 0xBC, 's'] then some 1000
  else if u = "ms".toList then some 1000000
  else if u = "s".toList then some 1000000000
  else if u = "m".toList then some 60000000000
  else if u = "h".toList then some 3600000000000
  else none

/-- The function `leadingInt` of package `time`, `x` being the value
accumulated so far; `none` is `errLeadingInt`. -/
def leadingInt : List Char → Nat → Option (Nat × List Char)
  | [], x => some (x, [])
  | c :: cs, x =>
    if c < '0' ∨ c > '9' then some (x, c :: cs)
    else if x > 2 ^ 63 / 10 then none
    else if x * 10 + (c.toNat - '0'.toNat) > 2 ^ 63 then none
    else leadingInt cs (x * 10 + (c.toNat - '0'.toNat))

/-- The function `leadingFraction` of package `time`, with the loop variables
`x`, `scale` (a `float64`, as a fraction) and `overflow`. -/
def leadingFraction : List Char → Nat → Nat × Nat → Bool → Nat × (Nat × Nat) × List Char
  | [], x, scale, _ => (x, scale, [])
  | c :: cs, x, scale, overflow =>
    if c < '0' ∨ c > '9' then (x, scale, c :: cs)
    else if overflow then leadingFraction cs x scale true
    else if x > (2 ^ 63 - 1) / 10 then leadingFraction cs x scale true
    else if x * 10 + (c.toNat - '0'.toNat) > 2 ^ 63 then leadingFraction cs x scale true
    else leadingFraction cs (x * 10 + (c.toNat - '0'.toNat))
      (roundFloat64 (scale.1 * 10) scale.2) false

/-- The errors of `time.ParseDuration`. -/
inductive DurationError where
  | invalidDuration : DurationError
  | missingUnit : DurationError
  | unknownUnit : DurationError
deriving DecidableEq, Repr

/-- The expression `uint64(float64(f) * (float64(unit) / scale))`. -/
def fractionNanos (f unit : Nat) (scale : Nat × Nat) : Nat :=
  (roundFloat64 ((roundFloat64 f 1).1 * (roundFloat64 (unit * scale.2) scale.1).1)
    ((roundFloat64 f 1).2 * (roundFloat64 (unit * scale.2) scale.1).2)).1 /
  (roundFloat64 ((roundFloat64 f 1).1 * (roundFloat64 (unit * scale.2) scale.1).1)
    ((roundFloat64 f 1).2 * (roundFloat64 (unit * scale.2) scale.1).2)).2

/-- The part of the loop body of `time.ParseDuration` that consumes
`(\.[0-9]*)?`: the flag `post`, the values of `f` and `scale`, and the rest of
`s`. -/
def parseFraction (s : List Char) : Bool × Nat × (Nat × Nat) × List Char :=
  match s with
  | '.' :: s2 =>
    (decide (s2.length ≠ (leadingFraction s2 0 (1, 1) false).2.2.length),
      leadingFraction s2 0 (1, 1) false)
  | _ => (false, 0, (1, 1), s)

/-- The part of the loop body that consumes the unit: the characters up to the
first `.` or digit, and the rest of `s`. -/
def splitUnit (s : List Char) : List Char × List Char :=
  s.span (fun c => !(decide (c = '.') || (decide ('0' ≤ c) && decide (c ≤ '9'))))

/-- The end of the loop body: the unit is looked up in `unitMap`, `v` is
checked against `1<<63/unit` and multiplied, and the fraction is added. -/
def groupValue (v f : Nat) (scale : Nat × Nat) (u : List Char) : Except DurationError Nat :=
  match unitMap u with
  | none => Except.error DurationError.unknownUnit
  | some unit =>
    if v > 2 ^ 63 / unit then Except.error DurationError.invalidDuration
    else if f > 0 then
      if v * unit + fractionNanos f unit scale > 2 ^ 63 then
        Except.error DurationError.invalidDuration
      else Except.ok (v * unit + fractionNanos f unit scale)
    else Except.ok (v * unit)

/-- One iteration of the loop of `time.ParseDuration` up to and including the
overflow check on `v`: the value of `v` and the rest of `s`. -/
def parseGroup (s : List Char) : Except DurationError (Nat × List Char) :=
  match s with
  | [] => Except.error DurationError.invalidDuration
  | c :: _ =>
    if ¬ (c = '.' ∨ ('0' ≤ c ∧ c ≤ '9')) then Except.error DurationError.invalidDuration
    else
      match leadingInt s 0 with
      | none => Except.error DurationError.invalidDuration
      | some (v, s1) =>
        if s.length = s1.length ∧ (parseFraction s1).1 = false then
          Except.error DurationError.invalidDuration
        else if (splitUnit (parseFraction s1).2.2.2).1 = [] then
          Except.error DurationError.missingUnit
        else
          match groupValue v (parseFraction s1).2.1 (parseFraction s1).2.2.1
              (splitUnit (parseFraction s1).2.2.2).1 with
          | Except.error e => Except.error e
          | Except.ok v' => Except.ok (v', (splitUnit (parseFraction s1).2.2.2).2)

/-- The loop `for s != ""` of `time.ParseDuration`, `d` being the sum so far
(a `uint64`); every iteration consumes at least one character, so a `fuel` of
`len(s)` is never used up. -/
def parseDurationLoop : Nat → List Char → Nat → Except DurationError Nat
  | _, [], d => Except.ok d
  | 0, _ :: _, _ => Except.error DurationError.invalidDuration
  | fuel + 1, c :: cs, d =>
    match parseGroup (c :: cs) with
    | Except.error e => Except.error e
    | Except.ok (v, rest) =>
      if (d + v) % 2 ^ 64 > 2 ^ 63 then Except.error DurationError.invalidDuration
      else parseDurationLoop fuel rest ((d + v) % 2 ^ 64)

/-- The start of `time.ParseDuration`, which consumes `[-+]?`: the flag `neg`
and the rest of `s`. -/
def consumeSign (s : List Char) : Bool × List Char :=
  match s with
  | c :: cs => if c = '-' ∨ c = '+' then (decide (c = '-'), cs) else (false, c :: cs)
  | [] => (false, [])

/-- The function `time.ParseDuration`; the result is the duration in
nanoseconds. -/
def ParseDuration (s : List Char) : Except DurationError Int :=
  if (consumeSign s).2 = "0".toList then Except.ok 0
  else if (consumeSign s).2 = [] then Except.error DurationError.invalidDuration
  else
    match parseDurationLoop (consumeSign s).2.length (consumeSign s).2 0 with
    | Except.error e => Except.error e
    | Except.ok d =>
      if (consumeSign s).1 = true then Except.ok (-(d : Int))
      else if d > 2 ^ 63 - 1 then Except.error DurationError.invalidDuration
      else Except.ok (d : Int)

/-- The loop of `fmtFrac`: `prec` digits of `v` are taken off, and written in
front of `buf` once a non-zero digit has been seen. -/
def fmtFracLoop : Nat → Nat → Bool → List Char → List Char × Nat × Bool
  | 0, v, print, buf => (buf, v, print)
  | prec + 1, v, print, buf =>
    fmtFracLoop prec (v / 10) (print || decide (v % 10 ≠ 0))
      (if print || decide (v % 10 ≠ 0) then digitChar (v % 10) :: buf else buf)

/-- The function `fmtFrac` of package `time`: the text with the fraction of
`v / 10^prec` written in front of `buf` (without trailing zeros, and without
the point when the fraction is 0), and `v / 10^prec`. -/
def fmtFrac (buf : List Char) (v prec : Nat) : List Char × Nat :=
  (if (fmtFracLoop prec v false buf).2.2 then '.' :: (fmtFracLoop prec v false buf).1
    else (fmtFracLoop prec v false buf).1,
   (fmtFracLoop prec v false buf).2.1)

/-- The loop `for v > 0` of `fmtInt`. -/
def fmtIntLoop : Nat → Nat → List Char → List Char
  | 0, _, buf => buf
  | fuel + 1, v, buf =>
    if v > 0 then fmtIntLoop fuel (v / 10) (digitChar (v % 10) :: buf) else buf

/-- The function `fmtInt` of package `time`: `v` written in front of `buf`. -/
def fmtInt (buf : List Char) (v : Nat) : List Char :=
  if v = 0 then '0' :: buf else fmtIntLoop v v buf

/-- The text that `time.Duration.format` writes for the magnitude `u` of the
duration, before the sign: seconds with their fraction, preceded by minutes and
hours when they are not zero, or a single smaller unit below one second. -/
def durationBody (u : Nat) : List Char :=
  if u < 1000000000 then
    if u = 0 then "0s".toList
    else if u < 1000 then fmtInt (fmtFrac "ns".toList u 0).1 (fmtFrac "ns".toList u 0).2
    else if u < 1000000 then
      fmtInt (fmtFrac [Char.ofNat 0xC2, Char.ofNat 0xB5, 's'] u 3).1
        (fmtFrac [Char.ofNat 0xC2, Char.ofNat 0xB5, 's'] u 3).2
    else fmtInt (fmtFrac "ms".toList u 6).1 (fmtFrac "ms".toList u 6).2
  else
    if (fmtFrac "s".toList u 9).2 / 60 > 0 then
      if (fmtFrac "s".toList u 9).2 / 60 / 60 > 0 then
        fmtInt ('h' :: fmtInt ('m' ::
            fmtInt (fmtFrac "s".toList u 9).1 ((fmtFrac "s".toList u 9).2 % 60))
          ((fmtFrac "s".toList u 9).2 / 60 % 60))
          ((fmtFrac "s".toList u 9).2 / 60 / 60)
      else
        fmtInt ('m' :: fmtInt (fmtFrac "s".toList u 9).1 ((fmtFrac "s".toList u 9).2 % 60))
          ((fmtFrac "s".toList u 9).2 / 60 % 60)
    else fmtInt (fmtFrac "s".toList u 9).1 ((fmtFrac "s".toList u 9).2 % 60)

/-- The method `time.Duration.String` on a duration of `d` nanoseconds: the
magnitude `u` is `uint64(d)`, negated when `d < 0`. -/
def durationString (d : Int) : List Char :=
  if d < 0 then '-' :: durationBody d.natAbs else durationBody d.natAbs

/-- The type `Duration`, a struct embedding `time.Duration` (a count of
nanoseconds); the field is named `duration` here. -/
structure Duration where
  duration : Int
deriving DecidableEq, Repr

/-- The method `(d *Duration) UnmarshalText(text)`: the receiver after the call
(`time.ParseDuration` returns 0 with an error) and the returned error. -/
def Duration.UnmarshalText (_d : Duration) (text : List Char) :
    Duration × Option DurationError :=
  match ParseDuration text with
  | Except.ok v => (⟨v⟩, none)
  | Except.error e => (⟨0⟩, some e)

/-- The method `(d Duration) MarshalText()`. -/
def Duration.MarshalText (d : Duration) : List Char × Option DurationError :=
  (durationString d.duration, none)

/-! ## The walk is a scan of the depth-first listing -/

theorem scanKeyed_append (md : MetaData) (l₁ l₂ : List (Bool × List String)) :
    scanKeyed md (l₁ ++ l₂) =
      match scanKeyed md l₁ with
      | ⟨ex, some e⟩ => ⟨ex, some e⟩
      | ⟨ex, none⟩ => ⟨ex ++ (scanKeyed md l₂).examined, (scanKeyed md l₂).err⟩ := by
  induction l₁ with
  | nil => simp [scanKeyed]
  | cons a l ih =>
    obtain ⟨r, p⟩ := a
    simp only [List.cons_append, scanKeyed]
    by_cases h : (r && !md.IsDefined p) = true
    · simp [h]
    · rw [if_neg h, if_neg h]
      change (⟨p :: (scanKeyed md (l ++ l₂)).examined, (scanKeyed md (l ++ l₂)).err⟩ : Walk) = _
      rw [ih]
      cases hs : scanKeyed md l with
      | mk ex err => cases err <;> simp

mutual
theorem walkFields_eq_scan (md : MetaData) :
    ∀ (fields : List StructField) (keys : List String),
      walkFields md fields keys = scanKeyed md (keyedFields fields keys)
  | [], _ => by simp [walkFields, keyedFields, scanKeyed]
  | StructField.mk none _ _ :: rest, keys => by
    simp only [walkFields, keyedFields]
    exact walkFields_eq_scan md rest keys
  | StructField.mk (some tomlKey) required type :: rest, keys => by
    simp only [walkFields, keyedFields, scanKeyed]
    by_cases h : (required.isSome && !md.IsDefined (keys ++ [tomlKey])) = true
    · simp [h]
    · rw [if_neg h, if_neg h]
      rw [scanKeyed_append, ← walkSubBlock_eq_scan md type (keys ++ [tomlKey]),
        ← walkFields_eq_scan md rest keys]
      cases hs : walkSubBlock md type (keys ++ [tomlKey]) with
      | mk ex err => cases err <;> simp
theorem walkSubBlock_eq_scan (md : MetaData) :
    ∀ (type : GoType) (keys : List String),
      walkSubBlock md type keys = scanKeyed md (keyedSubBlock type keys)
  | GoType.ptr (GoType.struct fields), keys => by
    simp only [walkSubBlock, keyedSubBlock]
    exact walkFields_eq_scan md fields keys
  | GoType.other, _ => by simp [walkSubBlock, keyedSubBlock, scanKeyed]
  | GoType.struct _, _ => by simp [walkSubBlock, keyedSubBlock, scanKeyed]
  | GoType.ptr GoType.other, _ => by simp [walkSubBlock, keyedSubBlock, scanKeyed]
  | GoType.ptr (GoType.ptr _), _ => by simp [walkSubBlock, keyedSubBlock, scanKeyed]
end

theorem scanKeyed_err_eq_none (md : MetaData) (l : List (Bool × List String)) :
    (scanKeyed md l).err = none ↔ ∀ p, (true, p) ∈ l → md.IsDefined p = true := by
  induction l with
  | nil => simp [scanKeyed]
  | cons a l ih =>
    obtain ⟨r, q⟩ := a
    simp only [scanKeyed]
    by_cases h : (r && !md.IsDefined q) = true
    · simp only [h, if_true]
      simp only [Bool.and_eq_true, Bool.not_eq_true'] at h
      constructor
      · intro hc; cases hc
      · intro hall
        have := hall q (by simp [h.1])
        simp [h.2] at this
    · rw [if_neg h]
      simp only [ih]
      constructor
      · intro hall p hp
        rcases List.mem_cons.1 hp with heq | hmem
        · cases heq
          simpa using h
        · exact hall p hmem
      · intro hall p hp
        exact hall p (List.mem_cons_of_mem _ hp)

/-! ## The depth-first listing and the declarative notion of a required path -/

theorem RequiredPath.mono {fields fields' : List StructField} {keys path : List String}
    (hsub : ∀ f, f ∈ fields → f ∈ fields') (h : RequiredPath fields keys path) :
    RequiredPath fields' keys path := by
  cases h with
  | here hmem => exact RequiredPath.here (hsub _ hmem)
  | inside hmem hsubpath => exact RequiredPath.inside (hsub _ hmem) hsubpath

theorem keyedFields_of_mem {tomlKey : String} {required : Option String} {type : GoType} :
    ∀ (fields : List StructField) (keys : List String),
      StructField.mk (some tomlKey) required type ∈ fields →
      (required.isSome, keys ++ [tomlKey]) ∈ keyedFields fields keys ∧
      ∀ e, e ∈ keyedSubBlock type (keys ++ [tomlKey]) → e ∈ keyedFields fields keys
  | [], _, h => by cases h
  | StructField.mk none r t :: rest, keys, h => by
    have hrest : StructField.mk (some tomlKey) required type ∈ rest := by
      rcases List.mem_cons.1 h with heq | hmem
      · cases heq
      · exact hmem
    simp only [keyedFields]
    exact keyedFields_of_mem rest keys hrest
  | StructField.mk (some k) r t :: rest, keys, h => by
    simp only [keyedFields]
    rcases List.mem_cons.1 h with heq | hmem
    · cases heq
      refine ⟨List.mem_cons_self _ _, fun e he => ?_⟩
      exact List.mem_cons_of_mem _ (List.mem_append_left _ he)
    · have ih := keyedFields_of_mem rest keys hmem
      refine ⟨List.mem_cons_of_mem _ (List.mem_append_right _ ih.1), fun e he => ?_⟩
      exact List.mem_cons_of_mem _ (List.mem_append_right _ (ih.2 e he))

theorem mem_keyedFields_of_requiredPath {fields : List StructField} {keys path : List String}
    (h : RequiredPath fields keys path) : (true, path) ∈ keyedFields fields keys := by
  induction h with
  | here hmem => exact (keyedFields_of_mem _ _ hmem).1
  | inside hmem _ ih =>
    refine (keyedFields_of_mem _ _ hmem).2 _ ?_
    simpa only [keyedSubBlock] using ih

mutual
theorem requiredPath_of_mem_keyedFields :
    ∀ (fields : List StructField) (keys path : List String),
      (true, path) ∈ keyedFields fields keys → RequiredPath fields keys path
  | [], _, _, h => by simp [keyedFields] at h
  | StructField.mk none _ _ :: rest, keys, path, h => by
    simp only [keyedFields] at h
    exact (requiredPath_of_mem_keyedFields rest keys path h).mono
      (fun f hf => List.mem_cons_of_mem _ hf)
  | StructField.mk (some k) r t :: rest, keys, path, h => by
    simp only [keyedFields, List.mem_cons, List.mem_append] at h
    rcases h with heq | hsub | hrest
    · cases r with
      | none => simp at heq
      | some v =>
        have hp : path = keys ++ [k] := by simpa using heq
        subst hp
        exact RequiredPath.here (List.mem_cons_self _ _)
    · exact requiredPath_of_mem_keyedSubBlock k r rest t keys path hsub
    · exact (requiredPath_of_mem_keyedFields rest keys path hrest).mono
        (fun f hf => List.mem_cons_of_mem _ hf)
theorem requiredPath_of_mem_keyedSubBlock (k : String) (r : Option String)
    (rest : List StructField) :
    ∀ (t : GoType) (keys path : List String),
      (true, path) ∈ keyedSubBlock t (keys ++ [k]) →
      RequiredPath (StructField.mk (some k) r t :: rest) keys path
  | GoType.ptr (GoType.struct sub), keys, path, h => by
    simp only [keyedSubBlock] at h
    exact RequiredPath.inside (List.mem_cons_self _ _)
      (requiredPath_of_mem_keyedFields sub (keys ++ [k]) path h)
  | GoType.other, _, _, h => by simp [keyedSubBlock] at h
  | GoType.struct _, _, _, h => by simp [keyedSubBlock] at h
  | GoType.ptr GoType.other, _, _, h => by simp [keyedSubBlock] at h
  | GoType.ptr (GoType.ptr _), _, _, h => by simp [keyedSubBlock] at h
end

theorem requiredPath_iff_mem_keyedFields (fields : List StructField) (keys path : List String) :
    RequiredPath fields keys path ↔ (true, path) ∈ keyedFields fields keys :=
  ⟨mem_keyedFields_of_requiredPath, requiredPath_of_mem_keyedFields fields keys path⟩

theorem keyedFields_append (keys : List String) :
    ∀ (a b : List StructField),
      keyedFields (a ++ b) keys = keyedFields a keys ++ keyedFields b keys
  | [], b => by simp [keyedFields]
  | StructField.mk none _ _ :: rest, b => by
    simp only [List.cons_append, keyedFields]
    exact keyedFields_append keys rest b
  | StructField.mk (some k) r t :: rest, b => by
    simp only [List.cons_append, keyedFields, List.append_eq, keyedFields_append keys rest b,
      List.append_assoc]

theorem walkFields_append_of_ok (md : MetaData) (a b : List StructField) (keys : List String)
    (h : (walkFields md a keys).err = none) :
    walkFields md (a ++ b) keys =
      ⟨(walkFields md a keys).examined ++ (walkFields md b keys).examined,
        (walkFields md b keys).err⟩ := by
  rw [walkFields_eq_scan, walkFields_eq_scan, walkFields_eq_scan, keyedFields_append,
    scanKeyed_append]
  rw [walkFields_eq_scan] at h
  cases hs : scanKeyed md (keyedFields a keys) with
  | mk ex err =>
    rw [hs] at h
    simp only at h
    subst h
    rfl

theorem scanKeyed_err_some (md : MetaData) :
    ∀ (l : List (Bool × List String)) (msg : String), (scanKeyed md l).err = some msg →
      ∃ before path after,
        l = before ++ (true, path) :: after ∧
        (∀ q, (true, q) ∈ before → md.IsDefined q = true) ∧
        md.IsDefined path = false ∧
        msg = notDefinedError path ∧
        (scanKeyed md l).examined = before.map Prod.snd ++ [path]
  | [], msg, h => by simp [scanKeyed] at h
  | (r, p) :: rest, msg, h => by
    simp only [scanKeyed] at h ⊢
    by_cases hc : (r && !md.IsDefined p) = true
    · rw [if_pos hc] at h ⊢
      simp only [Bool.and_eq_true, Bool.not_eq_true'] at hc
      obtain ⟨hr, hp⟩ := hc
      subst hr
      refine ⟨[], p, rest, rfl, ?_, hp, ?_, rfl⟩
      · intro q hq; cases hq
      · simpa using h.symm
    · rw [if_neg hc] at h ⊢
      obtain ⟨before, path, after, hl, hbefore, hpath, hmsg, hex⟩ :=
        scanKeyed_err_some md rest msg h
      refine ⟨(r, p) :: before, path, after, by rw [hl]; rfl, ?_, hpath, hmsg, ?_⟩
      · intro q hq
        rcases List.mem_cons.1 hq with heq | hmem
        · cases heq
          simpa using hc
        · exact hbefore q hmem
      · simp only [hex, List.map_cons, List.cons_append]

mutual
theorem keyedFields_dropKeyless :
    ∀ (fields : List StructField) (keys : List String),
      keyedFields (dropKeyless fields) keys = keyedFields fields keys
  | [], _ => by simp [dropKeyless]
  | StructField.mk none _ _ :: rest, keys => by
    simp only [dropKeyless, keyedFields]
    exact keyedFields_dropKeyless rest keys
  | StructField.mk (some k) r t :: rest, keys => by
    simp only [dropKeyless, keyedFields, keyedFields_dropKeyless rest keys,
      keyedSubBlock_dropKeylessType t (keys ++ [k])]
theorem keyedSubBlock_dropKeylessType :
    ∀ (type : GoType) (keys : List String),
      keyedSubBlock (dropKeylessType type) keys = keyedSubBlock type keys
  | GoType.ptr (GoType.struct fields), keys => by
    simp only [dropKeylessType, keyedSubBlock]
    exact keyedFields_dropKeyless fields keys
  | GoType.other, _ => by simp [dropKeylessType, keyedSubBlock]
  | GoType.struct _, _ => by simp [dropKeylessType, keyedSubBlock]
  | GoType.ptr GoType.other, _ => by simp [dropKeylessType, keyedSubBlock]
  | GoType.ptr (GoType.ptr _), _ => by simp [dropKeylessType, keyedSubBlock]
end

theorem stringsJoin_singleton (a : String) : stringsJoin [a] "." = a := rfl

theorem stringsJoin_pair (a b : String) : stringsJoin [a, b] "." = a ++ "." ++ b := rfl

/-! ## Claims about the validation walk -/

/-- C1: the validation walk returns success (a nil error) exactly when every
field that has a config key and a required marker, at the top level or at any
depth reached through keyed pointer-to-struct fields, has its full key path
reported as defined by the metadata. -/
theorem structFieldsDefinedInConfig_nil_iff (md : MetaData) (structType : List StructField)
    (hierachyTomlKeys : List String) :
    structFieldsDefinedInConfig md structType hierachyTomlKeys = none ↔
      ∀ path, RequiredPath structType hierachyTomlKeys path → md.IsDefined path = true := by
  unfold structFieldsDefinedInConfig
  rw [walkFields_eq_scan, scanKeyed_err_eq_none]
  constructor
  · intro h path hp
    exact h path (mem_keyedFields_of_requiredPath hp)
  · intro h path hp
    exact h path (requiredPath_of_mem_keyedFields _ _ _ hp)

/-- C2: whenever validation fails with message `msg`, the depth-first listing
of the keyed fields splits as `before ++ (required, path) :: after` where every
required field of `before` is defined, `path` is required and not defined, the
keyed fields the walk examined are exactly those of `before` followed by `path`
(nothing of `after`), and `msg` is the dot-joined `path` in double quotes
followed by ` not defined in config file`.  In particular a type whose only
required path is the top-level `port`, against a metadata that does not define
it, fails with the message `"port" not defined in config file`. -/
theorem structFieldsDefinedInConfig_error_first_missing (md : MetaData)
    (structType : List StructField) (hierachyTomlKeys : List String) :
    (∀ msg, structFieldsDefinedInConfig md structType hierachyTomlKeys = some msg →
      ∃ before path after,
        keyedFields structType hierachyTomlKeys = before ++ (true, path) :: after ∧
        (∀ q, (true, q) ∈ before → md.IsDefined q = true) ∧
        md.IsDefined path = false ∧
        (walkFields md structType hierachyTomlKeys).examined = before.map Prod.snd ++ [path] ∧
        msg = "\"" ++ stringsJoin path "." ++ "\" not defined in config file") ∧
    ((∀ path, RequiredPath structType [] path ↔ path = ["port"]) →
      md.IsDefined ["port"] = false →
      structFieldsDefinedInConfig md structType [] = some "\"port\" not defined in config file") := by
  have main : ∀ keys msg, structFieldsDefinedInConfig md structType keys = some msg →
      ∃ before path after,
        keyedFields structType keys = before ++ (true, path) :: after ∧
        (∀ q, (true, q) ∈ before → md.IsDefined q = true) ∧
        md.IsDefined path = false ∧
        (walkFields md structType keys).examined = before.map Prod.snd ++ [path] ∧
        msg = "\"" ++ stringsJoin path "." ++ "\" not defined in config file" := by
    intro keys msg hfail
    unfold structFieldsDefinedInConfig at hfail
    rw [walkFields_eq_scan] at hfail
    obtain ⟨before, path, after, hl, hbefore, hpath, hmsg, hex⟩ :=
      scanKeyed_err_some md _ msg hfail
    refine ⟨before, path, after, hl, hbefore, hpath, ?_, hmsg⟩
    rw [walkFields_eq_scan]; exact hex
  refine ⟨main hierachyTomlKeys, ?_⟩
  intro honly hport
  cases hres : structFieldsDefinedInConfig md structType [] with
  | none =>
    unfold structFieldsDefinedInConfig at hres
    rw [walkFields_eq_scan, scanKeyed_err_eq_none] at hres
    have hdef := hres ["port"] (mem_keyedFields_of_requiredPath ((honly ["port"]).2 rfl))
    rw [hport] at hdef
    cases hdef
  | some msg =>
    obtain ⟨before, path, after, hl, _, _, _, hmsg⟩ := main [] msg hres
    have hreq : RequiredPath structType [] path := by
      apply requiredPath_of_mem_keyedFields
      rw [hl]
      exact List.mem_append_right _ (List.mem_cons_self _ _)
    have hp : path = ["port"] := (honly path).1 hreq
    rw [hmsg, hp]
    rfl

/-- Witness for C2: the walk over
`host`, `server` (optional block holding the required `port`), `later`
(required), against an empty metadata, stops at `server.port`. -/
theorem structFieldsDefinedInConfig_error_first_missing_witness :
    structFieldsDefinedInConfig ⟨fun _ => false⟩
        [StructField.mk (some "host") none GoType.other,
         StructField.mk (some "server") none (GoType.ptr (GoType.struct
           [StructField.mk (some "port") (some "") GoType.other])),
         StructField.mk (some "later") (some "") GoType.other] []
      = some "\"server.port\" not defined in config file" ∧
    ∃ before path after,
      keyedFields
        [StructField.mk (some "host") none GoType.other,
         StructField.mk (some "server") none (GoType.ptr (GoType.struct
           [StructField.mk (some "port") (some "") GoType.other])),
         StructField.mk (some "later") (some "") GoType.other] []
        = before ++ (true, path) :: after ∧
      (∀ q, (true, q) ∈ before → (MetaData.mk fun _ => false).IsDefined q = true) ∧
      (MetaData.mk fun _ => false).IsDefined path = false ∧
      (walkFields ⟨fun _ => false⟩
        [StructField.mk (some "host") none GoType.other,
         StructField.mk (some "server") none (GoType.ptr (GoType.struct
           [StructField.mk (some "port") (some "") GoType.other])),
         StructField.mk (some "later") (some "") GoType.other] []).examined
        = before.map Prod.snd ++ [path] ∧
      "\"server.port\" not defined in config file"
        = "\"" ++ stringsJoin path "." ++ "\" not defined in config file" :=
  ⟨rfl, (structFieldsDefinedInConfig_error_first_missing ⟨fun _ => false⟩
    [StructField.mk (some "host") none GoType.other,
     StructField.mk (some "server") none (GoType.ptr (GoType.struct
       [StructField.mk (some "port") (some "") GoType.other])),
     StructField.mk (some "later") (some "") GoType.other] []).1
    "\"server.port\" not defined in config file" rfl⟩

/-- C3 (as stated) fails: with a required block `server` holding a required
`port` and a metadata that defines nothing, the error cites `server`, not
`server.port`. -/
theorem required_block_cascade_counterexample :
    (MetaData.mk fun _ => false).IsDefined ["server"] = false ∧
    (MetaData.mk fun _ => false).IsDefined ["server", "port"] = false ∧
    structFieldsDefinedInConfig ⟨fun _ => false⟩
        [StructField.mk (some "server") (some "") (GoType.ptr (GoType.struct
           [StructField.mk (some "port") (some "") GoType.other]))] []
      = some "\"server\" not defined in config file" ∧
    structFieldsDefinedInConfig ⟨fun _ => false⟩
        [StructField.mk (some "server") (some "") (GoType.ptr (GoType.struct
           [StructField.mk (some "port") (some "") GoType.other]))] []
      ≠ some "\"server.port\" not defined in config file" :=
  ⟨rfl, rfl, rfl, by decide⟩

/-- C3 (as the code behaves): when the required pointer-to-struct field keyed
`K1` is itself not defined and nothing before it is missing, validation fails
citing the path `K1` of the block itself; the walk returns before descending
into the block, so the error never cites `K1.K2`. -/
theorem structFieldsDefinedInConfig_required_block_missing (md : MetaData)
    (before after sub : List StructField) (K1 v : String)
    (hbefore : structFieldsDefinedInConfig md before [] = none)
    (hK1 : md.IsDefined [K1] = false) :
    structFieldsDefinedInConfig md
        (before ++ StructField.mk (some K1) (some v) (GoType.ptr (GoType.struct sub)) :: after) []
      = some ("\"" ++ K1 ++ "\" not defined in config file") := by
  unfold structFieldsDefinedInConfig at hbefore ⊢
  rw [walkFields_append_of_ok md _ _ _ hbefore]
  simp only [walkFields, List.nil_append, hK1, Option.isSome_some, Bool.not_false,
    Bool.and_self, if_true]
  rfl

/-- Witness for C3 (as the code behaves): the required block `server`, after an
optional `host`, against an empty metadata. -/
theorem structFieldsDefinedInConfig_required_block_missing_witness :
    structFieldsDefinedInConfig ⟨fun _ => false⟩
      ([StructField.mk (some "host") none GoType.other] ++
        StructField.mk (some "server") (some "") (GoType.ptr (GoType.struct
          [StructField.mk (some "port") (some "") GoType.other])) :: []) []
      = some ("\"" ++ "server" ++ "\" not defined in config file") :=
  structFieldsDefinedInConfig_required_block_missing ⟨fun _ => false⟩
    [StructField.mk (some "host") none GoType.other] []
    [StructField.mk (some "port") (some "") GoType.other] "server" "" rfl rfl

/-- C4: a keyed pointer-to-struct field `K1` without a required marker is
still descended into: if nothing before it at the top level and nothing before
the required child `K2` inside its struct is missing, and the metadata does not
define `K1.K2` (whether or not it defines `K1`), validation fails with the
error citing `K1.K2`. -/
theorem structFieldsDefinedInConfig_optional_block_cascade (md : MetaData)
    (before after subBefore subAfter : List StructField) (K1 K2 v : String) (type : GoType)
    (hbefore : structFieldsDefinedInConfig md before [] = none)
    (hsubBefore : structFieldsDefinedInConfig md subBefore [K1] = none)
    (hK1K2 : md.IsDefined [K1, K2] = false) :
    structFieldsDefinedInConfig md
        (before ++ StructField.mk (some K1) none (GoType.ptr (GoType.struct
          (subBefore ++ StructField.mk (some K2) (some v) type :: subAfter))) :: after) []
      = some ("\"" ++ K1 ++ "." ++ K2 ++ "\" not defined in config file") := by
  unfold structFieldsDefinedInConfig at hbefore hsubBefore ⊢
  have hsub : walkFields md
      (subBefore ++ StructField.mk (some K2) (some v) type :: subAfter) [K1] =
      ⟨(walkFields md subBefore [K1]).examined ++ [[K1, K2]],
        some (notDefinedError [K1, K2])⟩ := by
    rw [walkFields_append_of_ok md _ _ _ hsubBefore]
    simp [walkFields, hK1K2]
  rw [walkFields_append_of_ok md _ _ _ hbefore]
  simp only [walkFields, walkSubBlock, List.nil_append, Option.isSome_none, Bool.false_and,
    hsub]
  rfl

/-- Witness for C4: the optional block `server` holding `host` (optional) and
`port` (required), against an empty metadata. -/
theorem structFieldsDefinedInConfig_optional_block_cascade_witness :
    structFieldsDefinedInConfig ⟨fun _ => false⟩
      ([StructField.mk (some "name") none GoType.other] ++
        StructField.mk (some "server") none (GoType.ptr (GoType.struct
          ([StructField.mk (some "host") none GoType.other] ++
            StructField.mk (some "port") (some "true") GoType.other :: []))) :: []) []
      = some ("\"" ++ "server" ++ "." ++ "port" ++ "\" not defined in config file") :=
  structFieldsDefinedInConfig_optional_block_cascade ⟨fun _ => false⟩
    [StructField.mk (some "name") none GoType.other] []
    [StructField.mk (some "host") none GoType.other] [] "server" "port" "true" GoType.other
    rfl rfl rfl

/-- C5: fields without a config key are inert: the walk (its error and the
fields it examines) is the same on the field list with every key-less field
removed at every depth, and removing one key-less field, whatever its required
marker and its type, changes nothing. -/
theorem walkFields_dropKeyless (md : MetaData) (structType before after : List StructField)
    (required : Option String) (type : GoType) (hierachyTomlKeys : List String) :
    walkFields md (dropKeyless structType) hierachyTomlKeys
        = walkFields md structType hierachyTomlKeys ∧
    structFieldsDefinedInConfig md (dropKeyless structType) hierachyTomlKeys
        = structFieldsDefinedInConfig md structType hierachyTomlKeys ∧
    walkFields md (before ++ StructField.mk none required type :: after) hierachyTomlKeys
        = walkFields md (before ++ after) hierachyTomlKeys := by
  have h : walkFields md (dropKeyless structType) hierachyTomlKeys
      = walkFields md structType hierachyTomlKeys := by
    rw [walkFields_eq_scan, walkFields_eq_scan, keyedFields_dropKeyless]
  refine ⟨h, by unfold structFieldsDefinedInConfig; rw [h], ?_⟩
  rw [walkFields_eq_scan, walkFields_eq_scan, keyedFields_append, keyedFields_append]
  simp only [keyedFields]

/-! ## Suffix tests -/

theorem HasSuffix_iff (s t : List Char) : HasSuffix s t = true ↔ t <:+ s := by
  unfold HasSuffix
  simp only [Bool.and_eq_true, decide_eq_true_eq]
  constructor
  · rintro ⟨_, h⟩
    rw [← h]
    exact List.drop_suffix _ _
  · rintro ⟨p, rfl⟩
    simp

theorem HasSuffix_append_self (p t : List Char) : HasSuffix (p ++ t) t = true :=
  (HasSuffix_iff _ _).2 (List.suffix_append _ _)

theorem HasSuffix_snoc_one (q : List Char) (c a : Char) :
    HasSuffix (q ++ [c]) [a] = decide (c = a) := by
  rw [Bool.eq_iff_iff, HasSuffix_iff, ← List.reverse_prefix]
  simp [eq_comm]

theorem HasSuffix_snoc_two (q : List Char) (c a b : Char) (h : c ≠ b) :
    HasSuffix (q ++ [c]) [a, b] = false := by
  rw [Bool.eq_false_iff, Ne, HasSuffix_iff, ← List.reverse_prefix]
  simp [h, eq_comm]

theorem HasSuffix_snoc_snoc (q : List Char) (c d a b : Char) :
    HasSuffix (q ++ [c, d]) [a, b] = decide (c = a ∧ d = b) := by
  rw [Bool.eq_iff_iff, HasSuffix_iff, ← List.reverse_prefix]
  simp only [List.reverse_append, List.reverse_cons, List.reverse_nil, List.nil_append,
    List.cons_append, List.singleton_append, List.cons_prefix_cons, List.nil_prefix, and_true,
    decide_eq_true_eq]
  constructor
  · rintro ⟨h1, h2⟩; exact ⟨h2.symm, h1.symm⟩
  · rintro ⟨h1, h2⟩; exact ⟨h2.symm, h1.symm⟩

/-! ## The integer parser accepts exactly the signed 64-bit numerals -/

theorem isDigit_iff (c : Char) : c.isDigit = true ↔ ('0' ≤ c ∧ c ≤ '9') := by
  unfold Char.isDigit
  simp only [Bool.and_eq_true, decide_eq_true_eq, ge_iff_le]
  exact Iff.rfl

theorem digitsValue_cons (acc : Nat) (c : Char) (cs : List Char) :
    digitsValue acc (c :: cs) = digitsValue (acc * 10 + (c.toNat - '0'.toNat)) cs := rfl

theorem le_digitsValue (cs : List Char) : ∀ acc, acc ≤ digitsValue acc cs := by
  induction cs with
  | nil => intro acc; exact Nat.le_refl _
  | cons c cs ih =>
    intro acc
    rw [digitsValue_cons]
    exact Nat.le_trans (by omega) (ih _)

theorem parseUintLoop_ok_iff (cs : List Char) :
    ∀ (acc v : Nat), acc < 2 ^ 64 →
      (parseUintLoop cs acc = Except.ok v ↔
        cs.all Char.isDigit = true ∧ digitsValue acc cs = v ∧ v < 2 ^ 64) := by
  induction cs with
  | nil =>
    intro acc v hacc
    simp only [parseUintLoop, Except.ok.injEq, List.all_nil, true_and, digitsValue,
      List.foldl_nil]
    constructor
    · intro h; subst h; exact ⟨rfl, hacc⟩
    · intro h; exact h.1
  | cons c cs ih =>
    intro acc v hacc
    rw [digitsValue_cons, List.all_cons, Bool.and_eq_true]
    unfold parseUintLoop
    by_cases hc : ('0' ≤ c ∧ c ≤ '9')
    · have hd : c.isDigit = true := (isDigit_iff c).2 hc
      rw [if_pos hc]
      by_cases h1 : acc ≥ (2 ^ 64 - 1) / 10 + 1
      · rw [if_pos h1]
        constructor
        · intro h; cases h
        · rintro ⟨_, hv, hlt⟩
          have := le_digitsValue cs (acc * 10 + (c.toNat - '0'.toNat))
          omega
      · rw [if_neg h1]
        by_cases h2 : acc * 10 + (c.toNat - '0'.toNat) ≥ 2 ^ 64
        · rw [if_pos h2]
          constructor
          · intro h; cases h
          · rintro ⟨_, hv, hlt⟩
            have := le_digitsValue cs (acc * 10 + (c.toNat - '0'.toNat))
            omega
        · rw [if_neg h2, ih _ v (by omega)]
          simp [hd]
    · rw [if_neg hc]
      have hd : ¬ c.isDigit = true := fun h => hc ((isDigit_iff c).1 h)
      constructor
      · intro h; cases h
      · rintro ⟨⟨h, _⟩, _⟩
        exact absurd h hd

theorem ParseUint_ok_iff (s : List Char) (v : Nat) :
    ParseUint s = Except.ok v ↔
      s ≠ [] ∧ s.all Char.isDigit = true ∧ digitsValue 0 s = v ∧ v < 2 ^ 64 := by
  cases s with
  | nil => simp [ParseUint]
  | cons c cs =>
    simp only [ParseUint, ne_eq, reduceCtorEq, not_false_eq_true, true_and]
    exact parseUintLoop_ok_iff (c :: cs) 0 v (by norm_num)


theorem ParseUint_error (s : List Char) (e : NumError) (h : ParseUint s = Except.error e) :
    ¬ (s ≠ [] ∧ s.all Char.isDigit = true ∧ digitsValue 0 s < 2 ^ 64) := by
  rintro ⟨h1, h2, h3⟩
  have := (ParseUint_ok_iff s (digitsValue 0 s)).2 ⟨h1, h2, rfl, h3⟩
  rw [this] at h
  cases h

theorem ParseInt_ok_iff (s : List Char) (n : Int) :
    ParseInt s = Except.ok n ↔
      numeralValue s = some n ∧ -(2 ^ 63 : Int) ≤ n ∧ n < 2 ^ 63 := by
  cases s with
  | nil => simp [ParseInt, numeralValue]
  | cons c rest =>
    by_cases hplus : c = '+'
    · subst hplus
      simp only [ParseInt, numeralValue, true_or, if_true]
      cases hP : ParseUint rest with
      | error e =>
        have hno := ParseUint_error rest e hP
        simp only [reduceCtorEq, false_iff]
        rintro ⟨hv, hlo, hhi⟩
        split at hv
        · rename_i hnum
          simp only [Option.some.injEq] at hv
          exact hno ⟨hnum.1, hnum.2, by omega⟩
        · cases hv
      | ok un =>
        obtain ⟨hne, hall, hval, hlt⟩ := (ParseUint_ok_iff rest un).1 hP
        have hminus : ('+' : Char) ≠ '-' := by decide
        simp only [hminus, ne_eq, not_false_eq_true, true_and, false_and, if_false, hne, hall,
          and_self, if_true, Option.some.injEq, hval]
        by_cases hbig : un ≥ 2 ^ 63
        · rw [if_pos hbig]
          simp only [reduceCtorEq, false_iff]
          rintro ⟨hv, hlo, hhi⟩
          omega
        · rw [if_neg hbig]
          simp only [Except.ok.injEq]
          constructor
          · intro h; subst h; exact ⟨rfl, by omega, by omega⟩
          · intro h; exact h.1
    · by_cases hminus : c = '-'
      · subst hminus
        simp only [ParseInt, numeralValue, or_true, if_true, hplus, if_false]
        cases hP : ParseUint rest with
        | error e =>
          have hno := ParseUint_error rest e hP
          simp only [reduceCtorEq, false_iff]
          rintro ⟨hv, hlo, hhi⟩
          split at hv
          · rename_i hnum
            simp only [Option.some.injEq] at hv
            exact hno ⟨hnum.1, hnum.2, by omega⟩
          · cases hv
        | ok un =>
          obtain ⟨hne, hall, hval, hlt⟩ := (ParseUint_ok_iff rest un).1 hP
          simp only [ne_eq, not_true_eq_false, false_and, if_false, true_and, hne, hall,
            not_false_eq_true, and_self, if_true, Option.some.injEq, hval]
          by_cases hbig : un > 2 ^ 63
          · rw [if_pos hbig]
            simp only [reduceCtorEq, false_iff]
            rintro ⟨hv, hlo, hhi⟩
            omega
          · rw [if_neg hbig]
            simp only [Except.ok.injEq]
            constructor
            · intro h; subst h; exact ⟨rfl, by omega, by omega⟩
            · intro h; exact h.1
      · have hsign : ¬ (c = '+' ∨ c = '-') := by
          rintro (h | h)
          · exact hplus h
          · exact hminus h
        simp only [ParseInt, numeralValue, hplus, hminus, or_self, if_false]
        cases hP : ParseUint (c :: rest) with
        | error e =>
          have hno := ParseUint_error (c :: rest) e hP
          simp only [reduceCtorEq, false_iff]
          rintro ⟨hv, hlo, hhi⟩
          split at hv
          · rename_i hnum
            simp only [Option.some.injEq] at hv
            exact hno ⟨by simp, hnum, by omega⟩
          · cases hv
        | ok un =>
          obtain ⟨hne, hall, hval, hlt⟩ := (ParseUint_ok_iff (c :: rest) un).1 hP
          simp only [ne_eq, hminus, not_false_eq_true, true_and, false_and, if_false, hall,
            if_true, Option.some.injEq, hval]
          by_cases hbig : un ≥ 2 ^ 63
          · rw [if_pos hbig]
            simp only [reduceCtorEq, false_iff]
            rintro ⟨hv, hlo, hhi⟩
            omega
          · rw [if_neg hbig]
            simp only [Except.ok.injEq]
            constructor
            · intro h; subst h; exact ⟨rfl, by omega, by omega⟩
            · intro h; exact h.1

/-! ## The suffix chain of `Bytes.UnmarshalText` -/

theorem HasSuffix_length {s t : List Char} (h : HasSuffix s t = true) : t.length ≤ s.length := by
  unfold HasSuffix at h
  simp only [Bool.and_eq_true, decide_eq_true_eq] at h
  exact h.1

theorem HasSuffix_snoc2_one (q : List Char) (c d a : Char) :
    HasSuffix (q ++ [c, d]) [a] = decide (d = a) := by
  have : q ++ [c, d] = (q ++ [c]) ++ [d] := by simp
  rw [this, HasSuffix_snoc_one]

theorem unitAndSubIdx_bounds (v : List Char) :
    0 ≤ (unitAndSubIdx v).2 ∧ (unitAndSubIdx v).2 ≤ (v.length : Int) := by
  unfold unitAndSubIdx
  split_ifs with h1 h2 h3 h4 h5 h6
  · have := HasSuffix_length h1; simp at this ⊢; omega
  · have := HasSuffix_length h2; simp at this ⊢; omega
  · have := HasSuffix_length h3; simp at this ⊢; omega
  · have := HasSuffix_length h4; simp at this ⊢; omega
  · have := HasSuffix_length h5; simp at this ⊢; omega
  · have := HasSuffix_length h6; simp at this ⊢; omega
  · simp

theorem sliceTo_unitAndSubIdx (v : List Char) :
    sliceTo v (unitAndSubIdx v).2 = some (v.take (unitAndSubIdx v).2.toNat) := by
  unfold sliceTo
  rw [if_pos (unitAndSubIdx_bounds v)]

theorem wrapInt64_of_range (x : Int) (hlo : -(2 ^ 63 : Int) ≤ x) (hhi : x < 2 ^ 63) :
    wrapInt64 x = x := by
  unfold wrapInt64
  rw [Int.emod_eq_of_lt (by omega) (by omega)]
  omega

theorem numeralValue_snoc (q : List Char) (c : Char) (n : Int)
    (h : numeralValue (q ++ [c]) = some n) : c.isDigit = true := by
  cases q with
  | nil =>
    simp only [List.nil_append, numeralValue] at h
    split_ifs at h with h1 h2 h3 h4 h5
    · simp at h2
    · simp at h4
    · simpa using h5
  | cons a q =>
    simp only [List.cons_append, numeralValue] at h
    split_ifs at h with h1 h2 h3 h4 h5
    · have := h2.2
      simp only [List.all_append, Bool.and_eq_true, List.all_cons, List.all_nil,
        Bool.and_true] at this
      exact this.2
    · have := h4.2
      simp only [List.all_append, Bool.and_eq_true, List.all_cons, List.all_nil,
        Bool.and_true] at this
      exact this.2
    · simp only [List.all_cons, List.all_append, Bool.and_eq_true, List.all_nil,
        Bool.and_true] at h5
      exact h5.2.2

theorem numeralValue_last (p : List Char) (n : Int) (h : numeralValue p = some n) :
    ∃ q d, p = q ++ [d] ∧ d.isDigit = true := by
  rcases List.eq_nil_or_concat p with hp | ⟨q, d, hp⟩
  · subst hp; simp [numeralValue] at h
  · rw [List.concat_eq_append] at hp
    subst hp
    exact ⟨q, d, rfl, numeralValue_snoc q d n h⟩

theorem ParseInt_snoc_error (q : List Char) (c : Char) (hc : c.isDigit = false) :
    ∃ e, ParseInt (q ++ [c]) = Except.error e := by
  cases h : ParseInt (q ++ [c]) with
  | error e => exact ⟨e, rfl⟩
  | ok n =>
    have := numeralValue_snoc q c n ((ParseInt_ok_iff _ _).1 h).1
    rw [hc] at this
    cases this


theorem isDigit_ne {d : Char} (hd : d.isDigit = true) (c : Char) (hc : c.isDigit = false) :
    d ≠ c := by
  rintro rfl
  rw [hd] at hc
  cases hc

theorem unitAndSubIdx_snoc_other (q : List Char) (c : Char)
    (hk : c ≠ 'k') (hm : c ≠ 'm') (hg : c ≠ 'g') (hb : c ≠ 'b') :
    unitAndSubIdx (q ++ [c]) = (Byte, ((q ++ [c]).length : Int)) := by
  unfold unitAndSubIdx
  have e1 : "k".toList = ['k'] := rfl
  have e2 : "kb".toList = ['k', 'b'] := rfl
  have e3 : "m".toList = ['m'] := rfl
  have e4 : "mb".toList = ['m', 'b'] := rfl
  have e5 : "g".toList = ['g'] := rfl
  have e6 : "gb".toList = ['g', 'b'] := rfl
  rw [e1, e2, e3, e4, e5, e6]
  simp only [HasSuffix_snoc_one, HasSuffix_snoc_two q c _ _ hb, hk, hm, hg, decide_False,
    Bool.false_eq_true, if_false]

theorem UnmarshalText_snoc_other (b : Bytes) (q : List Char) (c : Char)
    (hk : c ≠ 'k') (hm : c ≠ 'm') (hg : c ≠ 'g') (hb : c ≠ 'b') (hd : c.isDigit = false) :
    ∃ e, Bytes.UnmarshalText b (q ++ [c]) = some (b, some e) := by
  obtain ⟨e, he⟩ := ParseInt_snoc_error q c hd
  refine ⟨e, ?_⟩
  unfold Bytes.UnmarshalText
  rw [sliceTo_unitAndSubIdx, unitAndSubIdx_snoc_other q c hk hm hg hb]
  simp only [Int.toNat_ofNat, List.take_length, he]


theorem unitAndSubIdx_snoc_b (q : List Char) (c : Char)
    (hk : c ≠ 'k') (hm : c ≠ 'm') (hg : c ≠ 'g') :
    unitAndSubIdx (q ++ [c, 'b']) = (Byte, ((q ++ [c, 'b']).length : Int)) := by
  unfold unitAndSubIdx
  have e1 : "k".toList = ['k'] := rfl
  have e2 : "kb".toList = ['k', 'b'] := rfl
  have e3 : "m".toList = ['m'] := rfl
  have e4 : "mb".toList = ['m', 'b'] := rfl
  have e5 : "g".toList = ['g'] := rfl
  have e6 : "gb".toList = ['g', 'b'] := rfl
  rw [e1, e2, e3, e4, e5, e6]
  simp [HasSuffix_snoc2_one, HasSuffix_snoc_snoc, hk, hm, hg]

theorem unitAndSubIdx_append_letter (p : List Char) :
    unitAndSubIdx (p ++ ['k']) = (KiB, (p.length : Int)) ∧
    unitAndSubIdx (p ++ ['m']) = (MiB, (p.length : Int)) ∧
    unitAndSubIdx (p ++ ['g']) = (GiB, (p.length : Int)) := by
  have e1 : "k".toList = ['k'] := rfl
  have e2 : "kb".toList = ['k', 'b'] := rfl
  have e3 : "m".toList = ['m'] := rfl
  have e4 : "mb".toList = ['m', 'b'] := rfl
  have e5 : "g".toList = ['g'] := rfl
  have e6 : "gb".toList = ['g', 'b'] := rfl
  unfold unitAndSubIdx
  rw [e1, e2, e3, e4, e5, e6]
  refine ⟨?_, ?_, ?_⟩
  · simp [HasSuffix_snoc_one]
  · simp [HasSuffix_snoc_one, HasSuffix_snoc_two]
  · simp [HasSuffix_snoc_one, HasSuffix_snoc_two]

theorem unitAndSubIdx_append_letter_b (p : List Char) :
    unitAndSubIdx (p ++ ['k', 'b']) = (KiB, (p.length : Int)) ∧
    unitAndSubIdx (p ++ ['m', 'b']) = (MiB, (p.length : Int)) ∧
    unitAndSubIdx (p ++ ['g', 'b']) = (GiB, (p.length : Int)) := by
  have e1 : "k".toList = ['k'] := rfl
  have e2 : "kb".toList = ['k', 'b'] := rfl
  have e3 : "m".toList = ['m'] := rfl
  have e4 : "mb".toList = ['m', 'b'] := rfl
  have e5 : "g".toList = ['g'] := rfl
  have e6 : "gb".toList = ['g', 'b'] := rfl
  unfold unitAndSubIdx
  rw [e1, e2, e3, e4, e5, e6]
  refine ⟨?_, ?_, ?_⟩
  · simp [HasSuffix_snoc2_one, HasSuffix_snoc_snoc]
  · simp [HasSuffix_snoc2_one, HasSuffix_snoc_snoc]
  · simp [HasSuffix_snoc2_one, HasSuffix_snoc_snoc]

theorem unitAndSubIdx_numeral (p : List Char) (n : Int) (h : numeralValue p = some n) :
    unitAndSubIdx p = (Byte, (p.length : Int)) := by
  obtain ⟨q, d, rfl, hd⟩ := numeralValue_last p n h
  exact unitAndSubIdx_snoc_other q d (isDigit_ne hd _ rfl) (isDigit_ne hd _ rfl)
    (isDigit_ne hd _ rfl) (isDigit_ne hd _ rfl)

theorem UnmarshalText_of_parts (b : Bytes) (p suffix : List Char) (unit n : Int)
    (hu : unitAndSubIdx (p ++ suffix) = (unit, (p.length : Int)))
    (hp : numeralValue p = some n)
    (hn : -(2 ^ 63 : Int) ≤ n ∧ n < 2 ^ 63) :
    Bytes.UnmarshalText b (p ++ suffix) = some (⟨wrapInt64 (n * unit)⟩, none) := by
  have hparse : ParseInt p = Except.ok n := (ParseInt_ok_iff p n).2 ⟨hp, hn.1, hn.2⟩
  unfold Bytes.UnmarshalText
  rw [sliceTo_unitAndSubIdx, hu]
  simp only [Int.toNat_ofNat, List.take_left', hparse]

/-! ## Decimal text and the formatter -/

theorem digitChar_isDigit (d : Nat) (h : d < 10) : (digitChar d).isDigit = true := by
  interval_cases d <;> rfl

theorem digitChar_toNat (d : Nat) (h : d < 10) : (digitChar d).toNat - '0'.toNat = d := by
  interval_cases d <;> rfl

theorem decimalDigits_isDigit :
    ∀ (fuel n : Nat) (c : Char), c ∈ decimalDigits fuel n → c.isDigit = true
  | 0, _, c, h => by simp [decimalDigits] at h
  | fuel + 1, n, c, h => by
    unfold decimalDigits at h
    split_ifs at h with hn
    · rw [List.mem_singleton] at h
      subst h
      exact digitChar_isDigit n hn
    · rcases List.mem_append.1 h with h | h
      · exact decimalDigits_isDigit fuel (n / 10) c h
      · rw [List.mem_singleton] at h
        subst h
        exact digitChar_isDigit _ (Nat.mod_lt _ (by norm_num))

theorem decimalDigits_ne_nil : ∀ (fuel n : Nat), n < fuel → decimalDigits fuel n ≠ []
  | 0, _, h => by omega
  | fuel + 1, n, _ => by
    unfold decimalDigits
    split_ifs <;> simp

theorem digitsValue_append (acc : Nat) (l : List Char) (c : Char) :
    digitsValue acc (l ++ [c]) = digitsValue acc l * 10 + (c.toNat - '0'.toNat) := by
  unfold digitsValue
  rw [List.foldl_append]
  rfl

theorem digitsValue_decimalDigits :
    ∀ (fuel n : Nat), n < fuel → digitsValue 0 (decimalDigits fuel n) = n
  | 0, _, h => by omega
  | fuel + 1, n, h => by
    unfold decimalDigits
    split_ifs with hn
    · simp only [digitsValue, List.foldl_cons, List.foldl_nil, Nat.zero_mul, Nat.zero_add]
      exact digitChar_toNat n hn
    · rw [digitsValue_append, digitsValue_decimalDigits fuel (n / 10) (by omega),
        digitChar_toNat _ (Nat.mod_lt _ (by norm_num))]
      omega

theorem formatNat_isDigit (n : Nat) (c : Char) (h : c ∈ formatNat n) : c.isDigit = true :=
  decimalDigits_isDigit _ _ c h

theorem formatNat_all_isDigit (n : Nat) : (formatNat n).all Char.isDigit = true := by
  rw [List.all_eq_true]
  exact fun c hc => formatNat_isDigit n c hc

theorem formatNat_ne_nil (n : Nat) : formatNat n ≠ [] :=
  decimalDigits_ne_nil _ _ (Nat.lt_succ_self n)

theorem digitsValue_formatNat (n : Nat) : digitsValue 0 (formatNat n) = n :=
  digitsValue_decimalDigits _ _ (Nat.lt_succ_self n)

theorem TrimSuffix_append_self (p t : List Char) : TrimSuffix (p ++ t) t = p := by
  unfold TrimSuffix
  rw [if_pos (HasSuffix_append_self p t)]
  simp

theorem TrimSuffix_initial (s t : List Char) : TrimSuffix s t <+: s := by
  unfold TrimSuffix
  split_ifs
  · exact List.take_prefix _ _
  · exact List.prefix_refl _

theorem sprintfF1_chars (value : Float32) (hpos : 0 ≤ value.num) (c : Char)
    (h : c ∈ sprintfF1 value) : c.isDigit = true ∨ c = '.' := by
  unfold sprintfF1 at h
  rw [if_neg (by omega)] at h
  simp only [List.nil_append, List.mem_append, List.mem_singleton] at h
  rcases h with (h | h) | h
  · exact Or.inl (formatNat_isDigit _ c h)
  · exact Or.inr h
  · exact Or.inl (formatNat_isDigit _ c h)

theorem float32Shift_small (fuel x : Nat) (h : x < 2 ^ 24) : float32Shift fuel x = 0 := by
  cases fuel with
  | zero => rfl
  | succ f => unfold float32Shift; rw [if_pos h]

theorem roundHalfEven_one (a : Nat) : roundHalfEven a 1 = a := by
  unfold roundHalfEven
  simp [Nat.mod_one]

theorem roundToFloat32_small (x : Nat) (h : x < 2 ^ 24) : roundToFloat32 x = x := by
  unfold roundToFloat32
  rw [float32Shift_small x x h]
  simp [roundHalfEven_one]

theorem sprintfF1_small_nat (x : Nat) (h : x < 2 ^ 24) :
    sprintfF1 (float32OfInt64 (x : Int)) = formatNat x ++ ".0".toList := by
  unfold sprintfF1 float32OfInt64
  have h0 : ¬ ((x : Int) < 0) := by omega
  simp only [h0, if_false, Int.natAbs_ofNat, roundToFloat32_small x h, Int.natAbs_cast,
    pow_zero, roundHalfEven_one, List.nil_append]
  have e1 : x * 10 / 10 = x := by omega
  have e2 : x * 10 % 10 = 0 := by omega
  rw [e1, e2]
  simp [formatNat, decimalDigits, digitChar]


theorem sprintfF1_small_neg (x : Nat) (h0 : 0 < x) (h : x < 2 ^ 24) :
    sprintfF1 (float32OfInt64 (-(x : Int))) = '-' :: formatNat x ++ ".0".toList := by
  unfold sprintfF1 float32OfInt64
  have hneg : (-(x : Int)) < 0 := by omega
  have hr : 0 < roundToFloat32 x := by rw [roundToFloat32_small x h]; exact h0
  have hneg' : (-(roundToFloat32 x : Int)) < 0 := by omega
  simp only [hneg, if_true, Int.natAbs_neg, Int.natAbs_ofNat, hneg', pow_zero,
    roundHalfEven_one, roundToFloat32_small x h]
  have e1 : x * 10 / 10 = x := by omega
  have e2 : x * 10 % 10 = 0 := by omega
  rw [e1, e2]
  simp [formatNat, decimalDigits, digitChar]

theorem float32OfInt64_nonneg (x : Int) (k : Nat) (h : 0 ≤ x) :
    0 ≤ ((float32OfInt64 x).divPow2 k).num := by
  unfold Float32.divPow2 float32OfInt64
  simp only
  rw [if_neg (by omega)]
  exact Int.ofNat_nonneg _

theorem numericText_chars (value : Float32) (hpos : 0 ≤ value.num) (c : Char)
    (h : c ∈ TrimSuffix (sprintfF1 value) ".0".toList) : c.isDigit = true ∨ c = '.' :=
  sprintfF1_chars value hpos c ((TrimSuffix_initial _ _).subset h)

theorem String_small_pos (x : Nat) (h0 : 0 < x) (h : x < 1024) :
    Bytes.String ⟨(x : Int)⟩ = formatNat x ++ "B".toList := by
  unfold Bytes.String unitAndValue
  simp only [GiB, MiB, KiB, Byte]
  rw [if_neg (by omega), if_neg (by omega), if_neg (by omega), if_pos (by omega)]
  simp only
  rw [sprintfF1_small_nat x (by omega), TrimSuffix_append_self]

theorem String_small_neg (x : Nat) (h0 : 0 < x) (h : x < 2 ^ 24) :
    Bytes.String ⟨-(x : Int)⟩ = '-' :: formatNat x := by
  unfold Bytes.String unitAndValue
  simp only [GiB, MiB, KiB, Byte]
  rw [if_neg (by omega), if_neg (by omega), if_neg (by omega), if_neg (by omega),
    if_neg (by omega)]
  simp only
  rw [sprintfF1_small_neg x h0 h]
  have : '-' :: formatNat x ++ ".0".toList = ('-' :: formatNat x) ++ ".0".toList := rfl
  rw [this, TrimSuffix_append_self, List.append_nil]

theorem numeralValue_neg_formatNat (x : Nat) :
    numeralValue ('-' :: formatNat x) = some (-(x : Int)) := by
  have hminus : ('-' : Char) ≠ '+' := by decide
  simp only [numeralValue, hminus, if_false, if_true, formatNat_ne_nil, ne_eq,
    not_false_eq_true, formatNat_all_isDigit, and_self, digitsValue_formatNat]

theorem numeralValue_formatNat (x : Nat) :
    numeralValue (formatNat x) = some (x : Int) := by
  obtain ⟨c, rest, hcr⟩ := List.exists_cons_of_ne_nil (formatNat_ne_nil x)
  have hc : c.isDigit = true := formatNat_isDigit x c (by rw [hcr]; exact List.mem_cons_self _ _)
  have hplus : c ≠ '+' := isDigit_ne hc _ rfl
  have hminus : c ≠ '-' := isDigit_ne hc _ rfl
  have hall := formatNat_all_isDigit x
  have hval := digitsValue_formatNat x
  rw [hcr] at hall hval ⊢
  simp only [numeralValue, hplus, hminus, if_false, hall, if_true, hval]

/-! ## Claims about `Bytes.UnmarshalText` -/

theorem UnmarshalText_no_suffix_error (b : Bytes) (v : List Char)
    (hu : unitAndSubIdx v = (Byte, (v.length : Int)))
    (he : ∃ e, ParseInt v = Except.error e) :
    ∃ e, Bytes.UnmarshalText b v = some (b, some e) := by
  obtain ⟨e, he⟩ := he
  refine ⟨e, ?_⟩
  unfold Bytes.UnmarshalText
  rw [sliceTo_unitAndSubIdx, hu]
  simp only [Int.toNat_ofNat, List.take_length, he]

theorem unitAndSubIdx_split (v : List Char) :
    ∃ suffix, suffix ∈ suffixMultipliers.map Prod.fst ∧
      v = v.take (unitAndSubIdx v).2.toNat ++ suffix := by
  have key : ∀ t : List Char, HasSuffix v t = true →
      v = v.take ((v.length : Int) - (t.length : Int)).toNat ++ t := by
    intro t ht
    have hlen := HasSuffix_length ht
    unfold HasSuffix at ht
    simp only [Bool.and_eq_true, decide_eq_true_eq] at ht
    have e : ((v.length : Int) - (t.length : Int)).toNat = v.length - t.length := by omega
    rw [e]
    conv_lhs => rw [← List.take_append_drop (v.length - t.length) v, ht.2]
  unfold unitAndSubIdx
  split_ifs with h1 h2 h3 h4 h5 h6
  · exact ⟨_, by simp [suffixMultipliers], key _ h1⟩
  · exact ⟨_, by simp [suffixMultipliers], key _ h2⟩
  · exact ⟨_, by simp [suffixMultipliers], key _ h3⟩
  · exact ⟨_, by simp [suffixMultipliers], key _ h4⟩
  · exact ⟨_, by simp [suffixMultipliers], key _ h5⟩
  · exact ⟨_, by simp [suffixMultipliers], key _ h6⟩
  · exact ⟨[], by simp [suffixMultipliers], by simp⟩

/-- C7: for every text made of a base-10 signed numeral of value `n` followed
by one of the suffixes none, `k`, `kb`, `m`, `mb`, `g`, `gb`, with `n` times
the multiplier (1, 1024, 1024, 1024², 1024², 1024³, 1024³) in the signed 64-bit
range, `Bytes.UnmarshalText` returns a nil error and stores `n` times the
multiplier. -/
theorem UnmarshalText_numeral_suffix (b : Bytes) (p suffix : List Char) (n mult : Int)
    (hs : (suffix, mult) ∈ suffixMultipliers)
    (hp : numeralValue p = some n)
    (hlo : -(2 ^ 63 : Int) ≤ n * mult) (hhi : n * mult < 2 ^ 63) :
    Bytes.UnmarshalText b (p ++ suffix) = some (⟨n * mult⟩, none) := by
  simp only [suffixMultipliers, List.mem_cons, Prod.mk.injEq, List.mem_singleton,
    List.not_mem_nil, or_false] at hs
  have e1 : "k".toList = ['k'] := rfl
  have e2 : "kb".toList = ['k', 'b'] := rfl
  have e3 : "m".toList = ['m'] := rfl
  have e4 : "mb".toList = ['m', 'b'] := rfl
  have e5 : "g".toList = ['g'] := rfl
  have e6 : "gb".toList = ['g', 'b'] := rfl
  rw [e1, e2, e3, e4, e5, e6] at hs
  have hK : KiB = 1024 := rfl
  have hM : MiB = 1024 ^ 2 := rfl
  have hG : GiB = 1024 ^ 3 := rfl
  have hB : Byte = 1 := rfl
  rcases hs with ⟨rfl, rfl⟩ | ⟨rfl, rfl⟩ | ⟨rfl, rfl⟩ | ⟨rfl, rfl⟩ | ⟨rfl, rfl⟩ | ⟨rfl, rfl⟩ |
    ⟨rfl, rfl⟩
  · rw [UnmarshalText_of_parts b p [] Byte n
      (by rw [List.append_nil]; exact unitAndSubIdx_numeral p n hp) hp (by omega), hB,
      wrapInt64_of_range _ hlo hhi]
  · rw [UnmarshalText_of_parts b p _ KiB n (unitAndSubIdx_append_letter p).1 hp (by omega), hK,
      wrapInt64_of_range _ hlo hhi]
  · rw [UnmarshalText_of_parts b p _ KiB n (unitAndSubIdx_append_letter_b p).1 hp (by omega),
      hK, wrapInt64_of_range _ hlo hhi]
  · rw [UnmarshalText_of_parts b p _ MiB n (unitAndSubIdx_append_letter p).2.1 hp (by omega),
      hM, wrapInt64_of_range _ hlo hhi]
  · rw [UnmarshalText_of_parts b p _ MiB n (unitAndSubIdx_append_letter_b p).2.1 hp
      (by omega), hM, wrapInt64_of_range _ hlo hhi]
  · rw [UnmarshalText_of_parts b p _ GiB n (unitAndSubIdx_append_letter p).2.2 hp (by omega),
      hG, wrapInt64_of_range _ hlo hhi]
  · rw [UnmarshalText_of_parts b p _ GiB n (unitAndSubIdx_append_letter_b p).2.2 hp
      (by omega), hG, wrapInt64_of_range _ hlo hhi]


theorem UnmarshalText_eq (b : Bytes) (text : List Char) :
    Bytes.UnmarshalText b text =
      match ParseInt (text.take (unitAndSubIdx text).2.toNat) with
      | Except.ok i => some (⟨wrapInt64 (i * (unitAndSubIdx text).1)⟩, none)
      | Except.error e => some (b, some e) := by
  simp only [Bytes.UnmarshalText, sliceTo_unitAndSubIdx]

/-- Witness for C7: `-12mb` stores `-12 * 1024²`. -/
theorem UnmarshalText_numeral_suffix_witness :
    Bytes.UnmarshalText ⟨0⟩ ("-12".toList ++ "mb".toList)
      = some (⟨-12 * 1024 ^ 2⟩, none) :=
  UnmarshalText_numeral_suffix ⟨0⟩ "-12".toList "mb".toList (-12) (1024 ^ 2)
    (by decide) (by decide) (by decide) (by decide)

theorem unitAndSubIdx_eq_length_iff (text : List Char) :
    (unitAndSubIdx text).2 = (text.length : Int) ↔
      ∀ suffix, suffix ∈ suffixMultipliers.map Prod.fst → suffix ≠ [] → ¬ suffix <:+ text := by
  have hmem : ∀ t : List Char, t ∈ ["k".toList, "kb".toList, "m".toList, "mb".toList,
      "g".toList, "gb".toList] → t ∈ suffixMultipliers.map Prod.fst ∧ t ≠ [] := by
    intro t ht
    simp only [List.mem_cons, List.mem_singleton, List.not_mem_nil, or_false] at ht
    rcases ht with rfl | rfl | rfl | rfl | rfl | rfl <;> exact ⟨by decide, by decide⟩
  have hit : ∀ t : List Char, t ∈ ["k".toList, "kb".toList, "m".toList, "mb".toList,
      "g".toList, "gb".toList] → HasSuffix text t = true →
      ¬ ∀ suffix, suffix ∈ suffixMultipliers.map Prod.fst → suffix ≠ [] → ¬ suffix <:+ text :=
    fun t ht h hall => hall t (hmem t ht).1 (hmem t ht).2 ((HasSuffix_iff _ _).1 h)
  unfold unitAndSubIdx
  split_ifs with h1 h2 h3 h4 h5 h6
  · exact ⟨fun h => by simp at h, fun h => absurd h (hit _ (by simp) h1)⟩
  · exact ⟨fun h => by simp at h, fun h => absurd h (hit _ (by simp) h2)⟩
  · exact ⟨fun h => by simp at h, fun h => absurd h (hit _ (by simp) h3)⟩
  · exact ⟨fun h => by simp at h, fun h => absurd h (hit _ (by simp) h4)⟩
  · exact ⟨fun h => by simp at h, fun h => absurd h (hit _ (by simp) h5)⟩
  · exact ⟨fun h => by simp at h, fun h => absurd h (hit _ (by simp) h6)⟩
  · refine ⟨fun _ suffix hs hne hsuf => ?_, fun _ => rfl⟩
    have hs' : suffix ∈ ["k".toList, "kb".toList, "m".toList, "mb".toList,
        "g".toList, "gb".toList] := by
      simp only [suffixMultipliers, List.map_cons, List.map_nil, List.mem_cons,
        List.mem_singleton, List.not_mem_nil, or_false] at hs ⊢
      rcases hs with h | h
      · exact absurd h hne
      · exact h
    have hhas := (HasSuffix_iff text suffix).2 hsuf
    simp only [List.mem_cons, List.mem_singleton, List.not_mem_nil, or_false] at hs'
    rcases hs' with rfl | rfl | rfl | rfl | rfl | rfl
    · exact h1 hhas
    · exact h2 hhas
    · exact h3 hhas
    · exact h4 hhas
    · exact h5 hhas
    · exact h6 hhas

/-- C8: the stripping index of `Bytes.UnmarshalText` always lies within the
text (the call never panics), what is cut off is one of the suffixes `k`, `kb`,
`m`, `mb`, `g`, `gb` or nothing (nothing only when none of the six ends the
text), and the call returns an error exactly when the
text that remains is not a valid base-10 signed 64-bit integer; the empty text,
a bare `k`, numerals out of the int64 range, `10b` and `10tb` are rejected. -/
theorem UnmarshalText_error_iff (b : Bytes) (text : List Char) :
    (0 ≤ (unitAndSubIdx text).2 ∧ (unitAndSubIdx text).2 ≤ (text.length : Int)) ∧
    (∃ suffix, suffix ∈ suffixMultipliers.map Prod.fst ∧
      text = text.take (unitAndSubIdx text).2.toNat ++ suffix) ∧
    ((unitAndSubIdx text).2 = (text.length : Int) ↔
      ∀ suffix, suffix ∈ suffixMultipliers.map Prod.fst → suffix ≠ [] → ¬ suffix <:+ text) ∧
    (∃ r, Bytes.UnmarshalText b text = some r) ∧
    ((∃ r e, Bytes.UnmarshalText b text = some (r, some e)) ↔
      ¬ IsInt64Numeral (text.take (unitAndSubIdx text).2.toNat)) ∧
    Bytes.UnmarshalText b "".toList = some (b, some NumError.ErrSyntax) ∧
    Bytes.UnmarshalText b "k".toList = some (b, some NumError.ErrSyntax) ∧
    Bytes.UnmarshalText b "9223372036854775808".toList = some (b, some NumError.ErrRange) ∧
    Bytes.UnmarshalText b "-9223372036854775809".toList = some (b, some NumError.ErrRange) ∧
    Bytes.UnmarshalText b "10b".toList = some (b, some NumError.ErrSyntax) ∧
    Bytes.UnmarshalText b "10tb".toList = some (b, some NumError.ErrSyntax) := by
  refine ⟨unitAndSubIdx_bounds text, unitAndSubIdx_split text,
    unitAndSubIdx_eq_length_iff text, ?_, ?_, rfl, rfl, rfl, rfl, rfl, rfl⟩
  · rw [UnmarshalText_eq]
    cases ParseInt (text.take (unitAndSubIdx text).2.toNat) with
    | ok i => exact ⟨_, rfl⟩
    | error e => exact ⟨_, rfl⟩
  · rw [UnmarshalText_eq]
    unfold IsInt64Numeral
    cases hP : ParseInt (text.take (unitAndSubIdx text).2.toNat) with
    | ok i =>
      constructor
      · rintro ⟨r, e, h⟩
        simp at h
      · intro h
        exact absurd ⟨i, (ParseInt_ok_iff _ _).1 hP⟩ h
    | error e =>
      constructor
      · rintro _ ⟨n, hn⟩
        rw [(ParseInt_ok_iff _ _).2 hn] at hP
        cases hP
      · intro _
        exact ⟨b, e, rfl⟩

/-- C9 (as stated) fails: `10MB` is rejected with a syntax error and leaves the
receiver as it was, while `10mb` stores `10 * 1024²`. -/
theorem UnmarshalText_case_insensitive_counterexample :
    Bytes.UnmarshalText ⟨0⟩ "10MB".toList = some (⟨0⟩, some NumError.ErrSyntax) ∧
    Bytes.UnmarshalText ⟨0⟩ "10Kb".toList = some (⟨0⟩, some NumError.ErrSyntax) ∧
    Bytes.UnmarshalText ⟨0⟩ "10mb".toList = some (⟨10485760⟩, none) :=
  ⟨rfl, rfl, rfl⟩

/-- C9 (as the code behaves): the unit suffix is matched in lower case only;
any text followed by a spelling of `k`, `kb`, `m`, `mb`, `g`, `gb` that has an
upper-case letter is rejected with an error and the receiver is unchanged. -/
theorem UnmarshalText_mixed_case_rejected (b : Bytes) (p t : List Char)
    (ht : t ∈ mixedCaseSuffixes) :
    ∃ e, Bytes.UnmarshalText b (p ++ t) = some (b, some e) := by
  have snoc2 : ∀ c d : Char, p ++ [c, d] = (p ++ [c]) ++ [d] := by intro c d; simp
  have hb : ∀ c : Char, c ≠ 'k' → c ≠ 'm' → c ≠ 'g' →
      ∃ e, Bytes.UnmarshalText b (p ++ [c, 'b']) = some (b, some e) := by
    intro c hk hm hg
    apply UnmarshalText_no_suffix_error b _ (unitAndSubIdx_snoc_b p c hk hm hg)
    rw [snoc2]
    exact ParseInt_snoc_error _ _ rfl
  simp only [mixedCaseSuffixes, List.mem_cons, List.mem_singleton, List.not_mem_nil,
    or_false] at ht
  rcases ht with rfl | rfl | rfl | rfl | rfl | rfl | rfl | rfl | rfl | rfl | rfl | rfl
  · exact UnmarshalText_snoc_other b p 'K' (by decide) (by decide) (by decide) (by decide) rfl
  · show ∃ e, Bytes.UnmarshalText b (p ++ ['K', 'B']) = some (b, some e)
    rw [snoc2]
    exact UnmarshalText_snoc_other b _ 'B' (by decide) (by decide) (by decide) (by decide) rfl
  · exact hb 'K' (by decide) (by decide) (by decide)
  · show ∃ e, Bytes.UnmarshalText b (p ++ ['k', 'B']) = some (b, some e)
    rw [snoc2]
    exact UnmarshalText_snoc_other b _ 'B' (by decide) (by decide) (by decide) (by decide) rfl
  · exact UnmarshalText_snoc_other b p 'M' (by decide) (by decide) (by decide) (by decide) rfl
  · show ∃ e, Bytes.UnmarshalText b (p ++ ['M', 'B']) = some (b, some e)
    rw [snoc2]
    exact UnmarshalText_snoc_other b _ 'B' (by decide) (by decide) (by decide) (by decide) rfl
  · exact hb 'M' (by decide) (by decide) (by decide)
  · show ∃ e, Bytes.UnmarshalText b (p ++ ['m', 'B']) = some (b, some e)
    rw [snoc2]
    exact UnmarshalText_snoc_other b _ 'B' (by decide) (by decide) (by decide) (by decide) rfl
  · exact UnmarshalText_snoc_other b p 'G' (by decide) (by decide) (by decide) (by decide) rfl
  · show ∃ e, Bytes.UnmarshalText b (p ++ ['G', 'B']) = some (b, some e)
    rw [snoc2]
    exact UnmarshalText_snoc_other b _ 'B' (by decide) (by decide) (by decide) (by decide) rfl
  · exact hb 'G' (by decide) (by decide) (by decide)
  · show ∃ e, Bytes.UnmarshalText b (p ++ ['g', 'B']) = some (b, some e)
    rw [snoc2]
    exact UnmarshalText_snoc_other b _ 'B' (by decide) (by decide) (by decide) (by decide) rfl

/-- Witness for C9 (as the code behaves): `10` followed by `MB`. -/
theorem UnmarshalText_mixed_case_rejected_witness :
    ∃ e, Bytes.UnmarshalText ⟨7⟩ ("10".toList ++ "MB".toList) = some (⟨7⟩, some e) :=
  UnmarshalText_mixed_case_rejected ⟨7⟩ "10".toList "MB".toList (by decide)

/-! ## Claims about `Bytes.String` and `Bytes.MarshalText` -/

theorem String_label_of_unitAndValue (b : Bytes) (unit : List Char) (value : Float32)
    (h : unitAndValue b = some (unit, value)) (hpos : 0 ≤ value.num) :
    ∃ num, b.String = num ++ unit ∧ ∀ c, c ∈ num → c.isDigit = true ∨ c = '.' := by
  refine ⟨TrimSuffix (sprintfF1 value) ".0".toList, ?_, fun c hc => numericText_chars value hpos c hc⟩
  unfold Bytes.String
  rw [h]

/-- C10: the text of `Bytes.String` ends with the label of the largest unit not
exceeding the value, after a numeric part made of digits and a point only:
`GiB` from 1024³, `MiB` from 1024² up to 1024³, `KiB` from 1024 up to 1024²,
and from 1 up to 1024 the plain decimal digits of the value followed by a bare
`B` (so the text does not end in `iB`); for the value 0 the text is `0`. -/
theorem String_unit_label (b : Bytes) :
    (1024 ^ 3 ≤ b.int64 →
      ∃ num, b.String = num ++ "GiB".toList ∧ ∀ c, c ∈ num → c.isDigit = true ∨ c = '.') ∧
    (1024 ^ 2 ≤ b.int64 → b.int64 < 1024 ^ 3 →
      ∃ num, b.String = num ++ "MiB".toList ∧ ∀ c, c ∈ num → c.isDigit = true ∨ c = '.') ∧
    (1024 ≤ b.int64 → b.int64 < 1024 ^ 2 →
      ∃ num, b.String = num ++ "KiB".toList ∧ ∀ c, c ∈ num → c.isDigit = true ∨ c = '.') ∧
    (1 ≤ b.int64 → b.int64 < 1024 →
      b.String = formatNat b.int64.toNat ++ "B".toList ∧
      (∀ c, c ∈ formatNat b.int64.toNat → c.isDigit = true) ∧
      HasSuffix b.String "iB".toList = false) ∧
    (b.int64 = 0 → b.String = "0".toList) := by
  have hG : GiB = 1024 ^ 3 := rfl
  have hM : MiB = 1024 ^ 2 := rfl
  have hK : KiB = 1024 := rfl
  have hB : Byte = 1 := rfl
  refine ⟨?_, ?_, ?_, ?_, ?_⟩
  · intro h
    apply String_label_of_unitAndValue b _ ((float32OfInt64 b.int64).divPow2 30)
    · unfold unitAndValue
      rw [if_pos (by rw [hG]; exact h)]
    · exact float32OfInt64_nonneg _ _ (by omega)
  · intro h h'
    apply String_label_of_unitAndValue b _ ((float32OfInt64 b.int64).divPow2 20)
    · unfold unitAndValue
      rw [if_neg (by rw [hG]; omega), if_pos (by rw [hM]; exact h)]
    · exact float32OfInt64_nonneg _ _ (by omega)
  · intro h h'
    apply String_label_of_unitAndValue b _ ((float32OfInt64 b.int64).divPow2 10)
    · unfold unitAndValue
      rw [if_neg (by rw [hG]; omega), if_neg (by rw [hM]; omega), if_pos (by rw [hK]; exact h)]
    · exact float32OfInt64_nonneg _ _ (by omega)
  · intro h h'
    obtain ⟨v⟩ := b
    simp only at h h' ⊢
    obtain ⟨x, rfl⟩ : ∃ x : Nat, v = (x : Int) := ⟨v.toNat, by omega⟩
    have hs := String_small_pos x (by omega) (by omega)
    rw [Int.toNat_ofNat]
    refine ⟨hs, fun c hc => formatNat_isDigit x c hc, ?_⟩
    rw [hs]
    obtain ⟨q, d, hq⟩ := (List.eq_nil_or_concat (formatNat x)).resolve_left (formatNat_ne_nil x)
    rw [List.concat_eq_append] at hq
    have hd : d.isDigit = true := formatNat_isDigit x d (by rw [hq]; simp)
    rw [hq]
    have e : q ++ [d] ++ "B".toList = q ++ [d, 'B'] := by simp
    have e2 : "iB".toList = ['i', 'B'] := rfl
    rw [e, e2, HasSuffix_snoc_snoc]
    have : d ≠ 'i' := isDigit_ne hd _ rfl
    simp [this]
  · intro h
    obtain ⟨v⟩ := b
    simp only at h
    subst h
    rfl

/-- Witness for C10: 1536 is rendered with the label `KiB`. -/
theorem String_unit_label_witness :
    ∃ num, Bytes.String ⟨1536⟩ = num ++ "KiB".toList ∧
      ∀ c, c ∈ num → c.isDigit = true ∨ c = '.' :=
  (String_unit_label ⟨1536⟩).2.2.1 (by decide) (by decide)


/-! ## The formatter on positive values -/

theorem roundHalfEven_of_dvd (a b : Nat) (hb : 0 < b) (h : b ∣ a) :
    roundHalfEven a b = a / b := by
  unfold roundHalfEven
  have hr : a % b = 0 := Nat.mod_eq_zero_of_dvd h
  rw [hr]
  have : ¬ (2 * 0 > b ∨ (2 * 0 = b ∧ a / b % 2 = 1)) := by omega
  rw [if_neg this]

theorem float32Shift_le : ∀ (fuel x k : Nat), x / 2 ^ k < 2 ^ 24 → float32Shift fuel x ≤ k
  | 0, _, _, _ => Nat.zero_le _
  | fuel + 1, x, k, h => by
    unfold float32Shift
    split_ifs with hx
    · exact Nat.zero_le _
    · cases k with
      | zero => simp at h; omega
      | succ k =>
        have h' : x / 2 / 2 ^ k < 2 ^ 24 := by
          rw [Nat.div_div_eq_div_mul, ← Nat.pow_succ']
          exact h
        have := float32Shift_le fuel (x / 2) k h'
        omega

theorem roundToFloat32_mul_pow (n k : Nat) (hn : n < 2 ^ 24) :
    roundToFloat32 (n * 2 ^ k) = n * 2 ^ k := by
  unfold roundToFloat32
  have hs : float32Shift (n * 2 ^ k) (n * 2 ^ k) ≤ k :=
    float32Shift_le _ _ k (by rw [Nat.mul_div_cancel _ (Nat.pow_pos (by norm_num))]; exact hn)
  have hdvd : 2 ^ float32Shift (n * 2 ^ k) (n * 2 ^ k) ∣ n * 2 ^ k :=
    Dvd.dvd.mul_left (Nat.pow_dvd_pow 2 hs) n
  rw [roundHalfEven_of_dvd _ _ (Nat.pow_pos (by norm_num)) hdvd, Nat.div_mul_cancel hdvd]

theorem roundHalfEven_near (a b : Nat) (hb : 0 < b) :
    2 * ((roundHalfEven a b : Int) * b - a).natAbs ≤ b := by
  have hdm : b * (a / b) + a % b = a := Nat.div_add_mod a b
  have hlt : a % b < b := Nat.mod_lt a hb
  unfold roundHalfEven
  generalize hq : a / b = q at hdm ⊢
  generalize hr : a % b = r at hdm hlt ⊢
  split_ifs with hc
  · have e : ((q + 1 : Nat) : Int) * b - a = (b : Int) - r := by
      rw [← hdm]; push_cast; ring
    rw [e]
    omega
  · have e : ((q : Nat) : Int) * b - a = -(r : Int) := by
      rw [← hdm]; push_cast; ring
    rw [e]
    omega

theorem formatNat_digit (d : Nat) (h : d < 10) : formatNat d = [digitChar d] := by
  unfold formatNat decimalDigits
  rw [if_pos h]

theorem digitChar_ne_zero (d : Nat) (h0 : 0 < d) (h : d < 10) : digitChar d ≠ '0' := by
  interval_cases d <;> decide

theorem TrimSuffix_tenths (t : Nat) :
    TrimSuffix (formatNat (t / 10) ++ ['.'] ++ formatNat (t % 10)) ".0".toList
      = tenthsText t := by
  have hlt : t % 10 < 10 := Nat.mod_lt _ (by norm_num)
  unfold tenthsText
  rw [formatNat_digit _ hlt]
  by_cases h0 : t % 10 = 0
  · rw [if_pos h0, h0]
    have e : formatNat (t / 10) ++ ['.'] ++ [digitChar 0] = formatNat (t / 10) ++ ".0".toList := by
      rw [List.append_assoc]; rfl
    rw [e, TrimSuffix_append_self]
  · rw [if_neg h0]
    have e : formatNat (t / 10) ++ ['.'] ++ [digitChar (t % 10)]
        = formatNat (t / 10) ++ ['.', digitChar (t % 10)] := by
      rw [List.append_assoc]; rfl
    have e2 : ".0".toList = ['.', '0'] := rfl
    unfold TrimSuffix
    rw [e, e2, HasSuffix_snoc_snoc]
    have hne := digitChar_ne_zero (t % 10) (by omega) hlt
    simp [hne]

theorem sprintfF1_nonneg (r k : Nat) :
    sprintfF1 ⟨(r : Int), k⟩ =
      formatNat (roundHalfEven (r * 10) (2 ^ k) / 10) ++ ['.'] ++
        formatNat (roundHalfEven (r * 10) (2 ^ k) % 10) := by
  unfold sprintfF1
  have h0 : ¬ ((r : Int) < 0) := by omega
  simp only [h0, if_false, Int.natAbs_ofNat, List.nil_append]

theorem String_pos (v : Nat) (hv : 1 ≤ v) :
    (1024 ^ 3 ≤ v → Bytes.String ⟨(v : Int)⟩ =
      tenthsText (roundHalfEven (roundToFloat32 v * 10) (2 ^ 30)) ++ "GiB".toList) ∧
    (1024 ^ 2 ≤ v → v < 1024 ^ 3 → Bytes.String ⟨(v : Int)⟩ =
      tenthsText (roundHalfEven (roundToFloat32 v * 10) (2 ^ 20)) ++ "MiB".toList) ∧
    (1024 ≤ v → v < 1024 ^ 2 → Bytes.String ⟨(v : Int)⟩ =
      tenthsText (roundHalfEven (roundToFloat32 v * 10) (2 ^ 10)) ++ "KiB".toList) ∧
    (v < 1024 → Bytes.String ⟨(v : Int)⟩ =
      tenthsText (roundHalfEven (roundToFloat32 v * 10) (2 ^ 0)) ++ "B".toList) := by
  have hf : float32OfInt64 (v : Int) = ⟨(roundToFloat32 v : Int), 0⟩ := by
    unfold float32OfInt64
    rw [if_neg (by omega), Int.natAbs_ofNat]
  have hG : GiB = 1024 ^ 3 := rfl
  have hM : MiB = 1024 ^ 2 := rfl
  have hK : KiB = 1024 := rfl
  have hB : Byte = 1 := rfl
  refine ⟨?_, ?_, ?_, ?_⟩
  · intro h
    unfold Bytes.String unitAndValue
    rw [if_pos (by rw [hG]; show (1024 ^ 3 : Int) ≤ (v : Int); exact_mod_cast h)]
    simp only [hf, Float32.divPow2, Nat.zero_add]
    rw [sprintfF1_nonneg, TrimSuffix_tenths]
  · intro h h'
    unfold Bytes.String unitAndValue
    rw [if_neg (by rw [hG]; show ¬ (1024 ^ 3 : Int) ≤ (v : Int); exact_mod_cast (by omega : ¬ 1024 ^ 3 ≤ v)),
      if_pos (by rw [hM]; show (1024 ^ 2 : Int) ≤ (v : Int); exact_mod_cast h)]
    simp only [hf, Float32.divPow2, Nat.zero_add]
    rw [sprintfF1_nonneg, TrimSuffix_tenths]
  · intro h h'
    unfold Bytes.String unitAndValue
    rw [if_neg (by rw [hG]; show ¬ (1024 ^ 3 : Int) ≤ (v : Int); exact_mod_cast (by omega : ¬ 1024 ^ 3 ≤ v)),
      if_neg (by rw [hM]; show ¬ (1024 ^ 2 : Int) ≤ (v : Int); exact_mod_cast (by omega : ¬ 1024 ^ 2 ≤ v)),
      if_pos (by rw [hK]; show (1024 : Int) ≤ (v : Int); exact_mod_cast h)]
    simp only [hf, Float32.divPow2, Nat.zero_add]
    rw [sprintfF1_nonneg, TrimSuffix_tenths]
  · intro h'
    unfold Bytes.String unitAndValue
    rw [if_neg (by rw [hG]; show ¬ (1024 ^ 3 : Int) ≤ (v : Int); exact_mod_cast (by omega : ¬ 1024 ^ 3 ≤ v)),
      if_neg (by rw [hM]; show ¬ (1024 ^ 2 : Int) ≤ (v : Int); exact_mod_cast (by omega : ¬ 1024 ^ 2 ≤ v)),
      if_neg (by rw [hK]; show ¬ (1024 : Int) ≤ (v : Int); exact_mod_cast (by omega : ¬ 1024 ≤ v)),
      if_pos (by rw [hB]; show (1 : Int) ≤ (v : Int); exact_mod_cast hv)]
    simp only [hf]
    rw [sprintfF1_nonneg, TrimSuffix_tenths]

/-! ## Claims about parsing followed by formatting -/

theorem tenthsText_whole (m k : Nat) (hm : m < 2 ^ 24) :
    tenthsText (roundHalfEven (roundToFloat32 (m * 2 ^ k) * 10) (2 ^ k)) = formatNat m := by
  have hpos : 0 < 2 ^ k := Nat.pow_pos (by norm_num)
  have hdvd : 2 ^ k ∣ m * 2 ^ k * 10 := Dvd.dvd.mul_right (Dvd.intro_left m rfl) 10
  have hq : m * 2 ^ k * 10 / 2 ^ k = m * 10 := by
    rw [Nat.mul_right_comm, Nat.mul_div_cancel _ hpos]
  rw [roundToFloat32_mul_pow m k hm, roundHalfEven_of_dvd _ _ hpos hdvd, hq]
  unfold tenthsText
  rw [if_pos (by omega), Nat.mul_div_cancel _ (by norm_num)]

theorem String_whole_units (m : Nat) (h1 : 1 ≤ m) (h2 : m ≤ 1023) :
    Bytes.String ⟨((m * 2 ^ 0 : Nat) : Int)⟩ = formatNat m ++ "B".toList ∧
    Bytes.String ⟨((m * 2 ^ 10 : Nat) : Int)⟩ = formatNat m ++ "KiB".toList ∧
    Bytes.String ⟨((m * 2 ^ 20 : Nat) : Int)⟩ = formatNat m ++ "MiB".toList ∧
    Bytes.String ⟨((m * 2 ^ 30 : Nat) : Int)⟩ = formatNat m ++ "GiB".toList := by
  have hm : m < 2 ^ 24 := by omega
  refine ⟨?_, ?_, ?_, ?_⟩
  · rw [(String_pos (m * 2 ^ 0) (by omega)).2.2.2 (by omega), tenthsText_whole m 0 hm]
  · rw [(String_pos (m * 2 ^ 10) (by omega)).2.2.1 (by omega) (by omega),
      tenthsText_whole m 10 hm]
  · rw [(String_pos (m * 2 ^ 20) (by omega)).2.1 (by omega) (by omega),
      tenthsText_whole m 20 hm]
  · rw [(String_pos (m * 2 ^ 30) (by omega)).1 (by omega), tenthsText_whole m 30 hm]

/-- C11: parsing a numeral of value `n`, `1 ≤ n ≤ 1023`, followed by one of the
suffixes none, `k`, `kb`, `m`, `mb`, `g`, `gb` succeeds, and formatting the
stored value gives the decimal digits of `n` followed by `B`, `KiB`, `KiB`,
`MiB`, `MiB`, `GiB`, `GiB` respectively; `10m` gives `10MiB`, `1024` gives
`1KiB` and `0` gives `0`. -/
theorem UnmarshalText_String_whole_units (recv : Bytes) (p suffix label : List Char) (n : Nat)
    (hs : (suffix, label) ∈ suffixLabels)
    (hp : numeralValue p = some (n : Int)) (h1 : 1 ≤ n) (h2 : n ≤ 1023) :
    (∃ b, Bytes.UnmarshalText recv (p ++ suffix) = some (b, none) ∧
      b.String = formatNat n ++ label) ∧
    (Bytes.UnmarshalText recv "10m".toList = some (⟨10485760⟩, none) ∧
      Bytes.String ⟨10485760⟩ = "10MiB".toList) ∧
    (Bytes.UnmarshalText recv "1024".toList = some (⟨1024⟩, none) ∧
      Bytes.String ⟨1024⟩ = "1KiB".toList) ∧
    (Bytes.UnmarshalText recv "0".toList = some (⟨0⟩, none) ∧
      Bytes.String ⟨0⟩ = "0".toList) := by
  refine ⟨?_, ⟨rfl, rfl⟩, ⟨rfl, rfl⟩, ⟨rfl, rfl⟩⟩
  simp only [suffixLabels, List.mem_cons, Prod.mk.injEq, List.mem_singleton,
    List.not_mem_nil, or_false] at hs
  have e1 : "k".toList = ['k'] := rfl
  have e2 : "kb".toList = ['k', 'b'] := rfl
  have e3 : "m".toList = ['m'] := rfl
  have e4 : "mb".toList = ['m', 'b'] := rfl
  have e5 : "g".toList = ['g'] := rfl
  have e6 : "gb".toList = ['g', 'b'] := rfl
  rw [e1, e2, e3, e4, e5, e6] at hs
  have hK : KiB = ((2 ^ 10 : Nat) : Int) := rfl
  have hM : MiB = ((2 ^ 20 : Nat) : Int) := rfl
  have hG : GiB = ((2 ^ 30 : Nat) : Int) := rfl
  have hB : Byte = ((2 ^ 0 : Nat) : Int) := rfl
  have hn : -(2 ^ 63 : Int) ≤ (n : Int) ∧ (n : Int) < 2 ^ 63 := by omega
  have hw : ∀ k : Nat, k ≤ 30 →
      wrapInt64 ((n : Int) * ((2 ^ k : Nat) : Int)) = ((n * 2 ^ k : Nat) : Int) := by
    intro k hk
    have hle : 2 ^ k ≤ 2 ^ 30 := Nat.pow_le_pow_right (by norm_num) hk
    have hb : n * 2 ^ k ≤ 1023 * 2 ^ 30 := Nat.mul_le_mul h2 hle
    rw [← Int.natCast_mul]
    exact wrapInt64_of_range _ (by omega) (by omega)
  obtain ⟨sB, sK, sM, sG⟩ := String_whole_units n h1 h2
  rcases hs with ⟨rfl, rfl⟩ | ⟨rfl, rfl⟩ | ⟨rfl, rfl⟩ | ⟨rfl, rfl⟩ | ⟨rfl, rfl⟩ | ⟨rfl, rfl⟩ |
    ⟨rfl, rfl⟩
  · exact ⟨_, UnmarshalText_of_parts recv p [] Byte n
      (by rw [List.append_nil]; exact unitAndSubIdx_numeral p n hp) hp hn,
      by rw [hB, hw 0 (by norm_num)]; exact sB⟩
  · exact ⟨_, UnmarshalText_of_parts recv p _ KiB n (unitAndSubIdx_append_letter p).1 hp hn,
      by rw [hK, hw 10 (by norm_num)]; exact sK⟩
  · exact ⟨_, UnmarshalText_of_parts recv p _ KiB n (unitAndSubIdx_append_letter_b p).1 hp hn,
      by rw [hK, hw 10 (by norm_num)]; exact sK⟩
  · exact ⟨_, UnmarshalText_of_parts recv p _ MiB n (unitAndSubIdx_append_letter p).2.1 hp hn,
      by rw [hM, hw 20 (by norm_num)]; exact sM⟩
  · exact ⟨_, UnmarshalText_of_parts recv p _ MiB n (unitAndSubIdx_append_letter_b p).2.1 hp hn,
      by rw [hM, hw 20 (by norm_num)]; exact sM⟩
  · exact ⟨_, UnmarshalText_of_parts recv p _ GiB n (unitAndSubIdx_append_letter p).2.2 hp hn,
      by rw [hG, hw 30 (by norm_num)]; exact sG⟩
  · exact ⟨_, UnmarshalText_of_parts recv p _ GiB n (unitAndSubIdx_append_letter_b p).2.2 hp hn,
      by rw [hG, hw 30 (by norm_num)]; exact sG⟩

/-- Witness for C11: `+07kb` parses to 7168, which is formatted as `7KiB`. -/
theorem UnmarshalText_String_whole_units_witness :
    ∃ b, Bytes.UnmarshalText ⟨0⟩ ("+07".toList ++ "kb".toList) = some (b, none) ∧
      b.String = formatNat 7 ++ "KiB".toList :=
  (UnmarshalText_String_whole_units ⟨0⟩ "+07".toList "kb".toList "KiB".toList 7
    (by decide) (by decide) (by decide) (by decide)).1

/-- C12 (as stated) fails: 16829645 bytes are 16.0500002 MiB, whose nearest
tenth is 16.1 (161 tenths, not 160), but `float32(16829645)` is 16829644 and the
text is `16MiB`. -/
theorem String_nearest_tenth_counterexample :
    Bytes.String ⟨16829645⟩ = "16MiB".toList ∧
    tenthsText 160 = "16".toList ∧
    tenthsText 161 = "16.1".toList ∧
    NearestTenth 161 16829645 (2 ^ 20) ∧
    ¬ NearestTenth 160 16829645 (2 ^ 20) ∧
    roundToFloat32 16829645 = 16829644 :=
  ⟨rfl, rfl, rfl, by unfold NearestTenth; decide, by unfold NearestTenth; decide, rfl⟩

/-- C12 (as the code behaves): for every value `v ≥ 1`, with `U` the largest of
GiB, MiB, KiB, B not exceeding `v`, the numeric part of `Bytes.String` is a
nearest number of tenths to the quotient `float32(v) / U`, written with one
fractional digit and a trailing `.0` removed, where `float32(v)` is `v` rounded
to a 24-bit significand and equals `v` whenever `v < 2^24`; 1536 is formatted
as `1.5KiB`. -/
theorem String_numeric_part (v : Nat) (hv : 1 ≤ v) :
    (1024 ^ 3 ≤ v → ∃ t, Bytes.String ⟨(v : Int)⟩ = tenthsText t ++ "GiB".toList ∧
      NearestTenth t (roundToFloat32 v) (1024 ^ 3)) ∧
    (1024 ^ 2 ≤ v → v < 1024 ^ 3 →
      ∃ t, Bytes.String ⟨(v : Int)⟩ = tenthsText t ++ "MiB".toList ∧
        NearestTenth t (roundToFloat32 v) (1024 ^ 2)) ∧
    (1024 ≤ v → v < 1024 ^ 2 →
      ∃ t, Bytes.String ⟨(v : Int)⟩ = tenthsText t ++ "KiB".toList ∧ NearestTenth t v 1024) ∧
    (v < 1024 →
      ∃ t, Bytes.String ⟨(v : Int)⟩ = tenthsText t ++ "B".toList ∧ NearestTenth t v 1) ∧
    (v < 2 ^ 24 → roundToFloat32 v = v) ∧
    Bytes.String ⟨1536⟩ = "1.5KiB".toList := by
  have near : ∀ k : Nat, NearestTenth (roundHalfEven (roundToFloat32 v * 10) (2 ^ k))
      (roundToFloat32 v) (2 ^ k) := by
    intro k
    unfold NearestTenth
    have := roundHalfEven_near (roundToFloat32 v * 10) (2 ^ k) (Nat.pow_pos (by norm_num))
    have e : ((roundToFloat32 v * 10 : Nat) : Int) = 10 * (roundToFloat32 v : Int) := by
      push_cast; ring
    rw [e] at this
    exact this
  refine ⟨fun h => ⟨_, (String_pos v hv).1 h, near 30⟩,
    fun h h' => ⟨_, (String_pos v hv).2.1 h h', near 20⟩,
    fun h h' => ⟨_, (String_pos v hv).2.2.1 h h', ?_⟩,
    fun h' => ⟨_, (String_pos v hv).2.2.2 h', ?_⟩,
    roundToFloat32_small v, rfl⟩
  · have := near 10
    rw [roundToFloat32_small v (by omega)] at this ⊢
    exact this
  · have := near 0
    rw [roundToFloat32_small v (by omega)] at this ⊢
    exact this

/-- Witness for C12 (as the code behaves): 1536 is 15 tenths of a KiB. -/
theorem String_numeric_part_witness :
    ∃ t, Bytes.String ⟨((1536 : Nat) : Int)⟩ = tenthsText t ++ "KiB".toList ∧
      NearestTenth t 1536 1024 :=
  (String_numeric_part 1536 (by decide)).2.2.1 (by decide) (by decide)

/-! ## Claims about `LoadTomlCfg` and the metadata -/

/-- C13: `LoadTomlCfg` returns the decoder's error unchanged when decoding
fails, whatever the destination type, without examining any field; when
decoding succeeds on a pointer to a struct it returns exactly the result of the
validation walk over the fields of that struct with an empty key prefix; so it
returns nil exactly when decoding succeeded and every required path is defined
by the decoded metadata. -/
theorem LoadTomlCfg_result (DecodeFile : String → GoType → Except String MetaData)
    (configFile : String) (cfgStruct : GoType) (fields : List StructField) :
    (∀ err, DecodeFile configFile cfgStruct = Except.error err →
      LoadTomlCfg DecodeFile configFile cfgStruct = some ⟨[], some err⟩) ∧
    (∀ md, DecodeFile configFile (GoType.ptr (GoType.struct fields)) = Except.ok md →
      LoadTomlCfg DecodeFile configFile (GoType.ptr (GoType.struct fields))
        = some (walkFields md fields []) ∧
      (LoadTomlCfg DecodeFile configFile (GoType.ptr (GoType.struct fields))).map Walk.err
        = some (structFieldsDefinedInConfig md fields [])) ∧
    ((LoadTomlCfg DecodeFile configFile (GoType.ptr (GoType.struct fields))).map Walk.err
        = some none ↔
      ∃ md, DecodeFile configFile (GoType.ptr (GoType.struct fields)) = Except.ok md ∧
        ∀ path, RequiredPath fields [] path → md.IsDefined path = true) := by
  refine ⟨?_, ?_, ?_⟩
  · intro err h
    unfold LoadTomlCfg
    rw [h]
  · intro md h
    unfold LoadTomlCfg structFieldsDefinedInConfig
    rw [h]
    exact ⟨rfl, rfl⟩
  · unfold LoadTomlCfg
    cases h : DecodeFile configFile (GoType.ptr (GoType.struct fields)) with
    | error err => simp
    | ok md =>
      simp only [Option.map_some', Option.some.injEq, Except.ok.injEq, exists_eq_left']
      rw [walkFields_eq_scan, scanKeyed_err_eq_none]
      constructor
      · intro hall path hp
        exact hall path (mem_keyedFields_of_requiredPath hp)
      · intro hall path hp
        exact hall path (requiredPath_of_mem_keyedFields _ _ _ hp)

/-- Witness for C13: a decoder that fails with `no such file` and one that
succeeds with a metadata defining nothing, on a struct with the required field
`port`. -/
theorem LoadTomlCfg_result_witness :
    LoadTomlCfg (fun _ _ => Except.error "no such file") "app.toml"
        (GoType.ptr (GoType.struct [StructField.mk (some "port") (some "") GoType.other]))
      = some ⟨[], some "no such file"⟩ ∧
    LoadTomlCfg (fun _ _ => Except.ok ⟨fun _ => false⟩) "app.toml"
        (GoType.ptr (GoType.struct [StructField.mk (some "port") (some "") GoType.other]))
      = some (walkFields ⟨fun _ => false⟩
          [StructField.mk (some "port") (some "") GoType.other] []) :=
  ⟨(LoadTomlCfg_result (fun _ _ => Except.error "no such file") "app.toml"
      (GoType.ptr (GoType.struct [StructField.mk (some "port") (some "") GoType.other]))
      []).1 "no such file" rfl,
   ((LoadTomlCfg_result (fun _ _ => Except.ok ⟨fun _ => false⟩) "app.toml" GoType.other
      [StructField.mk (some "port") (some "") GoType.other]).2.1 ⟨fun _ => false⟩ rfl).1⟩

/-- C16: validation is monotone in the metadata: if the walk succeeds against
`md` and `md'` defines every key path that `md` defines, the walk succeeds
against `md'`. -/
theorem structFieldsDefinedInConfig_mono (md md' : MetaData) (structType : List StructField)
    (hierachyTomlKeys : List String)
    (hsub : ∀ path, md.IsDefined path = true → md'.IsDefined path = true)
    (hok : structFieldsDefinedInConfig md structType hierachyTomlKeys = none) :
    structFieldsDefinedInConfig md' structType hierachyTomlKeys = none := by
  unfold structFieldsDefinedInConfig at hok ⊢
  rw [walkFields_eq_scan, scanKeyed_err_eq_none] at hok ⊢
  exact fun path hp => hsub path (hok path hp)

/-- Witness for C16: a file defining `port` is valid, and stays valid when it
also defines `host`. -/
theorem structFieldsDefinedInConfig_mono_witness :
    structFieldsDefinedInConfig ⟨fun p => p = ["port"] || p = ["host"]⟩
      [StructField.mk (some "port") (some "") GoType.other] [] = none :=
  structFieldsDefinedInConfig_mono ⟨fun p => p = ["port"]⟩
    ⟨fun p => p = ["port"] || p = ["host"]⟩
    [StructField.mk (some "port") (some "") GoType.other] []
    (fun path h => by simp only [decide_eq_true_eq] at h; simp [h])
    (by simp [structFieldsDefinedInConfig, walkFields, walkSubBlock])

/-! ## Overflow, errors and the required tag -/

theorem wrapInt64_range (x : Int) :
    -(2 ^ 63 : Int) ≤ wrapInt64 x ∧ wrapInt64 x < 2 ^ 63 ∧
      (wrapInt64 x - x) % 2 ^ 64 = 0 := by
  unfold wrapInt64
  have h1 := Int.emod_nonneg (x + 2 ^ 63) (by norm_num : (2 ^ 64 : Int) ≠ 0)
  have h2 := Int.emod_lt_of_pos (x + 2 ^ 63) (by norm_num : (0 : Int) < 2 ^ 64)
  refine ⟨by omega, by omega, ?_⟩
  omega

/-- C17: `Bytes.UnmarshalText` does not detect overflow of the multiplication:
for every numeral of value `n` in the signed 64-bit range followed by one of
the seven suffixes, parsing succeeds and stores `n` times the multiplier
reduced modulo `2^64` into the signed range, also when the product lies
outside that range; `8589934592g` stores `-2^63`. -/
theorem UnmarshalText_wraps (b : Bytes) (p suffix : List Char) (n mult : Int)
    (hs : (suffix, mult) ∈ suffixMultipliers)
    (hp : numeralValue p = some n)
    (hlo : -(2 ^ 63 : Int) ≤ n) (hhi : n < 2 ^ 63) :
    Bytes.UnmarshalText b (p ++ suffix) = some (⟨wrapInt64 (n * mult)⟩, none) ∧
    (-(2 ^ 63 : Int) ≤ wrapInt64 (n * mult) ∧ wrapInt64 (n * mult) < 2 ^ 63 ∧
      (wrapInt64 (n * mult) - n * mult) % 2 ^ 64 = 0) ∧
    Bytes.UnmarshalText b "8589934592g".toList = some (⟨-(2 ^ 63)⟩, none) ∧
    Bytes.UnmarshalText b "18014398509481985k".toList = some (⟨1024⟩, none) := by
  refine ⟨?_, wrapInt64_range _, rfl, rfl⟩
  simp only [suffixMultipliers, List.mem_cons, Prod.mk.injEq, List.mem_singleton,
    List.not_mem_nil, or_false] at hs
  have e1 : "k".toList = ['k'] := rfl
  have e2 : "kb".toList = ['k', 'b'] := rfl
  have e3 : "m".toList = ['m'] := rfl
  have e4 : "mb".toList = ['m', 'b'] := rfl
  have e5 : "g".toList = ['g'] := rfl
  have e6 : "gb".toList = ['g', 'b'] := rfl
  rw [e1, e2, e3, e4, e5, e6] at hs
  have hK : KiB = 1024 := rfl
  have hM : MiB = 1024 ^ 2 := rfl
  have hG : GiB = 1024 ^ 3 := rfl
  have hB : Byte = 1 := rfl
  rcases hs with ⟨rfl, rfl⟩ | ⟨rfl, rfl⟩ | ⟨rfl, rfl⟩ | ⟨rfl, rfl⟩ | ⟨rfl, rfl⟩ | ⟨rfl, rfl⟩ |
    ⟨rfl, rfl⟩
  · rw [UnmarshalText_of_parts b p [] Byte n
      (by rw [List.append_nil]; exact unitAndSubIdx_numeral p n hp) hp ⟨hlo, hhi⟩, hB]
  · rw [UnmarshalText_of_parts b p _ KiB n (unitAndSubIdx_append_letter p).1 hp ⟨hlo, hhi⟩, hK]
  · rw [UnmarshalText_of_parts b p _ KiB n (unitAndSubIdx_append_letter_b p).1 hp ⟨hlo, hhi⟩,
      hK]
  · rw [UnmarshalText_of_parts b p _ MiB n (unitAndSubIdx_append_letter p).2.1 hp ⟨hlo, hhi⟩,
      hM]
  · rw [UnmarshalText_of_parts b p _ MiB n (unitAndSubIdx_append_letter_b p).2.1 hp
      ⟨hlo, hhi⟩, hM]
  · rw [UnmarshalText_of_parts b p _ GiB n (unitAndSubIdx_append_letter p).2.2 hp ⟨hlo, hhi⟩,
      hG]
  · rw [UnmarshalText_of_parts b p _ GiB n (unitAndSubIdx_append_letter_b p).2.2 hp
      ⟨hlo, hhi⟩, hG]

/-- Witness for C17: `8589934592` followed by `g`. -/
theorem UnmarshalText_wraps_witness :
    Bytes.UnmarshalText ⟨0⟩ ("8589934592".toList ++ "g".toList)
      = some (⟨wrapInt64 (8589934592 * 1024 ^ 3)⟩, none) :=
  (UnmarshalText_wraps ⟨0⟩ "8589934592".toList "g".toList 8589934592 (1024 ^ 3)
    (by decide) (by decide) (by decide) (by decide)).1

/-- C18: `Bytes.UnmarshalText` is atomic on error: whenever it returns an
error, the receiver after the call is the receiver before the call. -/
theorem UnmarshalText_error_keeps_receiver (b r : Bytes) (text : List Char) (e : NumError)
    (h : Bytes.UnmarshalText b text = some (r, some e)) : r = b := by
  rw [UnmarshalText_eq] at h
  cases hP : ParseInt (text.take (unitAndSubIdx text).2.toNat) with
  | ok i => rw [hP] at h; simp at h
  | error e' =>
    rw [hP] at h
    simp only [Option.some.injEq, Prod.mk.injEq] at h
    exact h.1.symm

/-- Witness for C18: the text `12x` on a receiver holding 7. -/
theorem UnmarshalText_error_keeps_receiver_witness :
    Bytes.UnmarshalText ⟨7⟩ "12x".toList = some (⟨7⟩, some NumError.ErrSyntax) ∧
    (⟨7⟩ : Bytes) = ⟨7⟩ :=
  ⟨rfl, UnmarshalText_error_keeps_receiver ⟨7⟩ ⟨7⟩ "12x".toList NumError.ErrSyntax rfl⟩

mutual
theorem keyedFields_retagFields (f : String → String) :
    ∀ (fields : List StructField) (keys : List String),
      keyedFields (retagFields f fields) keys = keyedFields fields keys
  | [], _ => by simp [retagFields]
  | StructField.mk none r t :: rest, keys => by
    simp only [retagFields, keyedFields]
    exact keyedFields_retagFields f rest keys
  | StructField.mk (some k) r t :: rest, keys => by
    simp only [retagFields, keyedFields, keyedFields_retagFields f rest keys,
      keyedSubBlock_retagType f t (keys ++ [k]), Option.isSome_map']
theorem keyedSubBlock_retagType (f : String → String) :
    ∀ (type : GoType) (keys : List String),
      keyedSubBlock (retagType f type) keys = keyedSubBlock type keys
  | GoType.ptr (GoType.struct fields), keys => by
    simp only [retagType, keyedSubBlock]
    exact keyedFields_retagFields f fields keys
  | GoType.other, _ => by simp [retagType, keyedSubBlock]
  | GoType.struct _, _ => by simp [retagType, keyedSubBlock]
  | GoType.ptr GoType.other, _ => by simp [retagType, keyedSubBlock]
  | GoType.ptr (GoType.ptr _), _ => by simp [retagType, keyedSubBlock]
end

/-- C19: the required marker is presence-only: replacing the value of every
`required` tag by any other value, at every depth, changes neither the error
nor the fields examined; a keyed field whose path is not defined is reported
missing for every tag value (the empty string, `true`, `false`, or any other),
and is not reported when the tag is absent. -/
theorem walkFields_retag (md : MetaData) (f : String → String) (structType : List StructField)
    (hierachyTomlKeys : List String) (tomlKey v : String) (type : GoType)
    (rest : List StructField) :
    walkFields md (retagFields f structType) hierachyTomlKeys
        = walkFields md structType hierachyTomlKeys ∧
    structFieldsDefinedInConfig md (retagFields f structType) hierachyTomlKeys
        = structFieldsDefinedInConfig md structType hierachyTomlKeys ∧
    (md.IsDefined (hierachyTomlKeys ++ [tomlKey]) = false →
      structFieldsDefinedInConfig md
          (StructField.mk (some tomlKey) (some v) type :: rest) hierachyTomlKeys
        = some (notDefinedError (hierachyTomlKeys ++ [tomlKey])) ∧
      structFieldsDefinedInConfig md
          (StructField.mk (some tomlKey) none GoType.other :: rest) hierachyTomlKeys
        = structFieldsDefinedInConfig md rest hierachyTomlKeys) := by
  have h : walkFields md (retagFields f structType) hierachyTomlKeys
      = walkFields md structType hierachyTomlKeys := by
    rw [walkFields_eq_scan, walkFields_eq_scan, keyedFields_retagFields]
  refine ⟨h, by unfold structFieldsDefinedInConfig; rw [h], ?_⟩
  intro hdef
  constructor
  · simp [structFieldsDefinedInConfig, walkFields, hdef]
  · simp [structFieldsDefinedInConfig, walkFields, walkSubBlock]

/-- Witness for C19: the tag value `false` still makes `port` required. -/
theorem walkFields_retag_witness :
    structFieldsDefinedInConfig ⟨fun _ => false⟩
        (StructField.mk (some "port") (some "false") GoType.other :: []) []
      = some (notDefinedError ([] ++ ["port"])) :=
  ((walkFields_retag ⟨fun _ => false⟩ id [] [] "port" "false" GoType.other []).2.2 rfl).1

/-! ## The order of the suffix tests, and termination of the walk -/

theorem unitAndSubIdx_eq_firstMatch (v : List Char) :
    unitAndSubIdx v = firstMatch suffixTable v := by
  unfold unitAndSubIdx firstMatch suffixTable
  simp only [List.find?]
  have e1 : "k".toList = ['k'] := rfl
  have e2 : "kb".toList = ['k', 'b'] := rfl
  have e3 : "m".toList = ['m'] := rfl
  have e4 : "mb".toList = ['m', 'b'] := rfl
  have e5 : "g".toList = ['g'] := rfl
  have e6 : "gb".toList = ['g', 'b'] := rfl
  rw [e1, e2, e3, e4, e5, e6]
  cases HasSuffix v ['k'] <;> cases HasSuffix v ['k', 'b'] <;> cases HasSuffix v ['m'] <;>
    cases HasSuffix v ['m', 'b'] <;> cases HasSuffix v ['g'] <;>
    cases HasSuffix v ['g', 'b'] <;> rfl

theorem suffixTable_suffix_inj :
    ∀ e₁, e₁ ∈ suffixTable → ∀ e₂, e₂ ∈ suffixTable → e₁.1 <:+ e₂.1 → e₁ = e₂ := by
  decide

theorem suffixTable_exclusive (v : List Char) (e₁ e₂ : List Char × Int × Int)
    (h₁ : e₁ ∈ suffixTable) (h₂ : e₂ ∈ suffixTable)
    (m₁ : HasSuffix v e₁.1 = true) (m₂ : HasSuffix v e₂.1 = true) : e₁ = e₂ := by
  rcases List.suffix_or_suffix_of_suffix ((HasSuffix_iff _ _).1 m₁) ((HasSuffix_iff _ _).1 m₂)
    with h | h
  · exact suffixTable_suffix_inj e₁ h₁ e₂ h₂ h
  · exact (suffixTable_suffix_inj e₂ h₂ e₁ h₁ h).symm

theorem find?_eq_of_perm {α : Type} (p : α → Bool) (l l' : List α) (hperm : l'.Perm l)
    (huniq : ∀ x, x ∈ l → ∀ y, y ∈ l → p x = true → p y = true → x = y) :
    l'.find? p = l.find? p := by
  cases h : l.find? p with
  | none =>
    rw [List.find?_eq_none] at h ⊢
    exact fun x hx => h x (hperm.subset hx)
  | some x =>
    have hx := List.find?_some h
    have hxl := List.mem_of_find?_eq_some h
    cases h' : l'.find? p with
    | none =>
      rw [List.find?_eq_none] at h'
      exact absurd hx (h' x (hperm.symm.subset hxl))
    | some y =>
      have hy := List.find?_some h'
      have hyl := hperm.subset (List.mem_of_find?_eq_some h')
      rw [huniq y hyl x hxl hy hx]

theorem firstMatch_perm (table : List (List Char × Int × Int)) (v : List Char)
    (hperm : table.Perm suffixTable) : firstMatch table v = unitAndSubIdx v := by
  rw [unitAndSubIdx_eq_firstMatch]
  unfold firstMatch
  rw [find?_eq_of_perm _ suffixTable table hperm
    (fun x hx y hy px py => suffixTable_exclusive v x y hx hy px py)]


theorem UnmarshalTextWith_eq (table : List (List Char × Int × Int)) (b : Bytes)
    (text : List Char) (h : firstMatch table text = unitAndSubIdx text) :
    UnmarshalTextWith table b text = Bytes.UnmarshalText b text := by
  unfold UnmarshalTextWith Bytes.UnmarshalText
  rw [h]

/-- C15: no text ends with two different suffixes among `k`, `kb`, `m`, `mb`,
`g`, `gb`; hence a first-match scan of the six suffixes in any order picks the
same unit and strip index as the chain of `Bytes.UnmarshalText`, and the parser
built on any such order, in particular on the order with the two-letter
suffixes first, agrees with `Bytes.UnmarshalText` on every input. -/
theorem firstMatch_any_order (b : Bytes) (text : List Char)
    (table : List (List Char × Int × Int)) (hperm : table.Perm suffixTable) :
    (∀ s, s ∈ suffixTable.map Prod.fst → ∀ t, t ∈ suffixTable.map Prod.fst →
      HasSuffix text s = true → HasSuffix text t = true → s = t) ∧
    firstMatch table text = unitAndSubIdx text ∧
    UnmarshalTextWith table b text = Bytes.UnmarshalText b text ∧
    UnmarshalTextWith suffixTableTwoLetterFirst b text = Bytes.UnmarshalText b text := by
  refine ⟨?_, firstMatch_perm table text hperm,
    UnmarshalTextWith_eq table b text (firstMatch_perm table text hperm),
    UnmarshalTextWith_eq _ b text (firstMatch_perm _ text (by decide))⟩
  intro s hs t ht ms mt
  obtain ⟨e₁, h₁, rfl⟩ := List.mem_map.1 hs
  obtain ⟨e₂, h₂, rfl⟩ := List.mem_map.1 ht
  rw [suffixTable_exclusive text e₁ e₂ h₁ h₂ ms mt]

/-- Witness for C15: the order with the two-letter suffixes first. -/
theorem firstMatch_any_order_witness :
    firstMatch suffixTableTwoLetterFirst "10mb".toList = unitAndSubIdx "10mb".toList ∧
    UnmarshalTextWith suffixTableTwoLetterFirst ⟨0⟩ "10mb".toList
      = Bytes.UnmarshalText ⟨0⟩ "10mb".toList :=
  ⟨(firstMatch_any_order ⟨0⟩ "10mb".toList suffixTableTwoLetterFirst (by decide)).2.1,
   (firstMatch_any_order ⟨0⟩ "10mb".toList suffixTableTwoLetterFirst (by decide)).2.2.1⟩

theorem walkFieldsFuel_eq (md : MetaData) :
    ∀ (fields : List StructField) (keys : List String) (fuel : Nat),
      fieldsSize fields ≤ fuel →
      walkFieldsFuel md fuel fields keys = some (walkFields md fields keys)
  | [], keys, fuel, h => by
    cases fuel with
    | zero => simp [fieldsSize] at h
    | succ n => simp [walkFieldsFuel, walkFields]
  | StructField.mk none r t :: rest, keys, fuel, h => by
    cases fuel with
    | zero => simp [fieldsSize] at h
    | succ n =>
      simp only [fieldsSize] at h
      simp only [walkFieldsFuel, walkFields]
      exact walkFieldsFuel_eq md rest keys n (by omega)
  | StructField.mk (some k) r (GoType.ptr (GoType.struct sub)) :: rest, keys, fuel, h => by
    cases fuel with
    | zero => simp [fieldsSize] at h
    | succ n =>
      simp only [fieldsSize, subBlockSize] at h
      simp only [walkFieldsFuel, walkFields, walkSubBlock]
      rw [walkFieldsFuel_eq md sub (keys ++ [k]) n (by omega),
        walkFieldsFuel_eq md rest keys n (by omega)]
      split_ifs
      · rfl
      · cases hs : walkFields md sub (keys ++ [k]) with
        | mk ex err => cases err <;> rfl
  | StructField.mk (some k) r GoType.other :: rest, keys, fuel, h => by
    cases fuel with
    | zero => simp [fieldsSize] at h
    | succ n =>
      simp only [fieldsSize, subBlockSize] at h
      simp only [walkFieldsFuel, walkFields, walkSubBlock]
      rw [walkFieldsFuel_eq md rest keys n (by omega)]
      split_ifs <;> rfl
  | StructField.mk (some k) r (GoType.struct _) :: rest, keys, fuel, h => by
    cases fuel with
    | zero => simp [fieldsSize] at h
    | succ n =>
      simp only [fieldsSize, subBlockSize] at h
      simp only [walkFieldsFuel, walkFields, walkSubBlock]
      rw [walkFieldsFuel_eq md rest keys n (by omega)]
      split_ifs <;> rfl
  | StructField.mk (some k) r (GoType.ptr GoType.other) :: rest, keys, fuel, h => by
    cases fuel with
    | zero => simp [fieldsSize] at h
    | succ n =>
      simp only [fieldsSize, subBlockSize] at h
      simp only [walkFieldsFuel, walkFields, walkSubBlock]
      rw [walkFieldsFuel_eq md rest keys n (by omega)]
      split_ifs <;> rfl
  | StructField.mk (some k) r (GoType.ptr (GoType.ptr _)) :: rest, keys, fuel, h => by
    cases fuel with
    | zero => simp [fieldsSize] at h
    | succ n =>
      simp only [fieldsSize, subBlockSize] at h
      simp only [walkFieldsFuel, walkFields, walkSubBlock]
      rw [walkFieldsFuel_eq md rest keys n (by omega)]
      split_ifs <;> rfl

theorem fieldsSize_sub_lt {tomlKey : Option String} {required : Option String}
    {sub : List StructField} :
    ∀ (fields : List StructField),
      StructField.mk tomlKey required (GoType.ptr (GoType.struct sub)) ∈ fields →
      fieldsSize sub < fieldsSize fields
  | [], h => by cases h
  | StructField.mk k r t :: rest, h => by
    simp only [fieldsSize]
    rcases List.mem_cons.1 h with heq | hmem
    · cases heq
      simp only [subBlockSize]
      omega
    · have := fieldsSize_sub_lt rest hmem
      omega


/-- C20: on every field-descriptor tree the validation walk terminates: run by
general recursion with a budget of loop iterations, it returns (the result of
the structural walk) as soon as the budget reaches the size of the tree; every
recursive call is made on the strictly smaller tree of a nested struct, and
every further loop iteration on a strictly shorter field list. -/
theorem walkFieldsFuel_terminates (md : MetaData) (structType : List StructField)
    (hierachyTomlKeys : List String) :
    (∀ fuel, fieldsSize structType ≤ fuel →
      walkFieldsFuel md fuel structType hierachyTomlKeys
        = some (walkFields md structType hierachyTomlKeys)) ∧
    (∀ tomlKey required sub,
      StructField.mk tomlKey required (GoType.ptr (GoType.struct sub)) ∈ structType →
      fieldsSize sub < fieldsSize structType) ∧
    (∀ field rest, structType = field :: rest → fieldsSize rest < fieldsSize structType) := by
  refine ⟨walkFieldsFuel_eq md structType hierachyTomlKeys,
    fun _ _ _ h => fieldsSize_sub_lt structType h, ?_⟩
  intro field rest h
  subst h
  obtain ⟨k, r, t⟩ := field
  simp only [fieldsSize]
  omega

/-- Witness for C20: the tree with the block `server` holding `port` has size 4
and the walk returns within a budget of 4. -/
theorem walkFieldsFuel_terminates_witness :
    walkFieldsFuel ⟨fun _ => true⟩ 4
        [StructField.mk (some "server") none (GoType.ptr (GoType.struct
          [StructField.mk (some "port") (some "") GoType.other]))] []
      = some (walkFields ⟨fun _ => true⟩
        [StructField.mk (some "server") none (GoType.ptr (GoType.struct
          [StructField.mk (some "port") (some "") GoType.other]))] []) :=
  (walkFieldsFuel_terminates ⟨fun _ => true⟩
    [StructField.mk (some "server") none (GoType.ptr (GoType.struct
      [StructField.mk (some "port") (some "") GoType.other]))] []).1 4 (by decide)

/-! ## Durations: exact `float64` results and the formatter -/

theorem roundFloat64_exact (num den : Nat) (hden : 0 < den) (hdvd : den ∣ num)
    (hlt : num / den < 2 ^ 53) :
    (roundFloat64 num den).1 = num / den * (roundFloat64 num den).2 ∧
      0 < (roundFloat64 num den).2 := by
  unfold roundFloat64
  by_cases h0 : num = 0
  · rw [if_pos h0]; subst h0; simp
  · rw [if_neg h0, if_neg (by omega)]
    simp only
    have hpos : 0 < 2 ^ float64ShiftUp (den + 53) num den := Nat.pow_pos (by norm_num)
    refine ⟨?_, hpos⟩
    have hdvd' : den ∣ num * 2 ^ float64ShiftUp (den + 53) num den := Dvd.dvd.mul_right hdvd _
    rw [roundHalfEven_of_dvd _ _ hden hdvd']
    obtain ⟨k, rfl⟩ := hdvd
    rw [Nat.mul_div_cancel_left _ hden, Nat.mul_assoc, Nat.mul_div_cancel_left _ hden]

theorem fractionNanos_exact (f unit N c k : Nat) (hc : 0 < c) (hk : 0 < k)
    (hunit : unit = N * k) (hf : f < 2 ^ 53) (hN : N < 2 ^ 53) (hfN : f * N < 2 ^ 53) :
    fractionNanos f unit (k * c, c) = f * N := by
  unfold fractionNanos
  simp only
  have hq := roundFloat64_exact (unit * c) (k * c) (Nat.mul_pos hk hc)
    (by rw [hunit]; exact ⟨N, by ring⟩)
    (by rw [hunit, Nat.mul_assoc, Nat.mul_div_cancel _ (Nat.mul_pos hk hc)]; exact hN)
  have hqv : unit * c / (k * c) = N := by
    rw [hunit, Nat.mul_assoc, Nat.mul_div_cancel _ (Nat.mul_pos hk hc)]
  rw [hqv] at hq
  have hff := roundFloat64_exact f 1 (by norm_num) (one_dvd _) (by rw [Nat.div_one]; exact hf)
  rw [Nat.div_one] at hff
  obtain ⟨hq1, hq2⟩ := hq
  obtain ⟨hf1, hf2⟩ := hff
  generalize roundFloat64 (unit * c) (k * c) = q at hq1 hq2 ⊢
  generalize roundFloat64 f 1 = ff at hf1 hf2 ⊢
  have hden : 0 < ff.2 * q.2 := Nat.mul_pos hf2 hq2
  have hnum : ff.1 * q.1 = f * N * (ff.2 * q.2) := by rw [hf1, hq1]; ring
  have hp := roundFloat64_exact (ff.1 * q.1) (ff.2 * q.2) hden
    (by rw [hnum]; exact ⟨f * N, by ring⟩)
    (by rw [hnum, Nat.mul_div_cancel _ hden]; exact hfN)
  rw [hnum, Nat.mul_div_cancel _ hden] at hp
  rw [hnum, hp.1, Nat.mul_div_cancel _ hp.2]

theorem decimalDigits_fuel : ∀ (f₁ f₂ n : Nat), n < f₁ → n < f₂ →
    decimalDigits f₁ n = decimalDigits f₂ n
  | 0, _, _, h, _ => by omega
  | _ + 1, 0, _, _, h => by omega
  | f₁ + 1, f₂ + 1, n, h₁, h₂ => by
    unfold decimalDigits
    split_ifs with hn
    · rfl
    · rw [decimalDigits_fuel f₁ f₂ (n / 10) (by omega) (by omega)]

theorem formatNat_unfold (n : Nat) :
    formatNat n = if n < 10 then [digitChar n] else formatNat (n / 10) ++ [digitChar (n % 10)] := by
  unfold formatNat
  conv_lhs => unfold decimalDigits
  split_ifs with hn
  · rfl
  · rw [decimalDigits_fuel n (n / 10 + 1) (n / 10) (by omega) (by omega)]

theorem fmtIntLoop_eq : ∀ (fuel v : Nat) (buf : List Char), 0 < v → v ≤ fuel →
    fmtIntLoop fuel v buf = formatNat v ++ buf
  | 0, _, _, h₀, h => by omega
  | fuel + 1, v, buf, h₀, h => by
    unfold fmtIntLoop
    rw [if_pos h₀, formatNat_unfold v]
    by_cases hv : v < 10
    · rw [if_pos hv]
      have hz : v / 10 = 0 := by omega
      have hm : v % 10 = v := by omega
      rw [hz, hm]
      cases fuel with
      | zero => rfl
      | succ f => unfold fmtIntLoop; rw [if_neg (by omega)]; rfl
    · rw [if_neg hv, fmtIntLoop_eq fuel (v / 10) _ (by omega) (by omega)]
      simp

theorem fmtInt_eq (buf : List Char) (v : Nat) : fmtInt buf v = formatNat v ++ buf := by
  unfold fmtInt
  by_cases h : v = 0
  · rw [if_pos h, h]; rfl
  · rw [if_neg h, fmtIntLoop_eq v v buf (by omega) (Nat.le_refl _)]

theorem fmtFracLoop_spec : ∀ (prec v : Nat) (print : Bool) (buf : List Char),
    ∃ (D : List Char) (z : Nat),
      (fmtFracLoop prec v print buf).1 = D ++ buf ∧
      (∀ c, c ∈ D → c.isDigit = true) ∧
      D.length + z = prec ∧
      digitsValue 0 D * 10 ^ z = v % 10 ^ prec ∧
      (fmtFracLoop prec v print buf).2.1 = v / 10 ^ prec ∧
      (fmtFracLoop prec v print buf).2.2 = (print || decide (D ≠ [])) ∧
      (print = true → z = 0)
  | 0, v, print, buf => by
    refine ⟨[], 0, rfl, by simp, rfl, by simp [digitsValue, Nat.mod_one], by simp [fmtFracLoop],
      by simp [fmtFracLoop], fun _ => rfl⟩
  | prec + 1, v, print, buf => by
    unfold fmtFracLoop
    obtain ⟨D', z', h1, h2, h3, h4, h5, h6, h7⟩ := fmtFracLoop_spec prec (v / 10)
      (print || decide (v % 10 ≠ 0))
      (if (print || decide (v % 10 ≠ 0)) = true then digitChar (v % 10) :: buf else buf)
    have hdiv : v / 10 ^ (prec + 1) = v / 10 / 10 ^ prec := by
      rw [Nat.div_div_eq_div_mul, pow_succ']
    have hmod : v % 10 ^ (prec + 1) = v % 10 + 10 * (v / 10 % 10 ^ prec) := by
      rw [pow_succ', Nat.mod_mul]
    by_cases hp : (print || decide (v % 10 ≠ 0)) = true
    · rw [if_pos hp] at h1 h5 h6 ⊢
      have hz := h7 hp
      subst hz
      refine ⟨D' ++ [digitChar (v % 10)], 0, ?_, ?_, ?_, ?_, ?_, ?_, fun _ => rfl⟩
      · rw [h1]; simp
      · intro c hc
        rcases List.mem_append.1 hc with h | h
        · exact h2 c h
        · rw [List.mem_singleton] at h
          subst h
          exact digitChar_isDigit _ (Nat.mod_lt _ (by norm_num))
      · simp only [List.length_append, List.length_singleton]; omega
      · rw [digitsValue_append, digitChar_toNat _ (Nat.mod_lt _ (by norm_num)), hmod]
        simp only [pow_zero, Nat.mul_one] at h4 ⊢
        omega
      · rw [h5, hdiv]
      · rw [h6, hp]; simp
    · rw [if_neg hp] at h1 h5 h6 ⊢
      have hp' : (print || decide (v % 10 ≠ 0)) = false := by simpa using hp
      simp only [Bool.or_eq_false_iff, decide_eq_false_iff_not, not_not] at hp'
      refine ⟨D', z' + 1, h1, h2, by omega, ?_, ?_, ?_, ?_⟩
      · rw [hmod, pow_succ, ← Nat.mul_assoc, h4]
        omega
      · rw [h5, hdiv]
      · rw [h6, hp'.1]
        simp [hp'.2]
      · intro h; rw [hp'.1] at h; cases h

theorem fmtFrac_spec (buf : List Char) (v prec : Nat) :
    ∃ (D : List Char) (z : Nat),
      (fmtFrac buf v prec).1 = (if D = [] then [] else '.' :: D) ++ buf ∧
      (∀ c, c ∈ D → c.isDigit = true) ∧
      D.length + z = prec ∧
      digitsValue 0 D * 10 ^ z = v % 10 ^ prec ∧
      (fmtFrac buf v prec).2 = v / 10 ^ prec := by
  obtain ⟨D, z, h1, h2, h3, h4, h5, h6, _⟩ := fmtFracLoop_spec prec v false buf
  refine ⟨D, z, ?_, h2, h3, h4, h5⟩
  unfold fmtFrac
  simp only [h6, h1, Bool.false_or, decide_eq_true_eq]
  by_cases hD : D = []
  · simp [hD]
  · simp [hD]

/-! ## Durations: the parser on digits and units -/

theorem not_digit_iff (c : Char) : (c < '0' ∨ c > '9') ↔ c.isDigit = false := by
  rw [← Bool.not_eq_true, isDigit_iff, not_and_or, not_le, not_le]

theorem leadingInt_digits : ∀ (ds : List Char) (acc : Nat) (tail : List Char),
    (∀ c, c ∈ ds → c.isDigit = true) →
    (∀ c, tail.head? = some c → c.isDigit = false) →
    digitsValue acc ds ≤ 2 ^ 63 →
    leadingInt (ds ++ tail) acc = some (digitsValue acc ds, tail)
  | [], acc, tail, _, ht, _ => by
    cases tail with
    | nil => rfl
    | cons c t =>
      simp only [List.nil_append, leadingInt]
      rw [if_pos ((not_digit_iff c).2 (ht c rfl))]
      rfl
  | d :: ds, acc, tail, hd, ht, hv => by
    have hdig : d.isDigit = true := hd d (List.mem_cons_self _ _)
    have hnot : ¬ (d < '0' ∨ d > '9') := by
      rw [not_digit_iff, hdig]; simp
    rw [digitsValue_cons] at hv ⊢
    have hmono := le_digitsValue ds (acc * 10 + (d.toNat - '0'.toNat))
    simp only [List.cons_append, leadingInt]
    rw [if_neg hnot, if_neg (by omega), if_neg (by omega)]
    exact leadingInt_digits ds _ tail (fun c hc => hd c (List.mem_cons_of_mem _ hc)) ht hv

theorem leadingFraction_digits : ∀ (ds : List Char) (x : Nat) (scale : Nat × Nat)
    (tail : List Char) (N : Nat),
    (∀ c, c ∈ ds → c.isDigit = true) →
    (∀ c, tail.head? = some c → c.isDigit = false) →
    digitsValue x ds ≤ 2 ^ 63 - 1 →
    scale.1 = N * scale.2 → 0 < scale.2 → N * 10 ^ ds.length < 2 ^ 53 →
    (leadingFraction (ds ++ tail) x scale false).1 = digitsValue x ds ∧
    (leadingFraction (ds ++ tail) x scale false).2.1.1
      = N * 10 ^ ds.length * (leadingFraction (ds ++ tail) x scale false).2.1.2 ∧
    0 < (leadingFraction (ds ++ tail) x scale false).2.1.2 ∧
    (leadingFraction (ds ++ tail) x scale false).2.2 = tail
  | [], x, scale, tail, N, _, ht, _, hs, hpos, _ => by
    cases tail with
    | nil => simp [leadingFraction, digitsValue, hs, hpos]
    | cons c t =>
      simp only [List.nil_append, leadingFraction]
      rw [if_pos ((not_digit_iff c).2 (ht c rfl))]
      simp [digitsValue, hs, hpos]
  | d :: ds, x, scale, tail, N, hd, ht, hv, hs, hpos, hN => by
    have hdig : d.isDigit = true := hd d (List.mem_cons_self _ _)
    have hnot : ¬ (d < '0' ∨ d > '9') := by
      rw [not_digit_iff, hdig]; simp
    rw [digitsValue_cons] at hv ⊢
    have hmono := le_digitsValue ds (x * 10 + (d.toNat - '0'.toNat))
    simp only [List.cons_append, leadingFraction, List.length_cons]
    rw [if_neg hnot, if_neg (by simp), if_neg (by omega), if_neg (by omega)]
    have hN' : N * 10 * 10 ^ ds.length < 2 ^ 53 := by
      rw [Nat.mul_assoc, ← pow_succ']; exact hN
    have hle : N * 10 ≤ N * 10 * 10 ^ ds.length :=
      Nat.le_mul_of_pos_right _ (Nat.pow_pos (by norm_num))
    have hq : scale.1 * 10 / scale.2 = N * 10 := by
      rw [hs, Nat.mul_right_comm, Nat.mul_div_cancel _ hpos]
    have hex := roundFloat64_exact (scale.1 * 10) scale.2 hpos
      (by rw [hs]; exact ⟨N * 10, by ring⟩) (by rw [hq]; omega)
    rw [hq] at hex
    have ih := leadingFraction_digits ds (x * 10 + (d.toNat - '0'.toNat))
      (roundFloat64 (scale.1 * 10) scale.2) tail (N * 10)
      (fun c hc => hd c (List.mem_cons_of_mem _ hc)) ht hv hex.1 hex.2 hN'
    rw [pow_succ', ← Nat.mul_assoc]
    exact ih

theorem splitUnit_append : ∀ (uname rest : List Char),
    (∀ c, c ∈ uname → c ≠ '.' ∧ c.isDigit = false) →
    (∀ c, rest.head? = some c → c.isDigit = true) →
    splitUnit (uname ++ rest) = (uname, rest) := by
  intro uname rest hu hr
  unfold splitUnit
  rw [List.span_eq_take_drop]
  have hp : ∀ c : Char, (!(decide (c = '.') || (decide ('0' ≤ c) && decide (c ≤ '9')))) = true ↔
      (c ≠ '.' ∧ c.isDigit = false) := by
    intro c
    rw [← Bool.not_eq_true c.isDigit, isDigit_iff]
    simp only [Bool.not_eq_true', Bool.or_eq_false_iff, decide_eq_false_iff_not,
      Bool.and_eq_false_iff, ne_eq]
    constructor
    · rintro ⟨h1, h2⟩
      exact ⟨h1, fun h => by rcases h2 with h2 | h2 <;> [exact h2 h.1; exact h2 h.2]⟩
    · rintro ⟨h1, h2⟩
      exact ⟨h1, not_and_or.1 h2⟩
  induction uname with
  | nil =>
    cases rest with
    | nil => rfl
    | cons c t =>
      have hc : (!(decide (c = '.') || (decide ('0' ≤ c) && decide (c ≤ '9')))) = false := by
        rw [← Bool.not_eq_true, hp]
        intro h
        rw [hr c rfl] at h
        cases h.2
      simp only [List.nil_append, List.takeWhile_cons, List.dropWhile_cons, hc]
      rfl
  | cons a l ih =>
    have ha := (hp a).2 (hu a (List.mem_cons_self _ _))
    have := ih (fun c hc => hu c (List.mem_cons_of_mem _ hc))
    simp only [List.cons_append, List.takeWhile_cons, List.dropWhile_cons, ha, if_true]
    simp only [Prod.mk.injEq] at this ⊢
    exact ⟨by rw [this.1], this.2⟩

/-! ## Durations: one group of the formatted text -/

theorem parseFraction_of_ne (c : Char) (t : List Char) (h : c ≠ '.') :
    parseFraction (c :: t) = (false, 0, (1, 1), c :: t) := by
  unfold parseFraction
  split
  · rename_i s2 heq
    simp only [List.cons.injEq] at heq
    exact absurd heq.1 h
  · rfl

theorem parseFraction_spec (D uname rest : List Char)
    (hD : ∀ c, c ∈ D → c.isDigit = true)
    (hu : ∀ c, c ∈ uname → c ≠ '.' ∧ c.isDigit = false) (hune : uname ≠ [])
    (hf : digitsValue 0 D ≤ 2 ^ 63 - 1) (hk : 10 ^ D.length < 2 ^ 53) :
    (parseFraction ((if D = [] then [] else '.' :: D) ++ uname ++ rest)).2.1
      = digitsValue 0 D ∧
    (parseFraction ((if D = [] then [] else '.' :: D) ++ uname ++ rest)).2.2.1.1
      = 10 ^ D.length *
        (parseFraction ((if D = [] then [] else '.' :: D) ++ uname ++ rest)).2.2.1.2 ∧
    0 < (parseFraction ((if D = [] then [] else '.' :: D) ++ uname ++ rest)).2.2.1.2 ∧
    (parseFraction ((if D = [] then [] else '.' :: D) ++ uname ++ rest)).2.2.2
      = uname ++ rest := by
  obtain ⟨u0, us, rfl⟩ := List.exists_cons_of_ne_nil hune
  by_cases hDn : D = []
  · subst hDn
    simp only [if_true, List.nil_append, List.cons_append]
    rw [parseFraction_of_ne u0 _ (hu u0 (List.mem_cons_self _ _)).1]
    simp [digitsValue]
  · rw [if_neg hDn]
    have hshape : ('.' :: D) ++ (u0 :: us) ++ rest
        = '.' :: (D ++ ((u0 :: us) ++ rest)) := by simp
    rw [hshape]
    have hl := leadingFraction_digits D 0 (1, 1) ((u0 :: us) ++ rest) 1 hD
      (by
        intro c hc
        simp only [List.cons_append, List.head?_cons, Option.some.injEq] at hc
        subst hc
        exact (hu u0 (List.mem_cons_self _ _)).2)
      hf (by simp) (by norm_num) (by simpa using hk)
    simp only [Nat.one_mul] at hl
    unfold parseFraction
    exact ⟨hl.1, hl.2.1, hl.2.2.1, hl.2.2.2⟩

theorem groupValue_exact (x f unit N k : Nat) (scale : Nat × Nat) (uname : List Char)
    (hmap : unitMap uname = some unit) (hunit : unit = N * k) (hk : 0 < k)
    (hs : scale.1 = k * scale.2) (hpos : 0 < scale.2)
    (hf : f < 2 ^ 53) (hN : N < 2 ^ 53) (hfN : f * N < 2 ^ 53)
    (hx : x ≤ 2 ^ 63 / unit) (hsum : x * unit + f * N ≤ 2 ^ 63) :
    groupValue x f scale uname = Except.ok (x * unit + f * N) := by
  unfold groupValue
  rw [hmap]
  simp only
  rw [if_neg (by omega)]
  by_cases h0 : f > 0
  · have hsc : scale = (k * scale.2, scale.2) := by rw [← hs]
    have hfr : fractionNanos f unit scale = f * N := by
      rw [hsc]
      exact fractionNanos_exact f unit N scale.2 k hpos hk hunit hf hN hfN
    rw [if_pos h0, hfr, if_neg (by omega)]
  · rw [if_neg h0]
    have : f = 0 := by omega
    rw [this, Nat.zero_mul, Nat.add_zero]

theorem parseGroup_formatted (x : Nat) (D uname rest : List Char) (unit N : Nat)
    (hD : ∀ c, c ∈ D → c.isDigit = true)
    (hu : ∀ c, c ∈ uname → c ≠ '.' ∧ c.isDigit = false) (hune : uname ≠ [])
    (hr : ∀ c, rest.head? = some c → c.isDigit = true)
    (hmap : unitMap uname = some unit) (hunit : unit = N * 10 ^ D.length)
    (hf : digitsValue 0 D < 2 ^ 53) (hk : 10 ^ D.length < 2 ^ 53) (hN : N < 2 ^ 53)
    (hfN : digitsValue 0 D * N < 2 ^ 53)
    (hx : x ≤ 2 ^ 63 / unit) (hsum : x * unit + digitsValue 0 D * N ≤ 2 ^ 63) :
    parseGroup (formatNat x ++ ((if D = [] then [] else '.' :: D) ++ uname ++ rest))
      = Except.ok (x * unit + digitsValue 0 D * N, rest) := by
  obtain ⟨hp1, hp2, hp3, hp4⟩ := parseFraction_spec D uname rest hD hu hune (by omega) hk
  have hxle : x ≤ 2 ^ 63 := Nat.le_trans hx (Nat.div_le_self _ _)
  have htail : ∀ c, ((if D = [] then [] else '.' :: D) ++ uname ++ rest).head? = some c →
      c.isDigit = false := by
    obtain ⟨u0, us, rfl⟩ := List.exists_cons_of_ne_nil hune
    intro c hc
    by_cases hDn : D = []
    · rw [if_pos hDn] at hc
      simp only [List.nil_append, List.cons_append, List.head?_cons, Option.some.injEq] at hc
      subst hc
      exact (hu _ (List.mem_cons_self _ _)).2
    · rw [if_neg hDn] at hc
      simp only [List.cons_append, List.head?_cons, Option.some.injEq] at hc
      subst hc
      rfl
  have hli := leadingInt_digits (formatNat x) 0 _ (formatNat_isDigit x) htail
    (by rw [digitsValue_formatNat]; exact hxle)
  rw [digitsValue_formatNat] at hli
  obtain ⟨c0, fs, hcf⟩ := List.exists_cons_of_ne_nil (formatNat_ne_nil x)
  have hc0 : c0.isDigit = true := formatNat_isDigit x c0 (by rw [hcf]; exact List.mem_cons_self _ _)
  have hsplit := splitUnit_append uname rest hu hr
  have hgv := groupValue_exact x (digitsValue 0 D) unit N (10 ^ D.length)
    (parseFraction ((if D = [] then [] else '.' :: D) ++ uname ++ rest)).2.2.1 uname
    hmap hunit (Nat.pow_pos (by norm_num)) hp2 hp3 hf hN hfN hx hsum
  generalize htl : (if D = [] then [] else '.' :: D) ++ uname ++ rest = tl at *
  rw [hcf] at hli ⊢
  simp only [List.cons_append] at hli ⊢
  unfold parseGroup
  simp only [hli]
  have hcond : ¬ ¬ (c0 = '.' ∨ ('0' ≤ c0 ∧ c0 ≤ '9')) :=
    not_not.2 (Or.inr ((isDigit_iff c0).1 hc0))
  rw [if_neg hcond]
  have hlen : ¬ ((c0 :: (fs ++ tl)).length = tl.length ∧ (parseFraction tl).1 = false) := by
    intro h
    have := h.1
    simp only [List.length_cons, List.length_append] at this
    omega
  rw [if_neg hlen, hp4, hsplit]
  simp only
  rw [if_neg hune, hp1, hgv]

/-! ## Durations: the loop of the parser on the formatted text -/

theorem parseDurationLoop_nil (fuel d : Nat) : parseDurationLoop fuel [] d = Except.ok d := by
  cases fuel <;> rfl

theorem parseDurationLoop_step (fuel : Nat) (s rest : List Char) (d v : Nat) (hs : s ≠ [])
    (hg : parseGroup s = Except.ok (v, rest)) (hsum : d + v ≤ 2 ^ 63) :
    parseDurationLoop (fuel + 1) s d = parseDurationLoop fuel rest (d + v) := by
  obtain ⟨c, cs, rfl⟩ := List.exists_cons_of_ne_nil hs
  have hmod : (d + v) % 2 ^ 64 = d + v := Nat.mod_eq_of_lt (by omega)
  conv_lhs => unfold parseDurationLoop
  simp only [hg, hmod]
  rw [if_neg (by omega)]

theorem parseDurationLoop_fraction_group (fuel v prec d x : Nat) (uname : List Char)
    (hprec : prec ≤ 9) (hmap : unitMap uname = some (10 ^ prec))
    (hu : ∀ c, c ∈ uname → c ≠ '.' ∧ c.isDigit = false) (hune : uname ≠ [])
    (hx : x ≤ 2 ^ 63 / 10 ^ prec)
    (hsum : d + (x * 10 ^ prec + v % 10 ^ prec) ≤ 2 ^ 63) :
    parseDurationLoop (fuel + 1) (fmtInt (fmtFrac uname v prec).1 x) d
      = Except.ok (d + (x * 10 ^ prec + v % 10 ^ prec)) := by
  obtain ⟨D, z, h1, h2, h3, h4, _⟩ := fmtFrac_spec uname v prec
  have hpz : 10 ^ prec = 10 ^ z * 10 ^ D.length := by rw [← pow_add, Nat.add_comm, h3]
  have hle9 : (10 : Nat) ^ prec ≤ 10 ^ 9 := Nat.pow_le_pow_right (by norm_num) hprec
  have hmodlt : v % 10 ^ prec < 10 ^ prec := Nat.mod_lt _ (Nat.pow_pos (by norm_num))
  have hzpos : 0 < 10 ^ z := Nat.pow_pos (by norm_num)
  have hDpos : 0 < 10 ^ D.length := Nat.pow_pos (by norm_num)
  have hf : digitsValue 0 D ≤ v % 10 ^ prec := by
    rw [← h4]; exact Nat.le_mul_of_pos_right _ hzpos
  have hzle : 10 ^ z ≤ 10 ^ prec := Nat.pow_le_pow_right (by norm_num) (by omega)
  have hDle : 10 ^ D.length ≤ 10 ^ prec := Nat.pow_le_pow_right (by norm_num) (by omega)
  have hg := parseGroup_formatted x D uname [] (10 ^ prec) (10 ^ z) h2 hu hune
    (by intro c hc; cases hc) hmap hpz (by omega) (by omega) (by omega)
    (by rw [h4]; omega) hx (by rw [h4]; omega)
  rw [h4] at hg
  have htext : fmtInt (fmtFrac uname v prec).1 x
      = formatNat x ++ ((if D = [] then [] else '.' :: D) ++ uname ++ []) := by
    rw [fmtInt_eq, h1, List.append_nil]
  rw [htext, parseDurationLoop_step fuel _ [] d _ (by simp [formatNat_ne_nil]) hg hsum,
    parseDurationLoop_nil]

theorem parseDurationLoop_whole_group (fuel d x unit : Nat) (uname rest : List Char)
    (hmap : unitMap uname = some unit)
    (hu : ∀ c, c ∈ uname → c ≠ '.' ∧ c.isDigit = false) (hune : uname ≠ [])
    (hr : ∀ c, rest.head? = some c → c.isDigit = true)
    (hunit : unit < 2 ^ 53) (hx : x ≤ 2 ^ 63 / unit) (hsum : d + x * unit ≤ 2 ^ 63) :
    parseDurationLoop (fuel + 1) (formatNat x ++ (uname ++ rest)) d
      = parseDurationLoop fuel rest (d + x * unit) := by
  have hg := parseGroup_formatted x [] uname rest unit unit (by intro c hc; cases hc) hu hune hr
    hmap (by simp) (by simp [digitsValue]) (by norm_num) hunit (by simp [digitsValue]) hx
    (by simp only [digitsValue, List.foldl_nil, Nat.zero_mul, Nat.add_zero]
        exact Nat.le_trans (Nat.le_add_left _ _) hsum)
  simp only [digitsValue, List.foldl_nil, Nat.zero_mul, Nat.add_zero, if_true,
    List.nil_append] at hg
  exact parseDurationLoop_step fuel _ rest d _ (by simp [formatNat_ne_nil]) hg hsum

theorem formatNat_head_isDigit (x : Nat) (tail : List Char) :
    ∀ c, (formatNat x ++ tail).head? = some c → c.isDigit = true := by
  obtain ⟨c0, fs, hcf⟩ := List.exists_cons_of_ne_nil (formatNat_ne_nil x)
  intro c hc
  rw [hcf] at hc
  simp only [List.cons_append, List.head?_cons, Option.some.injEq] at hc
  subst hc
  exact formatNat_isDigit x c0 (by rw [hcf]; exact List.mem_cons_self _ _)

/-! ## Durations: parsing the formatted text -/

theorem parseDurationLoop_mono : ∀ (fuel fuel' : Nat) (s : List Char) (d r : Nat),
    fuel ≤ fuel' → parseDurationLoop fuel s d = Except.ok r →
    parseDurationLoop fuel' s d = Except.ok r
  | fuel, fuel', [], d, r, _, h => by
    rw [parseDurationLoop_nil] at h ⊢
    exact h
  | 0, _, _ :: _, _, _, _, h => by
    simp [parseDurationLoop] at h
  | fuel + 1, 0, _ :: _, _, _, hle, _ => by omega
  | fuel + 1, fuel' + 1, c :: cs, d, r, hle, h => by
    unfold parseDurationLoop at h ⊢
    cases hg : parseGroup (c :: cs) with
    | error e => rw [hg] at h; simp at h
    | ok p =>
      obtain ⟨v, rest⟩ := p
      rw [hg] at h
      simp only at h ⊢
      split_ifs at h ⊢ with hc
      exact parseDurationLoop_mono fuel fuel' rest _ r (by omega) h

theorem unit_chars (uname : List Char)
    (h : uname = "ns".toList ∨ uname = [Char.ofNat 0xC2, Char.ofNat 0xB5, 's'] ∨
      uname = "ms".toList ∨ uname = "s".toList ∨ uname = "m".toList ∨ uname = "h".toList) :
    (∀ c, c ∈ uname → c ≠ '.' ∧ c.isDigit = false) ∧ uname ≠ [] := by
  rcases h with rfl | rfl | rfl | rfl | rfl | rfl <;> exact ⟨by decide, by decide⟩

theorem parseDurationLoop_durationBody (u : Nat) (hu : u ≤ 2 ^ 63) :
    parseDurationLoop (durationBody u).length (durationBody u) 0 = Except.ok u ∧
    (0 < u → ∃ x tail, durationBody u = formatNat x ++ tail ∧ tail ≠ []) := by
  have one : ∀ (prec : Nat) (uname : List Char), prec ≤ 9 →
      unitMap uname = some (10 ^ prec) →
      ((∀ c, c ∈ uname → c ≠ '.' ∧ c.isDigit = false) ∧ uname ≠ []) →
      ∀ d x, x ≤ 2 ^ 63 / 10 ^ prec → d + (x * 10 ^ prec + u % 10 ^ prec) ≤ 2 ^ 63 →
      ∀ fuel, parseDurationLoop (fuel + 1) (fmtInt (fmtFrac uname u prec).1 x) d
        = Except.ok (d + (x * 10 ^ prec + u % 10 ^ prec)) :=
    fun prec uname hprec hmap hch d x hx hsum fuel =>
      parseDurationLoop_fraction_group fuel u prec d x uname hprec hmap hch.1 hch.2 hx hsum
  have shape : ∀ (uname : List Char) (prec x : Nat), uname ≠ [] →
      ∃ tail, fmtInt (fmtFrac uname u prec).1 x = formatNat x ++ tail ∧ tail ≠ [] := by
    intro uname prec x hne
    obtain ⟨D, z, h1, _⟩ := fmtFrac_spec uname u prec
    exact ⟨_, by rw [fmtInt_eq, h1], by simp [hne]⟩
  have lift : ∀ (k : Nat) (s : List Char), k ≤ s.length →
      parseDurationLoop k s 0 = Except.ok u →
      parseDurationLoop s.length s 0 = Except.ok u :=
    fun k s hk h => parseDurationLoop_mono k s.length s 0 u hk h
  have hdm : ∀ p : Nat, 0 < p → u / p * p + u % p = u := fun p _ => Nat.div_add_mod' u p
  have sub : ∀ (prec : Nat) (uname : List Char), prec ≤ 9 →
      unitMap uname = some (10 ^ prec) →
      ((∀ c, c ∈ uname → c ≠ '.' ∧ c.isDigit = false) ∧ uname ≠ []) →
      parseDurationLoop (fmtInt (fmtFrac uname u prec).1 (fmtFrac uname u prec).2).length
          (fmtInt (fmtFrac uname u prec).1 (fmtFrac uname u prec).2) 0 = Except.ok u ∧
      ∃ x tail, fmtInt (fmtFrac uname u prec).1 (fmtFrac uname u prec).2
        = formatNat x ++ tail ∧ tail ≠ [] := by
    intro prec uname hprec hmap hch
    obtain ⟨tail, ht, htn⟩ := shape uname prec (fmtFrac uname u prec).2 hch.2
    refine ⟨?_, _, tail, ht, htn⟩
    obtain ⟨D, z, _, _, _, _, h5⟩ := fmtFrac_spec uname u prec
    have hpos : 0 < 10 ^ prec := Nat.pow_pos (by norm_num)
    have h := one prec uname hprec hmap hch 0 (u / 10 ^ prec)
      (Nat.div_le_div_right hu) (by rw [Nat.zero_add, hdm _ hpos]; exact hu) 0
    simp only [Nat.zero_add] at h
    rw [hdm _ hpos, ← h5] at h
    apply lift 1 _ _ h
    rw [ht]
    have := List.length_pos.2 (formatNat_ne_nil (fmtFrac uname u prec).2)
    simp only [List.length_append]
    omega
  constructor
  swap
  · intro hpos
    unfold durationBody
    split_ifs with h1 h2 h3 h4 h5 h6
    · omega
    · exact (sub 0 "ns".toList (by norm_num) rfl (unit_chars _ (by simp))).2
    · exact (sub 3 [Char.ofNat 0xC2, Char.ofNat 0xB5, 's'] (by norm_num) rfl (unit_chars _ (by simp))).2
    · exact (sub 6 "ms".toList (by norm_num) rfl (unit_chars _ (by simp))).2
    · exact ⟨_, _, fmtInt_eq _ _, by simp⟩
    · exact ⟨_, _, fmtInt_eq _ _, by simp⟩
    · exact ⟨_, shape "s".toList 9 _ (by decide)⟩
  · unfold durationBody
    split_ifs with h1 h2 h3 h4 h5 h6
    · subst h2; rfl
    · exact (sub 0 "ns".toList (by norm_num) rfl (unit_chars _ (by simp))).1
    · exact (sub 3 [Char.ofNat 0xC2, Char.ofNat 0xB5, 's'] (by norm_num) rfl (unit_chars _ (by simp))).1
    · exact (sub 6 "ms".toList (by norm_num) rfl (unit_chars _ (by simp))).1
    · obtain ⟨D, z, _, _, _, _, h5'⟩ := fmtFrac_spec "s".toList u 9
      have e9 : (10 : Nat) ^ 9 = 1000000000 := by norm_num
      rw [e9] at h5'
      rw [h5'] at h5 h6 ⊢
      obtain ⟨tail, ht, htn⟩ := shape "s".toList 9 (u / 1000000000 % 60) (by decide)
      have hsec := one 9 "s".toList (by norm_num) rfl (unit_chars _ (by simp))
        (u / 1000000000 / 60 / 60 * 3600000000000 + u / 1000000000 / 60 % 60 * 60000000000)
        (u / 1000000000 % 60) (by norm_num; omega) (by norm_num; omega) 0
      have hmin := parseDurationLoop_whole_group 1
        (u / 1000000000 / 60 / 60 * 3600000000000) (u / 1000000000 / 60 % 60) 60000000000
        "m".toList (fmtInt (fmtFrac "s".toList u 9).1 (u / 1000000000 % 60)) rfl
        (unit_chars _ (by simp)).1 (by decide)
        (by rw [ht]; exact formatNat_head_isDigit _ _) (by norm_num) (by norm_num; omega)
        (by omega)
      have hhour := parseDurationLoop_whole_group 2 0 (u / 1000000000 / 60 / 60) 3600000000000
        "h".toList (formatNat (u / 1000000000 / 60 % 60) ++
          ("m".toList ++ fmtInt (fmtFrac "s".toList u 9).1 (u / 1000000000 % 60))) rfl
        (unit_chars _ (by simp)).1 (by decide)
        (formatNat_head_isDigit _ _) (by norm_num) (by norm_num; omega) (by omega)
      rw [Nat.zero_add] at hhour
      have htotal : u / 1000000000 / 60 / 60 * 3600000000000 +
          u / 1000000000 / 60 % 60 * 60000000000 +
          (u / 1000000000 % 60 * 10 ^ 9 + u % 10 ^ 9) = u := by norm_num; omega
      rw [htotal] at hsec
      have hall : parseDurationLoop 3
          (fmtInt ('h' :: fmtInt ('m' :: fmtInt (fmtFrac "s".toList u 9).1
            (u / 1000000000 % 60)) (u / 1000000000 / 60 % 60)) (u / 1000000000 / 60 / 60)) 0
          = Except.ok u := by
        rw [fmtInt_eq, fmtInt_eq]
        exact hhour.trans (hmin.trans hsec)
      apply lift 3 _ _ hall
      rw [fmtInt_eq, fmtInt_eq, ht]
      have l1 := List.length_pos.2 (formatNat_ne_nil (u / 1000000000 / 60 / 60))
      have l2 := List.length_pos.2 (formatNat_ne_nil (u / 1000000000 / 60 % 60))
      have l3 := List.length_pos.2 (formatNat_ne_nil (u / 1000000000 % 60))
      simp only [List.length_append, List.length_cons]
      omega
    · obtain ⟨D, z, _, _, _, _, h5'⟩ := fmtFrac_spec "s".toList u 9
      have e9 : (10 : Nat) ^ 9 = 1000000000 := by norm_num
      rw [e9] at h5'
      rw [h5'] at h5 h6 ⊢
      obtain ⟨tail, ht, htn⟩ := shape "s".toList 9 (u / 1000000000 % 60) (by decide)
      have hsec := one 9 "s".toList (by norm_num) rfl (unit_chars _ (by simp))
        (u / 1000000000 / 60 % 60 * 60000000000)
        (u / 1000000000 % 60) (by norm_num; omega) (by norm_num; omega) 0
      have hmin := parseDurationLoop_whole_group 1 0 (u / 1000000000 / 60 % 60) 60000000000
        "m".toList (fmtInt (fmtFrac "s".toList u 9).1 (u / 1000000000 % 60)) rfl
        (unit_chars _ (by simp)).1 (by decide)
        (by rw [ht]; exact formatNat_head_isDigit _ _) (by norm_num) (by norm_num; omega)
        (by omega)
      rw [Nat.zero_add] at hmin
      have htotal : u / 1000000000 / 60 % 60 * 60000000000 +
          (u / 1000000000 % 60 * 10 ^ 9 + u % 10 ^ 9) = u := by norm_num; omega
      rw [htotal] at hsec
      have hall : parseDurationLoop 2
          (fmtInt ('m' :: fmtInt (fmtFrac "s".toList u 9).1
            (u / 1000000000 % 60)) (u / 1000000000 / 60 % 60)) 0
          = Except.ok u := by
        rw [fmtInt_eq]
        exact hmin.trans hsec
      apply lift 2 _ _ hall
      rw [fmtInt_eq, ht]
      have l2 := List.length_pos.2 (formatNat_ne_nil (u / 1000000000 / 60 % 60))
      have l3 := List.length_pos.2 (formatNat_ne_nil (u / 1000000000 % 60))
      simp only [List.length_append, List.length_cons]
      omega
    · obtain ⟨D, z, _, _, _, _, h5'⟩ := fmtFrac_spec "s".toList u 9
      have e9 : (10 : Nat) ^ 9 = 1000000000 := by norm_num
      rw [e9] at h5'
      rw [h5'] at h5 ⊢
      obtain ⟨tail, ht, htn⟩ := shape "s".toList 9 (u / 1000000000 % 60) (by decide)
      have hsec := one 9 "s".toList (by norm_num) rfl (unit_chars _ (by simp))
        0 (u / 1000000000 % 60) (by norm_num; omega) (by norm_num; omega) 0
      have htotal : 0 + (u / 1000000000 % 60 * 10 ^ 9 + u % 10 ^ 9) = u := by norm_num; omega
      rw [htotal] at hsec
      apply lift 1 _ _ hsec
      rw [ht]
      have l3 := List.length_pos.2 (formatNat_ne_nil (u / 1000000000 % 60))
      simp only [List.length_append]
      omega

/-! ## Claim about `Duration` -/

theorem parseDurationLoop_le : ∀ (fuel : Nat) (s : List Char) (d r : Nat),
    d ≤ 2 ^ 63 → parseDurationLoop fuel s d = Except.ok r → r ≤ 2 ^ 63
  | fuel, [], d, r, hd, h => by
    rw [parseDurationLoop_nil] at h
    cases h
    exact hd
  | 0, _ :: _, _, _, _, h => by simp [parseDurationLoop] at h
  | fuel + 1, c :: cs, d, r, hd, h => by
    unfold parseDurationLoop at h
    cases hg : parseGroup (c :: cs) with
    | error e => rw [hg] at h; simp at h
    | ok p =>
      obtain ⟨v, rest⟩ := p
      rw [hg] at h
      simp only at h
      split_ifs at h with hc
      exact parseDurationLoop_le fuel rest _ r (by omega) h

theorem ParseDuration_range (s : List Char) (v : Int) (h : ParseDuration s = Except.ok v) :
    -(2 ^ 63 : Int) ≤ v ∧ v < 2 ^ 63 := by
  unfold ParseDuration at h
  generalize consumeSign s = p at h
  by_cases h1 : p.2 = "0".toList
  · rw [if_pos h1] at h
    cases h
    constructor <;> norm_num
  · rw [if_neg h1] at h
    by_cases h2 : p.2 = []
    · rw [if_pos h2] at h
      cases h
    · rw [if_neg h2] at h
      cases hl : parseDurationLoop p.2.length p.2 0 with
      | error e => rw [hl] at h; cases h
      | ok d =>
        have hd := parseDurationLoop_le _ _ 0 d (by norm_num) hl
        rw [hl] at h
        simp only at h
        by_cases h3 : p.1 = true
        · rw [if_pos h3] at h
          cases h
          constructor <;> omega
        · rw [if_neg h3] at h
          by_cases h4 : d > 2 ^ 63 - 1
          · rw [if_pos h4] at h
            cases h
          · rw [if_neg h4] at h
            cases h
            constructor <;> omega

theorem ParseDuration_durationString (d : Int)
    (hlo : -(2 ^ 63 : Int) ≤ d) (hhi : d < 2 ^ 63) :
    ParseDuration (durationString d) = Except.ok d := by
  by_cases h0 : d = 0
  · subst h0; rfl
  · have hu : d.natAbs ≤ 2 ^ 63 := by omega
    have hpos : 0 < d.natAbs := by omega
    obtain ⟨hloop, hshape⟩ := parseDurationLoop_durationBody d.natAbs hu
    obtain ⟨x, tail, hb, htail⟩ := hshape hpos
    obtain ⟨c0, fs, hcf⟩ := List.exists_cons_of_ne_nil (formatNat_ne_nil x)
    have hc0 : c0.isDigit = true :=
      formatNat_isDigit x c0 (by rw [hcf]; exact List.mem_cons_self _ _)
    have hbody : durationBody d.natAbs = c0 :: (fs ++ tail) := by rw [hb, hcf]; rfl
    have hne0 : durationBody d.natAbs ≠ "0".toList := by
      rw [hbody]
      intro h
      have hlen := congrArg List.length h
      have := List.length_pos.2 htail
      simp only [List.length_cons, List.length_append] at hlen
      have : ("0".toList).length = 1 := rfl
      omega
    have hnil : durationBody d.natAbs ≠ [] := by rw [hbody]; simp
    unfold durationString
    by_cases hneg : d < 0
    · rw [if_pos hneg]
      have hcs : consumeSign ('-' :: durationBody d.natAbs) = (true, durationBody d.natAbs) := rfl
      unfold ParseDuration
      rw [hcs]
      simp only
      rw [if_neg hne0, if_neg hnil, hloop]
      simp only [if_true]
      congr 1
      omega
    · rw [if_neg hneg]
      have hm : c0 ≠ '-' := isDigit_ne hc0 _ rfl
      have hp : c0 ≠ '+' := isDigit_ne hc0 _ rfl
      have hcs : consumeSign (durationBody d.natAbs) = (false, durationBody d.natAbs) := by
        rw [hbody]
        unfold consumeSign
        simp [hm, hp]
      unfold ParseDuration
      rw [hcs]
      simp only
      rw [if_neg hne0, if_neg hnil, hloop]
      simp only [Bool.false_eq_true, if_false]
      rw [if_neg (by omega)]
      congr 1
      omega

/-- C14: for every text that `Duration.UnmarshalText` accepts, the parsed
duration is a signed 64-bit count of nanoseconds, `Duration.MarshalText` of it
returns a nil error, and unmarshalling the marshalled text succeeds and stores
the same duration: parse(format(parse(t))) = parse(t). -/
theorem Duration_roundtrip (recv recv' p : Duration) (text : List Char)
    (h : recv.UnmarshalText text = (p, none)) :
    (-(2 ^ 63 : Int) ≤ p.duration ∧ p.duration < 2 ^ 63) ∧
    p.MarshalText.2 = none ∧
    recv'.UnmarshalText p.MarshalText.1 = (p, none) := by
  unfold Duration.UnmarshalText at h
  cases hP : ParseDuration text with
  | error e => rw [hP] at h; simp at h
  | ok v =>
    rw [hP] at h
    simp only [Prod.mk.injEq, and_true] at h
    subst h
    have hr := ParseDuration_range text v hP
    refine ⟨hr, rfl, ?_⟩
    unfold Duration.UnmarshalText Duration.MarshalText
    simp only [ParseDuration_durationString v hr.1 hr.2]

/-- Witness for C14: `1h30m` parses to 5400000000000 ns, which is written
`1h30m0s` and parses to the same duration. -/
theorem Duration_roundtrip_witness :
    durationString 5400000000000 = "1h30m0s".toList ∧
    (⟨0⟩ : Duration).UnmarshalText (Duration.MarshalText ⟨5400000000000⟩).1
      = (⟨5400000000000⟩, none) :=
  ⟨rfl, (Duration_roundtrip ⟨0⟩ ⟨0⟩ ⟨5400000000000⟩ "1h30m".toList rfl).2.2⟩

/-! ## `Bytes.MarshalText` followed by `Bytes.UnmarshalText` -/

theorem float32Shift_div_pos : ∀ (fuel x : Nat), 0 < x → 0 < x / 2 ^ float32Shift fuel x
  | 0, x, h => by simpa [float32Shift] using h
  | fuel + 1, x, h => by
    unfold float32Shift
    split_ifs with hx
    · simpa using h
    · have ih := float32Shift_div_pos fuel (x / 2) (by omega)
      rw [pow_succ', ← Nat.div_div_eq_div_mul]
      exact ih

theorem le_roundHalfEven (a b : Nat) : a / b ≤ roundHalfEven a b := by
  unfold roundHalfEven
  split_ifs <;> omega

theorem roundHalfEven_le (a b M : Nat) (hb : 0 < b) (h : a ≤ M * b) : roundHalfEven a b ≤ M := by
  have hq : a / b ≤ M := Nat.div_le_of_le_mul (by rw [Nat.mul_comm]; exact h)
  rcases Nat.lt_or_eq_of_le hq with hlt | heq
  · unfold roundHalfEven
    split_ifs <;> omega
  · have hdm : b * (a / b) + a % b = a := Nat.div_add_mod a b
    rw [heq, Nat.mul_comm] at hdm
    have hr : a % b = 0 := by omega
    unfold roundHalfEven
    rw [hr, if_neg (by omega)]
    exact hq

theorem roundToFloat32_pos (x : Nat) (h : 0 < x) : 0 < roundToFloat32 x := by
  unfold roundToFloat32
  exact Nat.mul_pos
    (Nat.lt_of_lt_of_le (float32Shift_div_pos x x h) (le_roundHalfEven _ _))
    (Nat.pow_pos (by norm_num))

theorem roundToFloat32_le (x : Nat) (h : x ≤ 2 ^ 63) : roundToFloat32 x ≤ 2 ^ 63 := by
  have hs : float32Shift x x ≤ 40 :=
    float32Shift_le x x 40 (Nat.div_lt_of_lt_mul (by norm_num; omega))
  unfold roundToFloat32
  generalize float32Shift x x = s at hs ⊢
  have hpow : 2 ^ (63 - s) * 2 ^ s = 2 ^ 63 := by rw [← pow_add]; congr 1; omega
  have := roundHalfEven_le x (2 ^ s) (2 ^ (63 - s)) (Nat.pow_pos (by norm_num))
    (by rw [hpow]; exact h)
  calc roundHalfEven x (2 ^ s) * 2 ^ s ≤ 2 ^ (63 - s) * 2 ^ s := Nat.mul_le_mul_right _ this
    _ = 2 ^ 63 := hpow

theorem String_neg (x : Nat) (h0 : 0 < x) :
    Bytes.String ⟨-(x : Int)⟩ = '-' :: formatNat (roundToFloat32 x) := by
  have hr := roundToFloat32_pos x h0
  have hsp : sprintfF1 (float32OfInt64 (-(x : Int)))
      = ('-' :: formatNat (roundToFloat32 x)) ++ ".0".toList := by
    unfold sprintfF1 float32OfInt64
    have hneg : (-(x : Int)) < 0 := by omega
    have hneg' : (-(roundToFloat32 x : Int)) < 0 := by omega
    simp only [hneg, if_true, Int.natAbs_neg, Int.natAbs_ofNat, hneg', pow_zero,
      roundHalfEven_one]
    have e1 : roundToFloat32 x * 10 / 10 = roundToFloat32 x := by omega
    have e2 : roundToFloat32 x * 10 % 10 = 0 := by omega
    rw [e1, e2]
    simp [formatNat, decimalDigits, digitChar]
  unfold Bytes.String unitAndValue
  simp only [GiB, MiB, KiB, Byte]
  rw [if_neg (by omega), if_neg (by omega), if_neg (by omega), if_neg (by omega),
    if_neg (by omega)]
  simp only
  rw [hsp, TrimSuffix_append_self, List.append_nil]

theorem UnmarshalText_String_neg (recv : Bytes) (x : Nat) (h0 : 0 < x) (hx : x ≤ 2 ^ 63) :
    Bytes.UnmarshalText recv (Bytes.String ⟨-(x : Int)⟩)
      = some (⟨-(roundToFloat32 x : Int)⟩, none) := by
  rw [String_neg x h0]
  have hle := roundToFloat32_le x hx
  have hp := numeralValue_neg_formatNat (roundToFloat32 x)
  have h := UnmarshalText_of_parts recv ('-' :: formatNat (roundToFloat32 x)) [] Byte
    (-(roundToFloat32 x : Int))
    (by rw [List.append_nil]; exact unitAndSubIdx_numeral _ _ hp) hp
    ⟨by omega, by omega⟩
  rw [List.append_nil] at h
  rw [h]
  have hB : Byte = 1 := rfl
  rw [hB, Int.mul_one, wrapInt64_of_range _ (by omega) (by omega)]

/-- C6 (as stated) fails: 1536 is marshalled as `1.5KiB`, which
`Bytes.UnmarshalText` rejects; 1537 is marshalled to the same text, and 1 is
marshalled as `1B`, rejected as well; -16777217, which `float32` does not
represent, is marshalled as `-16777216` and unmarshals to -16777216. -/
theorem MarshalText_roundtrip_counterexample :
    (Bytes.MarshalText ⟨1536⟩).1 = "1.5KiB".toList ∧
    Bytes.UnmarshalText ⟨0⟩ (Bytes.MarshalText ⟨1536⟩).1 = some (⟨0⟩, some NumError.ErrSyntax) ∧
    (Bytes.MarshalText ⟨1537⟩).1 = (Bytes.MarshalText ⟨1536⟩).1 ∧
    (Bytes.MarshalText ⟨1⟩).1 = "1B".toList ∧
    Bytes.UnmarshalText ⟨0⟩ (Bytes.MarshalText ⟨1⟩).1 = some (⟨0⟩, some NumError.ErrSyntax) ∧
    (Bytes.MarshalText ⟨-16777217⟩).1 = "-16777216".toList ∧
    Bytes.UnmarshalText ⟨0⟩ (Bytes.MarshalText ⟨-16777217⟩).1 = some (⟨-16777216⟩, none) :=
  ⟨rfl, rfl, rfl, rfl, rfl, rfl, rfl⟩

/-- C6 (as the code behaves): for every value `b ≤ 0` in the signed 64-bit
range, `Bytes.MarshalText` returns a nil error and `Bytes.UnmarshalText` applied
to its text returns a nil error and stores `float32(b)`; hence the round trip
gives back `b` for every `b ≤ 0` that `float32` represents exactly, which
includes every `b = -(n * 2^k)` with `n < 2^24`: all of `-2^24 ≤ b ≤ 0`, and
`-2^25` and `-2^63`. -/
theorem MarshalText_roundtrip_nonpositive (recv b : Bytes)
    (hlo : -(2 ^ 63 : Int) ≤ b.int64) (hhi : b.int64 ≤ 0) :
    (Bytes.MarshalText b).2 = none ∧
    Bytes.UnmarshalText recv (Bytes.MarshalText b).1
      = some (⟨-(roundToFloat32 b.int64.natAbs : Int)⟩, none) ∧
    (roundToFloat32 b.int64.natAbs = b.int64.natAbs →
      Bytes.UnmarshalText recv (Bytes.MarshalText b).1 = some (b, none)) ∧
    ((∃ n k : Nat, n < 2 ^ 24 ∧ b.int64.natAbs = n * 2 ^ k) →
      Bytes.UnmarshalText recv (Bytes.MarshalText b).1 = some (b, none)) ∧
    (-(2 ^ 24 : Int) ≤ b.int64 →
      Bytes.UnmarshalText recv (Bytes.MarshalText b).1 = some (b, none)) := by
  obtain ⟨v⟩ := b
  simp only at hlo hhi ⊢
  have hstore : Bytes.UnmarshalText recv (Bytes.MarshalText ⟨v⟩).1
      = some (⟨-(roundToFloat32 v.natAbs : Int)⟩, none) := by
    show Bytes.UnmarshalText recv (Bytes.String ⟨v⟩) = _
    by_cases h0 : v = 0
    · subst h0
      rfl
    · obtain ⟨x, rfl⟩ : ∃ x : Nat, v = -(x : Int) := ⟨v.natAbs, by omega⟩
      rw [UnmarshalText_String_neg recv x (by omega) (by omega), Int.natAbs_neg,
        Int.natAbs_ofNat]
  have hexact : roundToFloat32 v.natAbs = v.natAbs →
      Bytes.UnmarshalText recv (Bytes.MarshalText ⟨v⟩).1 = some (⟨v⟩, none) := by
    intro he
    rw [hstore, he]
    have : -((v.natAbs : Nat) : Int) = v := by omega
    rw [this]
  refine ⟨rfl, hstore, hexact, ?_, ?_⟩
  · rintro ⟨n, k, hn, hv⟩
    exact hexact (by rw [hv]; exact roundToFloat32_mul_pow n k hn)
  · intro h24
    apply hexact
    by_cases hlt : v.natAbs < 2 ^ 24
    · exact roundToFloat32_small _ hlt
    · have : v.natAbs = 1 * 2 ^ 24 := by omega
      rw [this]
      exact roundToFloat32_mul_pow 1 24 (by norm_num)

/-- Witness for C6 (as the code behaves): `-2^63` is marshalled as
`-9223372036854775808`, which unmarshals to `-2^63`. -/
theorem MarshalText_roundtrip_nonpositive_witness :
    (Bytes.MarshalText ⟨-9223372036854775808⟩).1 = "-9223372036854775808".toList ∧
    Bytes.UnmarshalText ⟨0⟩ (Bytes.MarshalText ⟨-9223372036854775808⟩).1
      = some (⟨-9223372036854775808⟩, none) :=
  ⟨rfl, (MarshalText_roundtrip_nonpositive ⟨0⟩ ⟨-9223372036854775808⟩ (by decide)
    (by decide)).2.2.2.1 ⟨1, 63, by decide, by decide⟩⟩

end Goutils
